import Mathlib

/-!
MasterMind (Mm.c): the game engine.

A shallow embedding of the engine parts of `Mm.c`: the scoring routine
`TestGuess`, the code generator `PickCode`, the result table built by
`CreateImageLibrary`, the command handler `DoCommand` with `NewGame`, the
mouse handler `DoMouse`, the window procedure `WndProc`, and the reads that
`PaintBoard` makes of the game arrays.

Conventions of the embedding.

* C `int` values are `Int`.  Every number the engine computes is bounded by
  `nColor + 1 + 15`, so no machine overflow can occur and none is modelled.
* A C array of `n` elements is a function on `Fin n`.  An access whose index
  is a C `int` goes through `index?`; an index outside the array makes the
  routine return `none` (the C program has no defined behaviour there).
* Painting, cursor and button calls do not touch the game state and are
  left out of the handlers; `PaintBoard` is the list of the images it paints.
* `rand()` is a list of draws, consumed from the head; `PickCode` returns
  `none` when the list is used up before the code is complete.
-/

namespace MasterMind

/-! ## Constants and types -/

/-- Number of colors (`#define nColor 6`). -/
abbrev nColor : Nat := 6

/-- Number of pegs per move (`#define nPeg 4`). -/
abbrev nPeg : Nat := 4

/-- Maximum number of moves (`#define maxMove 10`). -/
abbrev maxMove : Nat := 10

/-- Peg value (`typedef int PEG`). -/
abbrev PEG := Int

/-- PEG color of an empty peg box (`#define PEG_BLANK (nColor)`). -/
def PEG_BLANK : PEG := nColor

/-- A guess (`typedef PEG GUESS[nPeg]`). -/
abbrev GUESS := Fin nPeg → PEG

/-- One row of the game history (`struct _MOVE`). -/
structure MOVE where
  /-- The guess. -/
  guess : GUESS
  /-- Pegs that match both position and color. -/
  cPosition : Int
  /-- Pegs that match color but not position. -/
  cColor : Int

instance : DecidableEq MOVE := fun a b =>
  decidable_of_iff (a.guess = b.guess ∧ a.cPosition = b.cPosition ∧ a.cColor = b.cColor)
    (by cases a; cases b; simp)

/-- The game fields of the global variables (`struct _GLOBAL`). -/
structure GLOBAL where
  /-- The code. -/
  guessCode : GUESS
  /-- Current move index. -/
  iMove : Int
  /-- The game history. -/
  amove : Fin maxMove → MOVE
  /-- TRUE when the current game is over. -/
  fGameOver : Bool
  /-- TRUE when the player won the current game. -/
  fGameWon : Bool
  /-- TRUE when the guess button is enabled. -/
  fGuessAllowed : Bool

instance : DecidableEq GLOBAL := fun a b =>
  decidable_of_iff
    (a.guessCode = b.guessCode ∧ a.iMove = b.iMove ∧ a.amove = b.amove ∧
      a.fGameOver = b.fGameOver ∧ a.fGameWon = b.fGameWon ∧ a.fGuessAllowed = b.fGuessAllowed)
    (by cases a; cases b; simp)

/-- Checked use of a C `int` as an index into an array of `n` elements. -/
def index? (n : Nat) (j : Int) : Option (Fin n) :=
  if h : 0 ≤ j ∧ j < n then some ⟨j.toNat, by omega⟩ else none

/-! ## TestGuess -/

/-- The local arrays `guessColors[nColor]` and `codeColors[nColor]`. -/
abbrev ColorCounts := Fin nColor → Int

/-- The statement `a[j] += d` on a color-count array, `j` a peg value. -/
def bump (a : ColorCounts) (j : PEG) (d : Int) : Option ColorCounts :=
  (index? nColor j).map (fun k => Function.update a k (a k + d))

/-- Body of the loop "Count colors in guess and code" at slot `i`;
the state is `(guessColors, codeColors)`. -/
def countStep (guess code : GUESS) (st : ColorCounts × ColorCounts) (i : Fin nPeg) :
    Option (ColorCounts × ColorCounts) := do
  let gc ← bump st.1 (guess i) 1
  let cc ← bump st.2 (code i) 1
  pure (gc, cc)

/-- Body of the loop "Count exact matches" at slot `i`; the state is
`(guessColors, codeColors, cPosition)`. -/
def exactStep (guess code : GUESS) (st : ColorCounts × ColorCounts × Int) (i : Fin nPeg) :
    Option (ColorCounts × ColorCounts × Int) :=
  let j := guess i
  if j = code i then do
    let gc ← bump st.1 j (-1)
    let cc ← bump st.2.1 j (-1)
    pure (gc, cc, st.2.2 + 1)
  else
    pure st

/-- The loop "Count color matches that remain after exact matches". -/
def colorLoop (gc cc : ColorCounts) : Int :=
  (List.finRange nColor).foldl (fun cColor i => cColor + min (cc i) (gc i)) 0

/-- The scoring part of `TestGuess`: the pair `(cPosition, cColor)` found for
a guess against a code. -/
def scoreGuess (guess code : GUESS) : Option (Int × Int) := do
  let z : ColorCounts := fun _ => 0
  let st ← (List.finRange nPeg).foldlM (countStep guess code) (z, z)
  let st ← (List.finRange nPeg).foldlM (exactStep guess code) (st.1, st.2, 0)
  pure (st.2.2, colorLoop st.1 st.2.1)

/-- `TestGuess`: score row `g.iMove` against the code, store the findings in
that row, and return whether the guess matches the code. -/
def TestGuess (g : GLOBAL) : Option (Bool × GLOBAL) := do
  let n ← index? maxMove g.iMove
  let sc ← scoreGuess (g.amove n).guess g.guessCode
  let mv : MOVE := { (g.amove n) with cPosition := sc.1, cColor := sc.2 }
  pure (decide (sc.1 = nPeg), { g with amove := Function.update g.amove n mv })

/-! ## PickCode and NewGame -/

/-- The loop "Loop until we have filled in all the pegs" of `PickCode`:
`fColor` are the color flags, `code` is `g.guessCode`, `i` the next slot.
Each pass takes one draw `r` for `rand()` (a non-negative `int`).  The result
is the code and the draws left over, or `none` when the draws run out while
`i < nPeg`. -/
def PickCodeLoop (fColor : Fin nColor → Int) (code : GUESS) (i : Nat) :
    List Nat → Option (GUESS × List Nat)
  | [] => if i < nPeg then none else some (code, [])
  | r :: draws =>
    if h : i < nPeg then
      let j : Fin nColor := ⟨r % nColor, Nat.mod_lt r (by decide)⟩
      if fColor j = 0 then
        PickCodeLoop (Function.update fColor j 1) (Function.update code ⟨i, h⟩ (j.val : Int))
          (i + 1) draws
      else
        PickCodeLoop fColor code i draws
    else some (code, r :: draws)

/-- `PickCode`: create a new code from the draws of `rand()`. -/
def PickCode (g : GLOBAL) (draws : List Nat) : Option (GLOBAL × List Nat) :=
  (PickCodeLoop (fun _ => 0) g.guessCode 0 draws).map
    (fun r => ({ g with guessCode := r.1 }, r.2))

/-- `NewGame`: start a new game. -/
def NewGame (g : GLOBAL) (draws : List Nat) : Option (GLOBAL × List Nat) := do
  let g : GLOBAL := { g with
    iMove := 0
    amove := fun _ => { guess := fun _ => PEG_BLANK, cPosition := 0, cColor := 0 } }
  let (g, draws) ← PickCode g draws
  pure ({ g with fGuessAllowed := false, fGameOver := false, fGameWon := false }, draws)

/-! ## DoCommand -/

/-- Menu id `IDM_ABOUT` (MM.H). -/
def IDM_ABOUT : Nat := 22

/-- Control id `IDC_GUESS` (MM.H). -/
def IDC_GUESS : Nat := 30

/-- Control id `IDC_NEW_GAME` (MM.H). -/
def IDC_NEW_GAME : Nat := 31

/-- `DoCommand`: handle a COMMAND message `wParam`.  `fResign` is the answer
`QueryResignGame` gets from the player when it is asked, `draws` are the
draws of `rand()` still to come. -/
def DoCommand (wParam : Nat) (fResign : Bool) (draws : List Nat) (g : GLOBAL) :
    Option (GLOBAL × List Nat) :=
  if wParam = IDM_ABOUT then
    some (g, draws)
  else if wParam = IDC_GUESS then do
    let (f, g) ← TestGuess g
    let g : GLOBAL := { g with fGuessAllowed := false }
    if f then
      pure ({ g with fGameOver := true, fGameWon := true }, draws)
    else
      let g : GLOBAL := { g with iMove := g.iMove + 1 }
      if g.iMove ≥ maxMove then
        pure ({ g with iMove := maxMove - 1, fGameOver := true, fGameWon := false }, draws)
      else
        pure (g, draws)
  else if wParam = IDC_NEW_GAME then
    if g.iMove > 0 ∧ g.fGameOver = false then
      if fResign then
        some ({ g with fGameOver := true, fGameWon := false }, draws)
      else
        some (g, draws)
    else
      NewGame g draws
  else
    some (g, draws)

/-! ## CreateImageLibrary: the result table -/

/-- The array `int mpResultToLibrary[nPeg+1][nPeg+1]`. -/
abbrev ResultTable := Fin (nPeg + 1) → Fin (nPeg + 1) → Int

/-- Body of the inner loop of "Draw all valid combinations of Result Pin
Patterns" at `(iPos, iClr)`; the state is `(mpResultToLibrary, iPinBox)`. -/
def pinBoxStep (iPos : Fin (nPeg + 1)) (st : ResultTable × Int) (iClr : Fin (nPeg + 1)) :
    ResultTable × Int :=
  if iPos.val + iClr.val > nPeg then
    (Function.update st.1 iPos (Function.update (st.1 iPos) iClr (-1)), st.2)
  else
    (Function.update st.1 iPos (Function.update (st.1 iPos) iClr st.2), st.2 + 1)

/-- `CreateImageLibrary`, the part that fills the result table: from the
table as it is before the call to the table after it and the final value of
`iPinBox`. -/
def CreateImageLibrary (mp : ResultTable) : ResultTable × Int :=
  (List.finRange (nPeg + 1)).foldl
    (fun st iPos => (List.finRange (nPeg + 1)).foldl (pinBoxStep iPos) st)
    (mp, (nColor : Int) + 1)

/-- The table `mpResultToLibrary` once `CreateImageLibrary` has run on the
zero-initialised global array. -/
def mpResultToLibrary : ResultTable := (CreateImageLibrary (fun _ _ => 0)).1

/-- Class id of a result: the place of its image among the result pin
patterns, `mpResultToLibrary[cPos][cClr] - (nColor + 1)`; the entry `-1` of an
invalid combination stays `-1`. -/
def classify (cPos cClr : Fin (nPeg + 1)) : Int :=
  if mpResultToLibrary cPos cClr = -1 then -1
  else mpResultToLibrary cPos cClr - ((nColor : Int) + 1)

/-- Number of result pin patterns `CreateImageLibrary` has drawn: the final
`iPinBox` less the index of the first pin box. -/
def totalClasses : Int := (CreateImageLibrary (fun _ _ => 0)).2 - ((nColor : Int) + 1)

/-- All pairs `(cPos, cClr)` in the order the loops of `CreateImageLibrary`
visit them. -/
def allPairs : List (Fin (nPeg + 1) × Fin (nPeg + 1)) :=
  (List.finRange (nPeg + 1)).flatMap (fun p => (List.finRange (nPeg + 1)).map (fun c => (p, c)))

/-- Inverse lookup in the result table: the pair whose class id is `k`.  The
source only looks the table up forwards; this is the inverse the
specification calls `declassify`. -/
def declassify (k : Int) : Option (Fin (nPeg + 1) × Fin (nPeg + 1)) :=
  if 0 ≤ k then allPairs.find? (fun pc => classify pc.1 pc.2 = k) else none

/-! ## Layout of the client area -/

/-- `#define cxPegBox 24`, x width of a peg box. -/
def cxPegBox : Int := 24

/-- `#define cyPegBox 24`, y height of a peg box. -/
def cyPegBox : Int := 24

/-- `#define cxBorder 8`, x width of the client border. -/
def cxBorder : Int := 8

/-- `#define cyBorder 8`, y width of the client border. -/
def cyBorder : Int := 8

/-- `#define cxResult (cxPinBox)` with `#define cxPinBox (cxPegBox)`. -/
def cxResult : Int := cxPegBox

/-- `#define cxMove (nPeg*cxPegBox)`, x width of the move area. -/
def cxMove : Int := nPeg * cxPegBox

/-- `#define cyMove (maxMove*cyPegBox)`, y height of the move area. -/
def cyMove : Int := maxMove * cyPegBox

/-- `#define cxWell (nColor*cxPegBox)`, x width of the well area. -/
def cxWell : Int := nColor * cxPegBox

/-- `#define cyWell (cyPegBox)`, y height of the well area. -/
def cyWell : Int := cyPegBox

/-- `#define cxMoveToResult 8`. -/
def cxMoveToResult : Int := 8

/-- `#define cyWellToMove 8`. -/
def cyWellToMove : Int := 8

/-- `#define xWell (cxBorder)`, x left of the well area. -/
def xWell : Int := cxBorder

/-- `#define yWell (cyBorder)`, y top of the well area. -/
def yWell : Int := cyBorder

/-- `#define xMove (xWell + (cxWell - (cxMove+cxResult+cxMoveToResult))/2)`. -/
def xMove : Int := xWell + (cxWell - (cxMove + cxResult + cxMoveToResult)) / 2

/-- `#define yMove (yWell+cyWell+cyWellToMove)`, y top of the move area. -/
def yMove : Int := yWell + cyWell + cyWellToMove

/-- `MouseInArea`: is the coordinate `(xM, yM)` in the area at `(x, y)` of
size `(cx, cy)`? -/
def MouseInArea (xM yM x y cx cy : Int) : Bool :=
  decide (x ≤ xM ∧ xM < x + cx ∧ y ≤ yM ∧ yM < y + cy)

/-! ## DoMouse -/

/-- Where is the mouse (`typedef enum {WH_NOTOURS,WH_WELL,WH_MOVE} WHERE`). -/
inductive WHERE where
  | WH_NOTOURS
  | WH_WELL
  | WH_MOVE
  deriving DecidableEq

/-- The static variables of `DoMouse`. -/
structure MOUSE where
  /-- TRUE when a peg is being dragged. -/
  fDragging : Bool
  /-- Column of the source of a drag in the move area. -/
  ixMoveSrc : Int
  /-- Row of the source of a drag in the move area. -/
  iyMoveSrc : Int
  /-- Color of the peg being moved. -/
  pegColor : PEG
  /-- Where the peg came from during a drag. -/
  whSource : WHERE
  deriving DecidableEq

/-- The static variables of `DoMouse` at program start: `fDragging=FALSE`,
the others zero. -/
def mouseInit : MOUSE :=
  { fDragging := false, ixMoveSrc := 0, iyMoveSrc := 0, pegColor := 0,
    whSource := WHERE.WH_NOTOURS }

/-- Message `WM_CREATE` (windows.h). -/
def WM_CREATE : Nat := 0x0001

/-- Message `WM_KEYDOWN` (windows.h). -/
def WM_KEYDOWN : Nat := 0x0100

/-- Message `WM_COMMAND` (windows.h). -/
def WM_COMMAND : Nat := 0x0111

/-- Message `WM_MOUSEMOVE` (windows.h). -/
def WM_MOUSEMOVE : Nat := 0x0200

/-- Message `WM_LBUTTONDOWN` (windows.h). -/
def WM_LBUTTONDOWN : Nat := 0x0201

/-- Message `WM_LBUTTONUP` (windows.h). -/
def WM_LBUTTONUP : Nat := 0x0202

/-- Message `WM_LBUTTONDBLCLK` (windows.h). -/
def WM_LBUTTONDBLCLK : Nat := 0x0203

/-- Message `WM_RBUTTONUP` (windows.h). -/
def WM_RBUTTONUP : Nat := 0x0205

/-- Message `WM_RBUTTONDBLCLK` (windows.h). -/
def WM_RBUTTONDBLCLK : Nat := 0x0206

/-- Virtual key `VK_RETURN` (windows.h). -/
def VK_RETURN : Nat := 0x0D

/-- The read `g.amove[iy].guess[ix]`. -/
def getPeg (g : GLOBAL) (iy ix : Int) : Option PEG := do
  let r ← index? maxMove iy
  let c ← index? nPeg ix
  pure ((g.amove r).guess c)

/-- The write `g.amove[iy].guess[ix] = peg`. -/
def setPeg (g : GLOBAL) (iy ix : Int) (peg : PEG) : Option GLOBAL := do
  let r ← index? maxMove iy
  let c ← index? nPeg ix
  pure { g with amove := (Function.update g.amove r
    ⟨Function.update (g.amove r).guess c peg, (g.amove r).cPosition, (g.amove r).cColor⟩) }

/-- The loop "Copy move down from previous row":
`g.amove[iyDst].guess[i] = g.amove[iySrc].guess[i]` for every slot `i`. -/
def copyRow (g : GLOBAL) (iyDst iySrc : Int) : Option GLOBAL :=
  (List.finRange nPeg).foldlM
    (fun g i => do
      let peg ← getPeg g iySrc (i.val : Int)
      setPeg g iyDst (i.val : Int) peg)
    g

/-- The loop "Count number of pegs" of row `iy`. -/
def countPegs (g : GLOBAL) (iy : Int) : Option Int :=
  (List.finRange nPeg).foldlM
    (fun j i => do
      let peg ← getPeg g iy (i.val : Int)
      pure (if peg ≠ PEG_BLANK then j + 1 else j))
    0

/-- The step "See if we have to do a move/exchange" of a drop in `DoMouse`:
when the peg came from the active row `iyMove` itself, its old slot gets
`j`, the peg the destination held. -/
def exchangePeg (g : GLOBAL) (m : MOUSE) (iyMove : Int) (j : PEG) : Option GLOBAL :=
  if m.whSource = WHERE.WH_MOVE then
    if m.iyMoveSrc = iyMove then setPeg g m.iyMoveSrc m.ixMoveSrc j else some g
  else some g

/-- The drop of the dragged peg on slot `ixMove` of the active row `iyMove`
in `DoMouse` ("Set color of destination", "See if we have to do a
move/exchange", "if all pegs are placed, enable Guess button"). -/
def dropPeg (g : GLOBAL) (m : MOUSE) (ixMove iyMove : Int) : Option GLOBAL := do
  let j ← getPeg g iyMove ixMove
  let g ← setPeg g iyMove ixMove m.pegColor
  let g ← exchangePeg g m iyMove j
  let j ← countPegs g iyMove
  pure (if j = nPeg then { g with fGuessAllowed := true } else g)

/-- `DoMouse`: handle the mouse message `msg` at the client coordinates
`(x, y)` (the low and high word of `lParam`).  The result is the return
value (TRUE when the message was handled), the globals and the static
variables.  Reads of the board that only choose a cursor are left out. -/
def DoMouse (msg : Nat) (x y : Int) (g : GLOBAL) (m : MOUSE) : Option (Bool × GLOBAL × MOUSE) :=
  if MouseInArea x y xWell yWell cxWell cyWell then
    let iWell := (x - xWell) / cxPegBox
    if msg = WM_MOUSEMOVE then
      some (true, g, m)
    else if msg = WM_LBUTTONDOWN then
      some (true, g, { m with pegColor := iWell, fDragging := true, whSource := WHERE.WH_WELL })
    else if msg = WM_LBUTTONUP then
      some (true, g, if m.fDragging then { m with fDragging := false } else m)
    else
      some (false, g, m)
  else if MouseInArea x y xMove yMove cxMove cyMove then
    let ixMove := (x - xMove) / cxPegBox
    let iyMove := (y - yMove) / cyPegBox
    if msg = WM_MOUSEMOVE then
      some (true, g, m)
    else if msg = WM_LBUTTONDOWN then do
      let pegColor ← getPeg g iyMove ixMove
      let m : MOUSE := { m with pegColor := pegColor }
      if pegColor = PEG_BLANK then
        pure (true, g, m)
      else
        pure (true, g, { m with ixMoveSrc := ixMove, iyMoveSrc := iyMove, fDragging := true,
                                whSource := WHERE.WH_MOVE })
    else if msg = WM_LBUTTONDBLCLK then
      if iyMove = g.iMove then
        if g.iMove = 0 then
          some (true, g, m)
        else do
          let g ← copyRow g iyMove (iyMove - 1)
          pure (true, { g with fGuessAllowed := true }, m)
      else
        some (true, g, m)
    else if msg = WM_LBUTTONUP then
      if m.fDragging then
        let m : MOUSE := { m with fDragging := false }
        if iyMove ≠ g.iMove then
          some (true, g, m)
        else
          (dropPeg g m ixMove iyMove).map (fun g => (true, g, m))
      else
        some (true, g, m)
    else
      some (false, g, m)
  else
    if msg = WM_MOUSEMOVE then
      some (true, g, m)
    else if msg = WM_LBUTTONUP then
      some (true, g, if m.fDragging then { m with fDragging := false } else m)
    else
      some (false, g, m)

/-! ## WndProc -/

/-- The state of the program: the globals, the static variables of
`DoMouse`, and the draws of `rand()` still to come. -/
structure APP where
  /-- The global variables. -/
  g : GLOBAL
  /-- The static variables of `DoMouse`. -/
  mouse : MOUSE
  /-- The draws of `rand()` still to come. -/
  draws : List Nat

/-- A message for `WndProc`: `msg`, `wParam`, the low word `x` and the high
word `y` of `lParam`, and the answer `fResign` the player gives if
`QueryResignGame` asks. -/
structure EVENT where
  /-- The message. -/
  msg : Nat
  /-- The word parameter. -/
  wParam : Nat
  /-- `LOWORD(lParam)`. -/
  x : Nat
  /-- `HIWORD(lParam)`. -/
  y : Nat
  /-- The answer to `QueryResignGame`. -/
  fResign : Bool

/-- `WndProc`: the main window procedure.  `WM_PAINT`, `WM_DESTROY` and the
messages left to `DefWindowProc` do not change the state. -/
def WndProc (e : EVENT) (a : APP) : Option APP :=
  if e.msg = WM_CREATE then
    (NewGame a.g a.draws).map (fun r => { a with g := r.1, draws := r.2 })
  else if e.msg = WM_KEYDOWN then
    if e.wParam = VK_RETURN ∧ a.g.fGuessAllowed = true then
      (DoCommand IDC_GUESS e.fResign a.draws a.g).map (fun r => { a with g := r.1, draws := r.2 })
    else
      some a
  else if e.msg = WM_COMMAND then
    (DoCommand e.wParam e.fResign a.draws a.g).map (fun r => { a with g := r.1, draws := r.2 })
  else if e.msg = WM_RBUTTONDBLCLK ∨ e.msg = WM_RBUTTONUP then
    if a.g.fGuessAllowed = true then
      (DoCommand IDC_GUESS e.fResign a.draws a.g).map (fun r => { a with g := r.1, draws := r.2 })
    else
      some a
  else if e.msg = WM_LBUTTONDBLCLK ∨ e.msg = WM_LBUTTONDOWN ∨ e.msg = WM_LBUTTONUP
      ∨ e.msg = WM_MOUSEMOVE then
    if a.g.fGameOver = true then
      some a
    else
      (DoMouse e.msg (e.x : Int) (e.y : Int) a.g a.mouse).map
        (fun r => { a with g := r.2.1, mouse := r.2.2 })
  else
    some a

/-- Messages handled one after another. -/
def runEvents (es : List EVENT) (a : APP) : Option APP :=
  es.foldlM (fun a e => WndProc e a) a

/-! ## PaintResultSub -/

/-- `PaintResultSub`: the image index `mpResultToLibrary[iPos][iClr]` it
hands to `PaintLibrary` for row `iMove`. -/
def PaintResultSub (g : GLOBAL) (iMove : Int) : Option Int := do
  let n ← index? maxMove iMove
  let iPos ← index? (nPeg + 1) (g.amove n).cPosition
  let iClr ← index? (nPeg + 1) (g.amove n).cColor
  pure (mpResultToLibrary iPos iClr)

/-! ## Scoring: counts named by the specification -/

/-- A peg value is a color: it lies in `[0, nColor)`. -/
def IsColor (j : Int) : Prop := 0 ≤ j ∧ j < nColor

instance (j : Int) : Decidable (IsColor j) := by unfold IsColor; infer_instance

/-- A complete guess (or a code): every slot holds a color. -/
def Complete (v : GUESS) : Prop := ∀ i, IsColor (v i)

instance (v : GUESS) : Decidable (Complete v) := by unfold Complete; infer_instance

/-- Occurrence count of color `k` in `v`. -/
def occ (v : GUESS) (k : Int) : Nat := (Finset.univ.filter (fun i => v i = k)).card

/-- Number of slots where guess and code both hold color `k`. -/
def exactAt (guess code : GUESS) (k : Int) : Nat :=
  (Finset.univ.filter (fun i => guess i = code i ∧ guess i = k)).card

/-- Number of slots where guess and code agree. -/
def exactCount (guess code : GUESS) : Nat :=
  (Finset.univ.filter (fun i => guess i = code i)).card

/-- The score named by the specification: the number of exact matches, and
the sum over the colors of `min (G_k - E_k) (C_k - E_k)`. -/
def specScore (guess code : GUESS) : Int × Int :=
  ((exactCount guess code : Int),
    ∑ k : Fin nColor, min ((occ guess k : Int) - exactAt guess code k)
                          ((occ code k : Int) - exactAt guess code k))

/-- Closed form of the state the guess command leaves when row `n` is the
active row: the score named by the specification is stored in row `n`, the
guess button is disabled, and the game is won, lost or moved on one row. -/
def afterGuess (g : GLOBAL) (n : Fin maxMove) : GLOBAL :=
  let sc := specScore (g.amove n).guess g.guessCode
  let rows := Function.update g.amove n ⟨(g.amove n).guess, sc.1, sc.2⟩
  if sc.1 = nPeg then
    { g with amove := rows, fGuessAllowed := false, fGameOver := true, fGameWon := true }
  else if g.iMove + 1 ≥ maxMove then
    { g with amove := rows, fGuessAllowed := false, iMove := maxMove - 1,
             fGameOver := true, fGameWon := false }
  else
    { g with amove := rows, fGuessAllowed := false, iMove := g.iMove + 1 }

/-! ## Invariant of the PickCode loop -/

/-- Invariant of the loop of `PickCode` before slot `i` is filled: every
slot below `i` holds a color whose flag is set, and no two slots below `i`
hold the same color. -/
def PickInv (fColor : Fin nColor → Int) (code : GUESS) (i : Nat) : Prop :=
  (∀ s : Fin nPeg, s.val < i → ∃ k : Fin nColor, code s = (k.val : Int) ∧ fColor k ≠ 0) ∧
  (∀ s t : Fin nPeg, s.val < i → t.val < i → code s = code t → s = t)

/-! ## The code as the first distinct colors of the draws -/

/-- The first `n` pairwise-distinct values of `r % nColor` over the draws, in
order of first occurrence and not among `seen`, with the draws left over
after the draw that gives the last of them: a draw whose color is in `seen`
is skipped, a new color is taken and remembered, and nothing is consumed
once `n` colors are taken.  `none` when the draws hold fewer than `n` new
colors. -/
def firstDistinct (n : Nat) (seen : List Nat) : List Nat → Option (List Nat × List Nat)
  | [] => if n = 0 then some ([], []) else none
  | r :: draws =>
    if n = 0 then some ([], r :: draws)
    else if r % nColor ∈ seen then firstDistinct n seen draws
    else (firstDistinct (n - 1) (r % nColor :: seen) draws).map
      (fun p => (r % nColor :: p.1, p.2))

/-- The first `i` pegs of a code, as a list. -/
def codePrefix (code : GUESS) (i : Nat) : List Int :=
  ((List.finRange nPeg).map code).take i

/-! ## Playing a sequence of guesses -/

/-- One guess submitted: the pegs are put in the active row `amove[iMove]`
(when the row is full the mouse handler has enabled the guess button), then
the guess command is issued.  The row is written and the command run
whether or not the game is over, as `DoCommand` itself does not look at
`fGameOver`. -/
def submitGuess (g : GLOBAL) (guess : GUESS) : Option GLOBAL := do
  let n ← index? maxMove g.iMove
  let g : GLOBAL :=
    { g with amove := (Function.update g.amove n ⟨guess, (g.amove n).cPosition, (g.amove n).cColor⟩),
             fGuessAllowed := true }
  let r ← DoCommand IDC_GUESS false [] g
  pure r.1

/-- Guesses submitted one after another. -/
def playGuesses (g : GLOBAL) (gs : List GUESS) : Option GLOBAL :=
  gs.foldlM submitGuess g

/-- Invariant of a game with code `code` after `k` submitted guesses, `w`
saying that one of them was the code: the move index is a row, it is `k`
while the game is in progress, the game is over exactly when `w` holds or
`k` has reached `maxMove`, and the game is not won unless `w` holds. -/
def RunInv (code : GUESS) (k : Nat) (w : Prop) (g : GLOBAL) : Prop :=
  g.guessCode = code ∧
  (∃ n : Fin maxMove, g.iMove = (n.val : Int) ∧ (g.fGameOver = false → n.val = k)) ∧
  (g.fGameOver = true ↔ w ∨ maxMove ≤ k) ∧
  (¬ w → g.fGameWon = false)

/-! ## Frames and reachable states -/

/-- From `g` to `g'` nothing changed but pegs of row `iy` and the
guess-button flag: the code, the move index, the flags `fGameOver` and
`fGameWon`, every score and every other row are the same. -/
def PegsOnly (iy : Int) (g g' : GLOBAL) : Prop :=
  g'.guessCode = g.guessCode ∧ g'.iMove = g.iMove ∧ g'.fGameOver = g.fGameOver ∧
  g'.fGameWon = g.fGameWon ∧
  (∀ i, (g'.amove i).cPosition = (g.amove i).cPosition ∧
        (g'.amove i).cColor = (g.amove i).cColor) ∧
  (∀ i : Fin maxMove, (i.val : Int) ≠ iy → g'.amove i = g.amove i)

/-- Does the message `e` make `WndProc` call `NewGame` in state `a`? -/
def StartsNewGame (e : EVENT) (a : APP) : Prop :=
  e.msg = WM_CREATE ∨
  (e.msg = WM_COMMAND ∧ e.wParam = IDC_NEW_GAME ∧ ¬ (a.g.iMove > 0 ∧ a.g.fGameOver = false))

/-- Row `i` stores the score of its pegs against the code. -/
def Scored (g : GLOBAL) (i : Fin maxMove) : Prop :=
  ((g.amove i).cPosition, (g.amove i).cColor) = specScore (g.amove i).guess g.guessCode

/-- Row `i` has already been scored: it lies below the move index, or it is
the row of the move index, the game is over and the row stores its score. -/
def AlreadyScored (g : GLOBAL) (i : Fin maxMove) : Prop :=
  (i.val : Int) < g.iMove ∨ ((i.val : Int) = g.iMove ∧ g.fGameOver = true ∧ Scored g i)

/-- States joined by messages none of which starts a new game. -/
inductive Play : APP → APP → Prop
  | refl (a : APP) : Play a a
  | step {a b c : APP} (e : EVENT) :
      Play a b → ¬ StartsNewGame e b → WndProc e b = some c → Play a c

/-- A result a row may hold. -/
def FeasibleRow (mv : MOVE) : Prop :=
  0 ≤ mv.cPosition ∧ 0 ≤ mv.cColor ∧ mv.cPosition + mv.cColor ≤ nPeg ∧
  (mv.cPosition = nPeg → mv.cColor = 0)

/-- The guess command comes from the Guess button only while the button is
enabled. -/
def Admissible (e : EVENT) (a : APP) : Prop :=
  e.msg = WM_COMMAND → e.wParam = IDC_GUESS → a.g.fGuessAllowed = true

/-- States reachable from a `NewGame` by messages: mouse messages, keys, the
New Game command and guess commands issued while the guess is allowed. -/
inductive Reachable : APP → Prop
  | newGame (g : GLOBAL) (m : MOUSE) (draws : List Nat) (r : GLOBAL × List Nat) :
      NewGame g draws = some r → Reachable ⟨r.1, m, r.2⟩
  | step {a a' : APP} (e : EVENT) :
      Reachable a → Admissible e a → WndProc e a = some a' → Reachable a'

/-! ## Sample states -/

/-- A state in progress at row 0: code `[4,5,2,3]`, active row `[4,2,5,3]`. -/
def gMixed : GLOBAL :=
  { guessCode := ![4, 5, 2, 3]
    iMove := 0
    amove := fun _ => { guess := ![4, 2, 5, 3], cPosition := 0, cColor := 0 }
    fGameOver := false
    fGameWon := false
    fGuessAllowed := true }

/-- A state in progress at row 3 whose code and active row both repeat
colors: code `[1,2,1,1]`, active row `[1,1,2,2]`. -/
def gRepeat : GLOBAL :=
  { guessCode := ![1, 2, 1, 1]
    iMove := 3
    amove := fun _ => { guess := ![1, 1, 2, 2], cPosition := 0, cColor := 0 }
    fGameOver := false
    fGameWon := false
    fGuessAllowed := true }

/-- A state in progress at row 2 whose active row is the code `[0,1,2,3]`. -/
def gSolved : GLOBAL :=
  { guessCode := ![0, 1, 2, 3]
    iMove := 2
    amove := fun _ => { guess := ![0, 1, 2, 3], cPosition := 0, cColor := 0 }
    fGameOver := false
    fGameWon := false
    fGuessAllowed := true }

/-- A state in progress at the last row, `maxMove - 1`, whose active row is
the code `[0,1,2,3]`. -/
def gLastSolved : GLOBAL :=
  { guessCode := ![0, 1, 2, 3]
    iMove := 9
    amove := fun _ => { guess := ![0, 1, 2, 3], cPosition := 0, cColor := 0 }
    fGameOver := false
    fGameWon := false
    fGuessAllowed := true }

/-- A state in progress at the last row, `maxMove - 1`, whose active row
`[4,2,5,3]` is not the code `[4,5,2,3]`. -/
def gLastMixed : GLOBAL :=
  { guessCode := ![4, 5, 2, 3]
    iMove := 9
    amove := fun _ => { guess := ![4, 2, 5, 3], cPosition := 0, cColor := 0 }
    fGameOver := false
    fGameWon := false
    fGuessAllowed := true }

/-- Ten guesses, none of them the code `[3,0,1,2]`. -/
def tenMisses : List GUESS := List.replicate 10 ![4, 2, 5, 3]

/-- A game that is over and lost at the last row: code `[4,5,2,3]`, every
row `[4,2,5,3]` with its score `(2,2)`. -/
def gLost : GLOBAL :=
  { guessCode := ![4, 5, 2, 3]
    iMove := 9
    amove := fun _ => { guess := ![4, 2, 5, 3], cPosition := 2, cColor := 2 }
    fGameOver := true
    fGameWon := false
    fGuessAllowed := false }

/-- The globals at program start (zero-initialised). -/
def gZero : GLOBAL :=
  { guessCode := fun _ => 0
    iMove := 0
    amove := fun _ => { guess := fun _ => 0, cPosition := 0, cColor := 0 }
    fGameOver := false
    fGameWon := false
    fGuessAllowed := false }

/-- A state in progress at row 0 whose active row `[4,2,_,3]` has an empty
slot and whose guess button is disabled; code `[4,5,2,3]`. -/
def gHole : GLOBAL :=
  { guessCode := ![4, 5, 2, 3]
    iMove := 0
    amove := fun _ => { guess := ![4, 2, 6, 3], cPosition := 0, cColor := 0 }
    fGameOver := false
    fGameWon := false
    fGuessAllowed := false }

/-! ## Sample messages -/

/-- The program before its window is created, with the draws
`3, 9, 3, 0, 7, 6, 2, 5` to come (they give the code `[3,0,1,2]`). -/
def appZero : APP := { g := gZero, mouse := mouseInit, draws := [3, 9, 3, 0, 7, 6, 2, 5] }

/-- The message `WM_CREATE`. -/
def evCreate : EVENT := { msg := WM_CREATE, wParam := 0, x := 0, y := 0, fResign := false }

/-- The message `WM_LBUTTONDOWN` at `(x, y)`. -/
def evDown (x y : Nat) : EVENT :=
  { msg := WM_LBUTTONDOWN, wParam := 0, x := x, y := y, fResign := false }

/-- The message `WM_LBUTTONUP` at `(x, y)`. -/
def evUp (x y : Nat) : EVENT :=
  { msg := WM_LBUTTONUP, wParam := 0, x := x, y := y, fResign := false }

/-- The message `WM_KEYDOWN` for the Return key. -/
def evReturn : EVENT :=
  { msg := WM_KEYDOWN, wParam := VK_RETURN, x := 0, y := 0, fResign := false }

/-- The message `WM_RBUTTONUP`. -/
def evRightUp : EVENT :=
  { msg := WM_RBUTTONUP, wParam := 0, x := 0, y := 0, fResign := false }

/-- The message `WM_COMMAND` of the button `id`, with the player's answer to
the resign question. -/
def evCommand (id : Nat) (fResign : Bool) : EVENT :=
  { msg := WM_COMMAND, wParam := id, x := 0, y := 0, fResign := fResign }

/-- A peg of color `c` dragged from the well and dropped on slot `ix` of row
`iy`: button down in the middle of the well box of `c`, button up in the
middle of the peg box `(ix, iy)` of the move area. -/
def dragFromWell (c ix iy : Nat) : List EVENT :=
  [evDown (20 + 24 * c) 20, evUp (28 + 24 * ix) (52 + 24 * iy)]

/-- A game played up to a resignation: the window is created, row 0 is
filled with `[4,2,5,3]` and submitted by the Return key (a miss), row 1 is
filled with `[3,0,1,2]`, and the New Game button is pressed and the
resignation confirmed. -/
def resignTrace : List EVENT :=
  [evCreate] ++ dragFromWell 4 0 0 ++ dragFromWell 2 1 0 ++ dragFromWell 5 2 0
    ++ dragFromWell 3 3 0 ++ [evReturn]
    ++ dragFromWell 3 0 1 ++ dragFromWell 0 1 1 ++ dragFromWell 1 2 1 ++ dragFromWell 2 3 1
    ++ [evCommand IDC_NEW_GAME true]

/-- What a state shows of the game. -/
structure VIEW where
  /-- The flag `fGameOver`. -/
  fGameOver : Bool
  /-- The flag `fGameWon`. -/
  fGameWon : Bool
  /-- The flag `fGuessAllowed`. -/
  fGuessAllowed : Bool
  /-- The move index. -/
  iMove : Int
  /-- The code. -/
  code : List Int
  /-- The pegs of row 1. -/
  row1 : List Int
  /-- The score `(cPosition, cColor)` of row 1. -/
  score1 : Int × Int
  deriving DecidableEq

/-- The view of a state. -/
def view (a : APP) : VIEW :=
  { fGameOver := a.g.fGameOver
    fGameWon := a.g.fGameWon
    fGuessAllowed := a.g.fGuessAllowed
    iMove := a.g.iMove
    code := (List.finRange nPeg).map a.g.guessCode
    row1 := (List.finRange nPeg).map (a.g.amove 1).guess
    score1 := ((a.g.amove 1).cPosition, (a.g.amove 1).cColor) }

/-! ## Sample states of the scoring consequences -/

/-- A state in progress at row 5 whose active row `[0,1,2,2]` misses the
code `[0,1,2,3]` in the last slot only. -/
def gOneMiss : GLOBAL :=
  { guessCode := ![0, 1, 2, 3]
    iMove := 5
    amove := fun _ => { guess := ![0, 1, 2, 2], cPosition := 0, cColor := 0 }
    fGameOver := false
    fGameWon := false
    fGuessAllowed := true }

/-- The state `gMixed` with code and active row exchanged: code `[4,2,5,3]`,
active row `[4,5,2,3]`, at row 7. -/
def gMixedSwapped : GLOBAL :=
  { guessCode := ![4, 2, 5, 3]
    iMove := 7
    amove := fun _ => { guess := ![4, 5, 2, 3], cPosition := 0, cColor := 0 }
    fGameOver := false
    fGameWon := false
    fGuessAllowed := true }

/-! ## The image library -/

/-- Number of images in the library (`#define nLibraryImage (nColor+1+15)`):
the colors, the peg hole and the result pin patterns. -/
def nLibraryImage : Int := nColor + 1 + 15

/-! ## TestGuess with its assertions -/

/-- Body of the loop "Count exact matches" at slot `i` with the two
`AssertMsg` calls kept; the state is `(guessColors, codeColors, cPosition,
cAssert)`, where `cAssert` counts the calls of `AssertMsg` made so far:
one when `guessColors[j] <= 0`, one when `codeColors[j] <= 0`, both tested
just before the two counts are decremented. -/
def exactStepAssert (guess code : GUESS) (st : ColorCounts × ColorCounts × Int × Nat)
    (i : Fin nPeg) : Option (ColorCounts × ColorCounts × Int × Nat) :=
  let j := guess i
  if j = code i then do
    let k ← index? nColor j
    let a1 : Nat := if st.1 k ≤ 0 then 1 else 0
    let a2 : Nat := if st.2.1 k ≤ 0 then 1 else 0
    let gc ← bump st.1 j (-1)
    let cc ← bump st.2.1 j (-1)
    pure (gc, cc, st.2.2.1 + 1, st.2.2.2 + a1 + a2)
  else
    pure st

/-! ## PaintBoard -/

/-- `PaintPegSub`: the image index it hands to `PaintLibrary` for the peg
box `(ix, iy)` of the move area, the peg `g.amove[iy].guess[ix]`. -/
def PaintPegSub (g : GLOBAL) (ix iy : Int) : Option Int := getPeg g iy ix

/-- `PaintAnswerSub`: the image indices it hands to `PaintLibrary`, the pegs
of the code. -/
def PaintAnswerSub (g : GLOBAL) : List Int := (List.finRange nPeg).map g.guessCode

/-- The values `0, 1, .., n` that `i` takes in a loop
`for (i=0; i<=n; i++)`; none when `n < 0`. -/
def loopTo (n : Int) : List Int := (List.range (n + 1).toNat).map (fun (i : Nat) => (i : Int))

/-- The inner loop of "Paint Moves" in `PaintBoard` for row `iy`: the images
painted are added to `imgs`. -/
def paintRow (g : GLOBAL) (imgs : List Int) (iy : Int) : Option (List Int) :=
  (List.range nPeg).foldlM
    (fun imgs (ix : Nat) => (PaintPegSub g (ix : Int) iy).map (fun peg => imgs ++ [peg])) imgs

/-- `PaintBoard`: the image indices it hands to `PaintLibrary`, in order: the
pegs of the well, the pegs of the rows `0..iMove` of the move area, the
answer if the game is over, and the results of the rows `0..iMove`.  The
rectangles and the won/lost text do not read the game arrays and are left
out. -/
def PaintBoard (g : GLOBAL) : Option (List Int) := do
  let imgs : List Int := (List.range nColor).map (fun (i : Nat) => (i : Int))
  let imgs ← (loopTo g.iMove).foldlM (paintRow g) imgs
  let imgs : List Int := if g.fGameOver then imgs ++ PaintAnswerSub g else imgs
  (loopTo g.iMove).foldlM (fun imgs i => (PaintResultSub g i).map (fun k => imgs ++ [k])) imgs

/-- States reachable from a `NewGame` by any messages at all: guess
commands whether or not the guess is allowed, new-game and resign commands,
keys and mouse messages. -/
inductive Reached : APP → Prop
  | newGame (g : GLOBAL) (m : MOUSE) (draws : List Nat) (r : GLOBAL × List Nat) :
      NewGame g draws = some r → Reached ⟨r.1, m, r.2⟩
  | step {a a' : APP} (e : EVENT) : Reached a → WndProc e a = some a' → Reached a'

/-- The message `WM_LBUTTONDBLCLK` at `(x, y)`. -/
def evDblClk (x y : Nat) : EVENT :=
  { msg := WM_LBUTTONDBLCLK, wParam := 0, x := x, y := y, fResign := false }

/-- A game lost: the window is created, row 0 is filled with `[4,2,5,3]` and
submitted by the Return key, and nine times the active row is filled by a
double click (a copy of the row above) and submitted by the Return key.
The code is `[3,0,1,2]`, so all ten guesses miss. -/
def lostTrace : List EVENT :=
  [evCreate] ++ dragFromWell 4 0 0 ++ dragFromWell 2 1 0 ++ dragFromWell 5 2 0
    ++ dragFromWell 3 3 0 ++ [evReturn]
    ++ ((List.range 9).flatMap (fun i => [evDblClk 28 (52 + 24 * (i + 1)), evReturn]))

/-! ## The left mouse button and the states of play -/

/-- A value a peg box may hold: a color or `PEG_BLANK`. -/
def IsPeg (j : Int) : Prop := IsColor j ∨ j = PEG_BLANK

/-- The left mouse button after the message `msg`, `d` telling whether it
was down before: it is down after `WM_LBUTTONDOWN` and `WM_LBUTTONDBLCLK`,
up after `WM_LBUTTONUP`, and as before after any other message. -/
def buttonAfter (msg : Nat) (d : Bool) : Bool :=
  if msg = WM_LBUTTONDOWN ∨ msg = WM_LBUTTONDBLCLK then true
  else if msg = WM_LBUTTONUP then false
  else d

/-- A condition on the message `e` in state `a`, `d` telling whether the
left button is down: `WM_LBUTTONDOWN` comes only when the button is up, and
the guess command comes from the Guess button only while the button is
enabled.  Any other message may come at any time.  `WndProc` does not test
the first part: it takes `WM_LBUTTONDOWN` whenever it comes. -/
def Sendable (e : EVENT) (a : APP) (d : Bool) : Prop :=
  (e.msg = WM_LBUTTONDOWN → d = false) ∧ Admissible e a

instance (e : EVENT) (a : APP) (d : Bool) : Decidable (Sendable e a d) := by
  unfold Sendable Admissible; infer_instance

/-- States of play: those of the reachable states that are reached from a
`NewGame` made while no peg is being dragged and the left button is up, by
messages that meet the condition `Sendable`; the second component tells
whether the left button is down.  Not every reachable state is one. -/
inductive Played : APP → Bool → Prop
  | newGame (g : GLOBAL) (m : MOUSE) (draws : List Nat) (r : GLOBAL × List Nat) :
      m.fDragging = false → NewGame g draws = some r → Played ⟨r.1, m, r.2⟩ false
  | step {a a' : APP} {d : Bool} (e : EVENT) :
      Played a d → Sendable e a d → WndProc e a = some a' → Played a' (buttonAfter e.msg d)

/-- Invariant of the states of play. -/
structure PlayInv (a : APP) (d : Bool) : Prop where
  /-- The move index is a row. -/
  row : 0 ≤ a.g.iMove ∧ a.g.iMove < 10
  /-- The code is complete. -/
  code : Complete a.g.guessCode
  /-- Every peg box holds a color or is empty. -/
  pegs : ∀ i s, IsPeg ((a.g.amove i).guess s)
  /-- Every row below the active row is complete. -/
  below : ∀ i : Fin maxMove, (i.val : Int) < a.g.iMove → Complete (a.g.amove i).guess
  /-- While the guess is allowed the active row is complete. -/
  allowed : a.g.fGuessAllowed = true →
    ∀ i : Fin maxMove, (i.val : Int) = a.g.iMove → Complete (a.g.amove i).guess
  /-- A dragged peg is a color or empty. -/
  drag : a.mouse.fDragging = true → IsPeg a.mouse.pegColor
  /-- An empty peg is dragged only in a fresh game. -/
  blank : a.mouse.fDragging = true → ¬ IsColor a.mouse.pegColor →
    a.g.fGuessAllowed = false ∧ a.g.iMove = 0 ∧ a.g.fGameOver = false
  /-- A drag left over with the button up is found only in a fresh game or
  in a game that is over. -/
  stale : a.mouse.fDragging = true → d = false → a.g.fGameOver = false →
    a.g.fGuessAllowed = false ∧ a.g.iMove = 0

/-- Sendable messages handled one after another, the state of the left
button kept along; `none` when a message is not sendable. -/
def playEvents (es : List EVENT) (s : APP × Bool) : Option (APP × Bool) :=
  es.foldlM
    (fun s e =>
      if Sendable e s.1 s.2 then (WndProc e s.1).map (fun a => (a, buttonAfter e.msg s.2))
      else none)
    s

/-- A game in play: the window is created, row 0 is filled with `[4,2,5,3]`
from the well and submitted by the Return key (a miss), row 1 is filled by a
double click (a copy of row 0), and the peg of slot 0 of row 1 is dragged to
slot 1 of the same row (an exchange). -/
def copyTrace : List EVENT :=
  [evCreate] ++ dragFromWell 4 0 0 ++ dragFromWell 2 1 0 ++ dragFromWell 5 2 0
    ++ dragFromWell 3 3 0 ++ [evReturn]
    ++ [evDblClk 28 76, evUp 28 76, evDown 28 76, evUp 52 76]

/-- A drag whose button-up never arrives: after the play of `copyTrace`
(row 1 complete, the guess allowed), `WM_LBUTTONDOWN` on the well starts a
drag, then `WM_LBUTTONDOWN` comes again, on the empty peg box of slot 0 of
row 5, with no `WM_LBUTTONUP` between the two, then `WM_LBUTTONUP` on slot 0
of the active row 1. -/
def downTwiceTrace : List EVENT :=
  copyTrace ++ [evDown 20 20, evDown 28 172, evUp 28 76]

/-- The same with the New Game command between the two button-downs, the
resignation declined: the question is asked while the drag is on, and the
window gets no `WM_LBUTTONUP` for it. -/
def declinedTrace : List EVENT :=
  copyTrace ++ [evDown 20 20, evCommand IDC_NEW_GAME false, evDown 28 172, evUp 28 76]

/-! # Theorems -/

/-! ## Scoring: loop invariants -/

theorem index?_isColor {j : Int} (h : IsColor j) :
    ∃ k : Fin nColor, index? nColor j = some k ∧ (k.val : Int) = j := by
  have h0 : 0 ≤ j := h.1
  have h1 : j < 6 := h.2
  refine ⟨⟨j.toNat, by show j.toNat < 6; omega⟩, ?_, ?_⟩
  · simp [index?, h0, h1]
  · simp [Int.toNat_of_nonneg h0]

theorem bump_isColor (a : ColorCounts) {j : Int} (d : Int) (h : IsColor j) :
    bump a j d = some (fun k => a k + if j = (k.val : Int) then d else 0) := by
  obtain ⟨k, hk, hkj⟩ := index?_isColor h
  simp only [bump, hk, Option.map_some']
  congr 1
  funext i
  by_cases hi : i = k
  · subst hi
    simp [hkj]
  · have : ¬ j = (i.val : Int) := by
      intro hji
      apply hi
      apply Fin.ext
      have : (i.val : Int) = (k.val : Int) := by rw [← hji, hkj]
      exact_mod_cast this
    simp [Function.update_noteq hi, this]

theorem countLoop_eq (guess code : GUESS) (hg : Complete guess) (hc : Complete code)
    (l : List (Fin nPeg)) (gc cc : ColorCounts) :
    l.foldlM (countStep guess code) (gc, cc) =
      some (fun k => gc k + l.countP (fun i => guess i = (k.val : Int)),
            fun k => cc k + l.countP (fun i => code i = (k.val : Int))) := by
  induction l generalizing gc cc with
  | nil => simp
  | cons i l ih =>
    simp only [List.foldlM_cons, countStep, bump_isColor _ _ (hg i), bump_isColor _ _ (hc i),
      Option.bind_eq_bind, Option.some_bind, Option.pure_def, ih]
    congr 2 <;> funext k <;> simp only [List.countP_cons] <;> split_ifs <;> simp_all <;> omega

theorem exactLoop_eq (guess code : GUESS) (hg : Complete guess)
    (l : List (Fin nPeg)) (gc cc : ColorCounts) (cPosition : Int) :
    l.foldlM (exactStep guess code) (gc, cc, cPosition) =
      some (fun k => gc k - l.countP (fun i => guess i = code i ∧ guess i = (k.val : Int)),
            fun k => cc k - l.countP (fun i => guess i = code i ∧ guess i = (k.val : Int)),
            cPosition + l.countP (fun i => guess i = code i)) := by
  induction l generalizing gc cc cPosition with
  | nil => simp
  | cons i l ih =>
    simp only [List.foldlM_cons, exactStep]
    by_cases h : guess i = code i
    · simp only [h, if_true, bump_isColor _ _ (h ▸ hg i),
        Option.bind_eq_bind, Option.some_bind, Option.pure_def, ih]
      congr 2
      · funext k
        simp only [List.countP_cons]
        split_ifs <;> simp_all
        omega
      · congr 1
        · funext k
          simp only [List.countP_cons]
          split_ifs <;> simp_all
          omega
        · simp only [List.countP_cons]; simp [h]; omega
    · simp only [h, if_false, Option.pure_def, Option.bind_eq_bind, Option.some_bind, ih]
      congr 2
      · funext k; simp [List.countP_cons, h]
      · congr 1
        · funext k; simp [List.countP_cons, h]
        · simp [List.countP_cons, h]

theorem countP_finRange {n : Nat} (p : Fin n → Prop) [DecidablePred p] :
    (List.finRange n).countP (fun i => decide (p i)) = (Finset.univ.filter p).card := by
  rw [List.countP_eq_length_filter]
  rfl

theorem colorLoop_eq (gc cc : ColorCounts) :
    colorLoop gc cc = ∑ k : Fin nColor, min (gc k) (cc k) := by
  have h : ∀ (l : List (Fin nColor)) (a : Int),
      l.foldl (fun cColor i => cColor + min (cc i) (gc i)) a
        = a + (l.map (fun k => min (gc k) (cc k))).sum := by
    intro l
    induction l with
    | nil => simp
    | cons i l ih => intro a; simp [ih, min_comm (cc i) (gc i), add_assoc]
  rw [colorLoop, h, Fin.sum_univ_def, zero_add]

theorem scoreGuess_eq (guess code : GUESS) (hg : Complete guess) (hc : Complete code) :
    scoreGuess guess code = some (specScore guess code) := by
  simp only [scoreGuess, countLoop_eq guess code hg hc, exactLoop_eq guess code hg,
    Option.bind_eq_bind, Option.some_bind, Option.pure_def, colorLoop_eq, specScore,
    countP_finRange, occ, exactAt, exactCount, zero_add]

/-! ## Scoring: arithmetic of the counts -/

theorem sum_card_color_fibers (v : GUESS) (hv : Complete v) (s : Finset (Fin nPeg)) :
    ∑ k : Fin nColor, (s.filter (fun i => v i = (k.val : Int))).card = s.card := by
  have hinj : Function.Injective (fun k : Fin nColor => (k.val : Int)) := by
    intro a b hab
    apply Fin.ext
    simp only at hab
    exact_mod_cast hab
  have hmem : ∀ i ∈ s, v i ∈ Finset.univ.image (fun k : Fin nColor => (k.val : Int)) := by
    intro i _
    obtain ⟨k, _, hk⟩ := index?_isColor (hv i)
    exact Finset.mem_image.2 ⟨k, Finset.mem_univ _, hk⟩
  rw [Finset.card_eq_sum_card_fiberwise hmem, Finset.sum_image (fun a _ b _ h => hinj h)]

theorem sum_occ (v : GUESS) (hv : Complete v) :
    ∑ k : Fin nColor, occ v (k.val : Int) = nPeg := by
  simp only [occ, sum_card_color_fibers v hv, Finset.card_univ, Fintype.card_fin]

theorem sum_exactAt (guess code : GUESS) (hg : Complete guess) :
    ∑ k : Fin nColor, exactAt guess code (k.val : Int) = exactCount guess code := by
  simp only [exactAt, exactCount, ← Finset.filter_filter, sum_card_color_fibers guess hg]

theorem exactAt_le_occ_guess (guess code : GUESS) (k : Int) :
    exactAt guess code k ≤ occ guess k := by
  apply Finset.card_le_card
  intro i
  simp only [Finset.mem_filter, Finset.mem_univ, true_and]
  exact fun h => h.2

theorem exactAt_le_occ_code (guess code : GUESS) (k : Int) :
    exactAt guess code k ≤ occ code k := by
  apply Finset.card_le_card
  intro i
  simp only [Finset.mem_filter, Finset.mem_univ, true_and]
  exact fun h => h.1 ▸ h.2

theorem exactCount_le (guess code : GUESS) : exactCount guess code ≤ nPeg := by
  have h := Finset.card_filter_le (Finset.univ : Finset (Fin nPeg))
    (fun i => guess i = code i)
  simpa [exactCount] using h

theorem exactCount_eq_nPeg (guess code : GUESS) :
    exactCount guess code = nPeg ↔ ∀ i, guess i = code i := by
  constructor
  · intro hc i
    have hsub : Finset.univ.filter (fun i => guess i = code i) = Finset.univ := by
      apply Finset.eq_of_subset_of_card_le (Finset.filter_subset _ _)
      simp only [Finset.card_univ, Fintype.card_fin]
      exact hc.ge
    have hi : i ∈ Finset.univ.filter (fun i => guess i = code i) := by
      rw [hsub]; exact Finset.mem_univ i
    exact (Finset.mem_filter.1 hi).2
  · intro hall
    simp [exactCount, hall]

theorem specScore_snd_nonneg (guess code : GUESS) : 0 ≤ (specScore guess code).2 := by
  simp only [specScore]
  apply Finset.sum_nonneg
  intro k _
  have h1 := exactAt_le_occ_guess guess code (k.val : Int)
  have h2 := exactAt_le_occ_code guess code (k.val : Int)
  apply le_min <;> omega

theorem specScore_sum_le (guess code : GUESS) (hg : Complete guess) :
    (specScore guess code).1 + (specScore guess code).2 ≤ nPeg := by
  have hle : (specScore guess code).2
      ≤ ∑ k : Fin nColor, ((occ guess (k.val : Int) : Int) - exactAt guess code (k.val : Int)) := by
    simp only [specScore]
    exact Finset.sum_le_sum (fun k _ => min_le_left _ _)
  have h1 : (∑ k : Fin nColor, (occ guess (k.val : Int) : Int)) = nPeg := by
    exact_mod_cast sum_occ guess hg
  have h2 : (∑ k : Fin nColor, (exactAt guess code (k.val : Int) : Int))
      = exactCount guess code := by
    exact_mod_cast sum_exactAt guess code hg
  rw [Finset.sum_sub_distrib, h1, h2] at hle
  simp only [specScore] at hle ⊢
  omega

theorem specScore_snd_of_eq (guess code : GUESS) (h : ∀ i, guess i = code i) :
    (specScore guess code).2 = 0 := by
  have hgc : guess = code := funext h
  subst hgc
  simp only [specScore]
  apply Finset.sum_eq_zero
  intro k _
  have : exactAt guess guess (k.val : Int) = occ guess (k.val : Int) := by
    simp [exactAt, occ]
  simp [this]

theorem specScore_fst_eq_nPeg (guess code : GUESS) :
    (specScore guess code).1 = (nPeg : Int) ↔ ∀ i, guess i = code i := by
  rw [← exactCount_eq_nPeg]
  simp only [specScore]
  exact_mod_cast Iff.rfl

theorem index?_val {n : Nat} (k : Fin n) : index? n (k.val : Int) = some k := by
  have h : (0 : Int) ≤ (k.val : Int) ∧ (k.val : Int) < (n : Int) :=
    ⟨Int.natCast_nonneg _, by exact_mod_cast k.isLt⟩
  simp [index?, h]

theorem TestGuess_eq (g : GLOBAL) (n : Fin maxMove) (hn : g.iMove = (n.val : Int))
    (hg : Complete (g.amove n).guess) (hc : Complete g.guessCode) :
    TestGuess g = some
      (decide ((specScore (g.amove n).guess g.guessCode).1 = nPeg),
       { g with amove := (Function.update g.amove n
          ⟨(g.amove n).guess, (specScore (g.amove n).guess g.guessCode).1,
            (specScore (g.amove n).guess g.guessCode).2⟩) }) := by
  simp only [TestGuess, hn, index?_val, scoreGuess_eq _ _ hg hc,
    Option.bind_eq_bind, Option.some_bind, Option.pure_def]

/-! ## TestGuess: the score (C1, C2, C3) -/

/-- C1: for every code and every complete guess (all pegs of both colors in
`[0, nColor)`), `TestGuess` returns and stores in row `iMove`
`cPosition` = the number of slots `i` with `guess[i] = code[i]` and
`cColor` = the sum over the colors `k` of `min (G_k - E_k) (C_k - E_k)`, with
`G_k = occ guess k`, `C_k = occ code k` and `E_k = exactAt guess code k`. -/
theorem TestGuess_stores_score (g : GLOBAL) (n : Fin maxMove) (hn : g.iMove = (n.val : Int))
    (hg : Complete (g.amove n).guess) (hc : Complete g.guessCode) :
    ∃ f g', TestGuess g = some (f, g') ∧
      (g'.amove n).cPosition = (exactCount (g.amove n).guess g.guessCode : Int) ∧
      (g'.amove n).cColor =
        ∑ k : Fin nColor,
          min ((occ (g.amove n).guess (k.val : Int) : Int)
                - exactAt (g.amove n).guess g.guessCode (k.val : Int))
              ((occ g.guessCode (k.val : Int) : Int)
                - exactAt (g.amove n).guess g.guessCode (k.val : Int)) := by
  refine ⟨_, _, TestGuess_eq g n hn hg hc, ?_, ?_⟩ <;> simp [specScore]

/-- Witness of C1 at code `[4,5,2,3]`, guess `[4,2,5,3]`, row 0. -/
theorem TestGuess_stores_score_witness :
    gMixed.iMove = ((0 : Fin maxMove).val : Int) ∧
    Complete (gMixed.amove 0).guess ∧ Complete gMixed.guessCode ∧
    ∃ f g', TestGuess gMixed = some (f, g') ∧
      (g'.amove 0).cPosition = (exactCount (gMixed.amove 0).guess gMixed.guessCode : Int) ∧
      (g'.amove 0).cColor =
        ∑ k : Fin nColor,
          min ((occ (gMixed.amove 0).guess (k.val : Int) : Int)
                - exactAt (gMixed.amove 0).guess gMixed.guessCode (k.val : Int))
              ((occ gMixed.guessCode (k.val : Int) : Int)
                - exactAt (gMixed.amove 0).guess gMixed.guessCode (k.val : Int)) :=
  ⟨by decide, by decide, by decide,
    TestGuess_stores_score gMixed 0 (by decide) (by decide) (by decide)⟩

/-- C2: for every code and every complete guess, repeated colors or not, the
pair `TestGuess` stores satisfies `0 ≤ cPosition`, `0 ≤ cColor` and
`cPosition + cColor ≤ nPeg`. -/
theorem TestGuess_score_bound (g : GLOBAL) (n : Fin maxMove) (hn : g.iMove = (n.val : Int))
    (hg : Complete (g.amove n).guess) (hc : Complete g.guessCode) :
    ∃ f g', TestGuess g = some (f, g') ∧
      0 ≤ (g'.amove n).cPosition ∧ 0 ≤ (g'.amove n).cColor ∧
      (g'.amove n).cPosition + (g'.amove n).cColor ≤ nPeg := by
  refine ⟨_, _, TestGuess_eq g n hn hg hc, ?_, ?_, ?_⟩
  · simp [specScore]
  · simpa using specScore_snd_nonneg (g.amove n).guess g.guessCode
  · simpa using specScore_sum_le (g.amove n).guess g.guessCode hg

/-- Witness of C2 at code `[1,2,1,1]`, guess `[1,1,2,2]` (both with repeated
colors), row 3. -/
theorem TestGuess_score_bound_witness :
    gRepeat.iMove = ((3 : Fin maxMove).val : Int) ∧
    Complete (gRepeat.amove 3).guess ∧ Complete gRepeat.guessCode ∧
    ∃ f g', TestGuess gRepeat = some (f, g') ∧
      0 ≤ (g'.amove 3).cPosition ∧ 0 ≤ (g'.amove 3).cColor ∧
      (g'.amove 3).cPosition + (g'.amove 3).cColor ≤ nPeg :=
  ⟨by decide, by decide, by decide,
    TestGuess_score_bound gRepeat 3 (by decide) (by decide) (by decide)⟩

/-- C3: for every code and every complete guess, `TestGuess` returns TRUE
exactly when `cPosition = nPeg` is stored, exactly when `guess[i] = code[i]`
in every slot, and whenever it returns TRUE the stored `cColor` is 0. -/
theorem TestGuess_true_iff (g : GLOBAL) (n : Fin maxMove) (hn : g.iMove = (n.val : Int))
    (hg : Complete (g.amove n).guess) (hc : Complete g.guessCode) :
    ∃ f g', TestGuess g = some (f, g') ∧
      (f = true ↔ (g'.amove n).cPosition = nPeg) ∧
      (f = true ↔ ∀ i, (g.amove n).guess i = g.guessCode i) ∧
      (f = true → (g'.amove n).cColor = 0) := by
  have hiff := specScore_fst_eq_nPeg (g.amove n).guess g.guessCode
  refine ⟨_, _, TestGuess_eq g n hn hg hc, ?_, ?_, ?_⟩
  · simp
  · simpa using hiff
  · intro hf
    have hall := hiff.1 (by simpa using hf)
    simpa using specScore_snd_of_eq _ _ hall

/-- Witness of C3 at code `[0,1,2,3]`, guess `[0,1,2,3]`, row 2. -/
theorem TestGuess_true_iff_witness :
    gSolved.iMove = ((2 : Fin maxMove).val : Int) ∧
    Complete (gSolved.amove 2).guess ∧ Complete gSolved.guessCode ∧
    ∃ f g', TestGuess gSolved = some (f, g') ∧
      (f = true ↔ (g'.amove 2).cPosition = nPeg) ∧
      (f = true ↔ ∀ i, (gSolved.amove 2).guess i = gSolved.guessCode i) ∧
      (f = true → (g'.amove 2).cColor = 0) :=
  ⟨by decide, by decide, by decide,
    TestGuess_true_iff gSolved 2 (by decide) (by decide) (by decide)⟩

/-! ## PickCode (C4) -/

theorem PickInv_step {fColor : Fin nColor → Int} {code : GUESS} {i : Nat} (h : i < nPeg)
    (j : Fin nColor) (hj : fColor j = 0) (hinv : PickInv fColor code i) :
    PickInv (Function.update fColor j 1) (Function.update code ⟨i, h⟩ (j.val : Int)) (i + 1) := by
  obtain ⟨hcol, hdis⟩ := hinv
  have hold : ∀ s : Fin nPeg, s.val < i →
      Function.update code ⟨i, h⟩ (j.val : Int) s = code s := by
    intro s hs
    apply Function.update_noteq
    intro hsi
    rw [hsi] at hs
    exact Nat.lt_irrefl _ hs
  have hnew : ∀ s : Fin nPeg, s.val < i → code s ≠ (j.val : Int) := by
    intro s hs hsj
    obtain ⟨k, hk, hfk⟩ := hcol s hs
    have hkj : k = j := by
      apply Fin.ext
      have : (k.val : Int) = (j.val : Int) := by rw [← hk, hsj]
      exact_mod_cast this
    exact hfk (hkj ▸ hj)
  have hsplit : ∀ s : Fin nPeg, s.val < i + 1 → s.val < i ∨ s = ⟨i, h⟩ := by
    intro s hs
    rcases Nat.lt_succ_iff_lt_or_eq.1 hs with h1 | h1
    · exact Or.inl h1
    · exact Or.inr (Fin.ext h1)
  constructor
  · intro s hs
    rcases hsplit s hs with h1 | h1
    · obtain ⟨k, hk, hfk⟩ := hcol s h1
      refine ⟨k, by rw [hold s h1, hk], ?_⟩
      by_cases hkj : k = j
      · rw [hkj, Function.update_same]; exact one_ne_zero
      · rw [Function.update_noteq hkj]; exact hfk
    · refine ⟨j, by rw [h1, Function.update_same], ?_⟩
      rw [Function.update_same]; exact one_ne_zero
  · intro s t hs ht hst
    rcases hsplit s hs with h1 | h1 <;> rcases hsplit t ht with h2 | h2
    · rw [hold s h1, hold t h2] at hst
      exact hdis s t h1 h2 hst
    · rw [hold s h1, h2, Function.update_same] at hst
      exact absurd hst (hnew s h1)
    · rw [h1, Function.update_same, hold t h2] at hst
      exact absurd hst.symm (hnew t h2)
    · rw [h1, h2]

theorem PickInv_done {fColor : Fin nColor → Int} {code : GUESS} {i : Nat} (h : ¬ i < nPeg)
    (hinv : PickInv fColor code i) : Complete code ∧ Function.Injective code := by
  have hlt : ∀ s : Fin nPeg, s.val < i := fun s => lt_of_lt_of_le s.isLt (Nat.le_of_not_lt h)
  constructor
  · intro s
    obtain ⟨k, hk, _⟩ := hinv.1 s (hlt s)
    rw [hk]
    exact ⟨Int.natCast_nonneg _, by exact_mod_cast k.isLt⟩
  · intro s t hst
    exact hinv.2 s t (hlt s) (hlt t) hst

theorem PickCodeLoop_valid (draws : List Nat) :
    ∀ (fColor : Fin nColor → Int) (code : GUESS) (i : Nat), PickInv fColor code i →
      ∀ r, PickCodeLoop fColor code i draws = some r →
        Complete r.1 ∧ Function.Injective r.1 := by
  induction draws with
  | nil =>
    intro fColor code i hinv r hr
    by_cases h : i < nPeg
    · simp [PickCodeLoop, h] at hr
    · simp only [PickCodeLoop, h, if_false, Option.some.injEq] at hr
      subst hr
      exact PickInv_done h hinv
  | cons d draws ih =>
    intro fColor code i hinv r hr
    by_cases h : i < nPeg
    · simp only [PickCodeLoop, h, dif_pos] at hr
      split_ifs at hr with hj
      · exact ih _ _ _ (PickInv_step h _ hj hinv) r hr
      · exact ih _ _ _ hinv r hr
    · simp only [PickCodeLoop, h, dif_neg, not_false_eq_true, Option.some.injEq] at hr
      subst hr
      exact PickInv_done h hinv

theorem PickCode_complete_injective (g : GLOBAL) (draws : List Nat) (r : GLOBAL × List Nat)
    (h : PickCode g draws = some r) :
    Complete r.1.guessCode ∧ Function.Injective r.1.guessCode := by
  simp only [PickCode, Option.map_eq_some'] at h
  obtain ⟨c, hc, hr⟩ := h
  subst hr
  have hinv : PickInv (fun _ => 0) g.guessCode 0 :=
    ⟨fun s hs => absurd hs (Nat.not_lt_zero _), fun s _ hs => absurd hs (Nat.not_lt_zero _)⟩
  exact PickCodeLoop_valid draws _ _ _ hinv c hc

/-- C4: for every sequence of draws on which `PickCode` finishes, whatever
`guessCode` held before, the code it writes fills all `nPeg` slots with
colors in `[0, nColor)` and no two slots hold the same color. -/
theorem PickCode_valid (g : GLOBAL) (draws : List Nat) (r : GLOBAL × List Nat)
    (h : PickCode g draws = some r) :
    (∀ i : Fin nPeg, 0 ≤ r.1.guessCode i ∧ r.1.guessCode i < nColor) ∧
    (∀ i j : Fin nPeg, r.1.guessCode i = r.1.guessCode j → i = j) := by
  obtain ⟨h1, h2⟩ := PickCode_complete_injective g draws r h
  exact ⟨h1, fun i j hij => h2 hij⟩

/-- Witness of C4: from a state whose old code is `[4,5,2,3]`, the draws
`3, 9, 3, 0, 7, 6, 2, 5` (colors 3, 3, 3, 0, 1, 0, 2, 5) give the code
`[3,0,1,2]` and leave the draw `5`. -/
theorem PickCode_valid_witness :
    ∃ r, PickCode gMixed [3, 9, 3, 0, 7, 6, 2, 5] = some r ∧
      (List.finRange nPeg).map r.1.guessCode = [3, 0, 1, 2] ∧ r.2 = [5] ∧
      (∀ i : Fin nPeg, 0 ≤ r.1.guessCode i ∧ r.1.guessCode i < nColor) ∧
      (∀ i j : Fin nPeg, r.1.guessCode i = r.1.guessCode j → i = j) :=
  ⟨(PickCode gMixed [3, 9, 3, 0, 7, 6, 2, 5]).get (by decide), (Option.some_get _).symm,
    by decide, by decide,
    PickCode_valid gMixed [3, 9, 3, 0, 7, 6, 2, 5] _ (Option.some_get _).symm⟩

/-! ## The result table of CreateImageLibrary (C5, C6, C7) -/

/-- C5: with `nPeg = 4` the feasible pairs `(cPos, cClr)`, in the order the
loops of `CreateImageLibrary` visit them, and their class ids are
`(0,0)->0, (0,1)->1, (0,2)->2, (0,3)->3, (0,4)->4, (1,0)->5, (1,1)->6,
(1,2)->7, (1,3)->8, (2,0)->9, (2,1)->10, (2,2)->11, (3,0)->12, (3,1)->13,
(4,0)->14`, and `totalClasses = 15`. -/
theorem classify_table :
    nPeg = 4 ∧
    ((allPairs.filter (fun pc => pc.1.val + pc.2.val ≤ nPeg)).map
        (fun pc => (pc.1.val, pc.2.val, classify pc.1 pc.2))
      = [(0, 0, 0), (0, 1, 1), (0, 2, 2), (0, 3, 3), (0, 4, 4), (1, 0, 5), (1, 1, 6),
         (1, 2, 7), (1, 3, 8), (2, 0, 9), (2, 1, 10), (2, 2, 11), (3, 0, 12), (3, 1, 13),
         (4, 0, 14)]) ∧
    totalClasses = 15 := by
  refine ⟨rfl, ?_, ?_⟩ <;> decide

/-- C6: `classify` restricted to the feasible pairs (`p + c ≤ nPeg`) is a
bijection onto `[0, totalClasses)`: distinct feasible pairs get distinct
ids, every id of a feasible pair lies in `[0, totalClasses)`, every id in
`[0, totalClasses)` is the id of a feasible pair, and the inverse lookup
`declassify` returns `(p, c)` on `classify p c`. -/
theorem classify_bijective :
    (∀ p c p' c' : Fin (nPeg + 1), p.val + c.val ≤ nPeg → p'.val + c'.val ≤ nPeg →
      classify p c = classify p' c' → p = p' ∧ c = c') ∧
    (∀ p c : Fin (nPeg + 1), p.val + c.val ≤ nPeg →
      0 ≤ classify p c ∧ classify p c < totalClasses) ∧
    (∀ k : Int, 0 ≤ k → k < totalClasses →
      ∃ p c : Fin (nPeg + 1), p.val + c.val ≤ nPeg ∧ classify p c = k) ∧
    (∀ p c : Fin (nPeg + 1), p.val + c.val ≤ nPeg →
      declassify (classify p c) = some (p, c)) := by
  refine ⟨by decide, by decide, ?_, by decide⟩
  intro k h0 h1
  have htot : totalClasses = 15 := by decide
  rw [htot] at h1
  have hall : ∀ n : Fin 15, ∃ p c : Fin (nPeg + 1),
      p.val + c.val ≤ nPeg ∧ classify p c = (n.val : Int) := by decide
  obtain ⟨p, c, hpc, hk⟩ := hall ⟨k.toNat, by omega⟩
  refine ⟨p, c, hpc, ?_⟩
  rw [hk]
  simp [Int.toNat_of_nonneg h0]

/-- C7: for every pair `(p, c)` with `0 ≤ p ≤ nPeg` and `0 ≤ c ≤ nPeg`, the
entry `mpResultToLibrary[p][c]` built by `CreateImageLibrary` is `-1` if
and only if `p + c > nPeg`, and the entry of a feasible pair is
non-negative. -/
theorem mpResultToLibrary_sentinel (p c : Fin (nPeg + 1)) :
    (mpResultToLibrary p c = -1 ↔ p.val + c.val > nPeg) ∧
    (p.val + c.val ≤ nPeg → 0 ≤ mpResultToLibrary p c) := by
  revert p c
  decide

/-! ## The guess command (C8, C9) -/

theorem DoCommand_guess_eq (g : GLOBAL) (fResign : Bool) (draws : List Nat) (n : Fin maxMove)
    (hn : g.iMove = (n.val : Int)) (hg : Complete (g.amove n).guess)
    (hc : Complete g.guessCode) :
    DoCommand IDC_GUESS fResign draws g = some (afterGuess g n, draws) := by
  simp only [DoCommand, IDC_GUESS, IDM_ABOUT, TestGuess_eq g n hn hg hc, afterGuess,
    Nat.reduceEqDiff, if_false, if_true, Option.bind_eq_bind, Option.some_bind,
    Option.pure_def]
  split_ifs <;> simp_all

theorem afterGuess_win (g : GLOBAL) (n : Fin maxMove)
    (hall : ∀ i, (g.amove n).guess i = g.guessCode i) :
    afterGuess g n =
      { g with amove := (Function.update g.amove n ⟨(g.amove n).guess, nPeg, 0⟩),
               fGuessAllowed := false, fGameOver := true, fGameWon := true } := by
  have h1 := (specScore_fst_eq_nPeg _ _).2 hall
  have h2 := specScore_snd_of_eq _ _ hall
  simp only [afterGuess, h1, h2, if_true]

theorem afterGuess_miss (g : GLOBAL) (n : Fin maxMove) (hn : g.iMove = (n.val : Int))
    (hne : ¬ ∀ i, (g.amove n).guess i = g.guessCode i) :
    (n.val + 1 < maxMove →
      (afterGuess g n).iMove = g.iMove + 1 ∧ (afterGuess g n).fGameOver = g.fGameOver ∧
      (afterGuess g n).fGameWon = g.fGameWon) ∧
    (n.val + 1 = maxMove →
      (afterGuess g n).iMove = (maxMove : Int) - 1 ∧ (afterGuess g n).fGameOver = true ∧
      (afterGuess g n).fGameWon = false) := by
  have hsc : ¬ (specScore (g.amove n).guess g.guessCode).1 = (nPeg : Int) :=
    fun h => hne ((specScore_fst_eq_nPeg _ _).1 h)
  have hlt : n.val < 10 := n.isLt
  constructor
  · intro h
    have hnge : ¬ g.iMove + 1 ≥ (maxMove : Int) := by
      rw [hn]
      intro h2
      have h3 : maxMove ≤ n.val + 1 := by exact_mod_cast h2
      omega
    simp only [afterGuess, hsc, hnge, if_false, and_self]
  · intro h
    have hge : g.iMove + 1 ≥ (maxMove : Int) := by rw [hn]; exact_mod_cast h.ge
    simp only [afterGuess, hsc, hge, if_false, if_true, and_self]

/-- C8: in every in-progress state (`fGameOver = FALSE`) whose active row
`amove[iMove].guess` equals the code slot for slot, the guess command
(`DoCommand` with `IDC_GUESS`) stores `(cPosition, cColor) = (nPeg, 0)` in the
active row, sets `fGameOver = TRUE` and `fGameWon = TRUE` and leaves `iMove`
unchanged; `n` ranges over all rows, the last row `maxMove - 1` included. -/
theorem DoCommand_guess_correct (g : GLOBAL) (fResign : Bool) (draws : List Nat)
    (n : Fin maxMove) (hn : g.iMove = (n.val : Int)) (_hover : g.fGameOver = false)
    (hc : Complete g.guessCode) (hrow : ∀ i, (g.amove n).guess i = g.guessCode i) :
    ∃ g', DoCommand IDC_GUESS fResign draws g = some (g', draws) ∧
      (g'.amove n).cPosition = nPeg ∧ (g'.amove n).cColor = 0 ∧
      g'.fGameOver = true ∧ g'.fGameWon = true ∧ g'.iMove = g.iMove := by
  have hg : Complete (g.amove n).guess := fun i => by rw [hrow i]; exact hc i
  refine ⟨_, DoCommand_guess_eq g fResign draws n hn hg hc, ?_⟩
  rw [afterGuess_win g n hrow]
  simp

/-- Witness of C8 at the last row: `iMove = maxMove - 1 = 9`, code and
active row `[0,1,2,3]`. -/
theorem DoCommand_guess_correct_witness :
    gLastSolved.iMove = (((9 : Fin maxMove).val : Nat) : Int) ∧
    gLastSolved.fGameOver = false ∧ Complete gLastSolved.guessCode ∧
    (∀ i, (gLastSolved.amove 9).guess i = gLastSolved.guessCode i) ∧
    ∃ g', DoCommand IDC_GUESS false [] gLastSolved = some (g', []) ∧
      (g'.amove 9).cPosition = nPeg ∧ (g'.amove 9).cColor = 0 ∧
      g'.fGameOver = true ∧ g'.fGameWon = true ∧ g'.iMove = gLastSolved.iMove :=
  ⟨by decide, by decide, by decide, by decide,
    DoCommand_guess_correct gLastSolved false [] 9 (by decide) (by decide) (by decide)
      (by decide)⟩

/-- C9: in every in-progress state with move index `i` and a complete active
row that differs from the code, the guess command yields: if
`i < maxMove - 1`, the game stays in progress (`fGameOver = FALSE`) and
`iMove` becomes `i + 1`; if `i = maxMove - 1`, the game is lost
(`fGameOver = TRUE`, `fGameWon = FALSE`) and `iMove` stays `maxMove - 1`. -/
theorem DoCommand_guess_wrong (g : GLOBAL) (fResign : Bool) (draws : List Nat)
    (n : Fin maxMove) (hn : g.iMove = (n.val : Int)) (hover : g.fGameOver = false)
    (hc : Complete g.guessCode) (hg : Complete (g.amove n).guess)
    (hne : ∃ i, (g.amove n).guess i ≠ g.guessCode i) :
    ∃ g', DoCommand IDC_GUESS fResign draws g = some (g', draws) ∧
      (g.iMove < (maxMove : Int) - 1 → g'.fGameOver = false ∧ g'.iMove = g.iMove + 1) ∧
      (g.iMove = (maxMove : Int) - 1 →
        g'.fGameOver = true ∧ g'.fGameWon = false ∧ g'.iMove = (maxMove : Int) - 1) := by
  have hnall : ¬ ∀ i, (g.amove n).guess i = g.guessCode i := by
    obtain ⟨i, hi⟩ := hne
    exact fun h => hi (h i)
  obtain ⟨h1, h2⟩ := afterGuess_miss g n hn hnall
  refine ⟨_, DoCommand_guess_eq g fResign draws n hn hg hc, ?_, ?_⟩
  · intro hlt
    have hlt2 : n.val + 1 < maxMove := by
      rw [hn] at hlt
      have : (n.val : Int) + 1 < (maxMove : Int) := by linarith
      exact_mod_cast this
    obtain ⟨a, b, _⟩ := h1 hlt2
    exact ⟨b.trans hover, a⟩
  · intro heq
    have heq2 : n.val + 1 = maxMove := by
      rw [hn] at heq
      have : (n.val : Int) + 1 = (maxMove : Int) := by linarith
      exact_mod_cast this
    obtain ⟨a, b, c⟩ := h2 heq2
    exact ⟨b, c, a⟩

/-- Witness of C9 at row 0 (the game goes on at row 1) and at the last row 9
(the game is lost and `iMove` stays 9); code `[4,5,2,3]`, active row
`[4,2,5,3]`. -/
theorem DoCommand_guess_wrong_witness :
    (gMixed.iMove = (((0 : Fin maxMove).val : Nat) : Int) ∧ gMixed.fGameOver = false ∧
      Complete gMixed.guessCode ∧ Complete (gMixed.amove 0).guess ∧
      (∃ i, (gMixed.amove 0).guess i ≠ gMixed.guessCode i) ∧
      (DoCommand IDC_GUESS false [] gMixed).map
          (fun r => (r.1.fGameOver, r.1.fGameWon, r.1.iMove)) = some (false, false, 1) ∧
      ∃ g', DoCommand IDC_GUESS false [] gMixed = some (g', []) ∧
        (gMixed.iMove < (maxMove : Int) - 1 →
          g'.fGameOver = false ∧ g'.iMove = gMixed.iMove + 1) ∧
        (gMixed.iMove = (maxMove : Int) - 1 →
          g'.fGameOver = true ∧ g'.fGameWon = false ∧ g'.iMove = (maxMove : Int) - 1)) ∧
    (gLastMixed.iMove = (((9 : Fin maxMove).val : Nat) : Int) ∧ gLastMixed.fGameOver = false ∧
      Complete gLastMixed.guessCode ∧ Complete (gLastMixed.amove 9).guess ∧
      (∃ i, (gLastMixed.amove 9).guess i ≠ gLastMixed.guessCode i) ∧
      (DoCommand IDC_GUESS false [] gLastMixed).map
          (fun r => (r.1.fGameOver, r.1.fGameWon, r.1.iMove)) = some (true, false, 9) ∧
      ∃ g', DoCommand IDC_GUESS false [] gLastMixed = some (g', []) ∧
        (gLastMixed.iMove < (maxMove : Int) - 1 →
          g'.fGameOver = false ∧ g'.iMove = gLastMixed.iMove + 1) ∧
        (gLastMixed.iMove = (maxMove : Int) - 1 →
          g'.fGameOver = true ∧ g'.fGameWon = false ∧ g'.iMove = (maxMove : Int) - 1)) :=
  ⟨⟨by decide, by decide, by decide, by decide, by decide, by decide,
      DoCommand_guess_wrong gMixed false [] 0 (by decide) (by decide) (by decide) (by decide)
        (by decide)⟩,
    ⟨by decide, by decide, by decide, by decide, by decide, by decide,
      DoCommand_guess_wrong gLastMixed false [] 9 (by decide) (by decide) (by decide)
        (by decide) (by decide)⟩⟩

/-! ## Sequences of guesses (C10) -/

theorem afterGuess_guessCode (g : GLOBAL) (n : Fin maxMove) :
    (afterGuess g n).guessCode = g.guessCode := by
  simp only [afterGuess]
  split_ifs <;> rfl

theorem NewGame_fresh (g : GLOBAL) (draws : List Nat) (r : GLOBAL × List Nat)
    (h : NewGame g draws = some r) :
    r.1.iMove = 0 ∧ r.1.fGameOver = false ∧ r.1.fGameWon = false ∧
    r.1.fGuessAllowed = false ∧
    r.1.amove = (fun _ => ⟨fun _ => PEG_BLANK, 0, 0⟩) ∧
    Complete r.1.guessCode ∧ Function.Injective r.1.guessCode := by
  simp only [NewGame, Option.bind_eq_bind, Option.bind_eq_some, Option.pure_def,
    Option.some.injEq] at h
  obtain ⟨⟨g1, d1⟩, hp, hr⟩ := h
  subst hr
  have hv := PickCode_complete_injective _ _ _ hp
  simp only [PickCode, Option.map_eq_some'] at hp
  obtain ⟨c, _, hc⟩ := hp
  have hg1 := congrArg Prod.fst hc
  simp only at hg1
  subst hg1
  exact ⟨rfl, rfl, rfl, rfl, rfl, hv.1, hv.2⟩

theorem RunInv_congr {code : GUESS} {k : Nat} {w w' : Prop} {g : GLOBAL} (h : w ↔ w')
    (hinv : RunInv code k w g) : RunInv code k w' g := by
  obtain ⟨h1, h2, h3, h4⟩ := hinv
  exact ⟨h1, h2, by rw [← h]; exact h3, by rw [← h]; exact h4⟩

theorem submitGuess_step {code : GUESS} {k : Nat} {w : Prop} {g : GLOBAL} (guess : GUESS)
    (hcode : Complete code) (hguess : Complete guess) (hinv : RunInv code k w g) :
    ∃ g', submitGuess g guess = some g' ∧
      RunInv code (k + 1) (w ∨ ∀ i, guess i = code i) g' := by
  obtain ⟨hgc, ⟨n, hn, hnk⟩, hover, hwon⟩ := hinv
  have hlt : n.val < 10 := n.isLt
  let g1 : GLOBAL :=
    { g with amove := (Function.update g.amove n ⟨guess, (g.amove n).cPosition, (g.amove n).cColor⟩),
             fGuessAllowed := true }
  have hrow : (g1.amove n).guess = guess := by simp [g1]
  have hg1c : g1.guessCode = code := hgc
  have hcmd := DoCommand_guess_eq g1 false [] n hn (by rw [hrow]; exact hguess)
    (by rw [hg1c]; exact hcode)
  refine ⟨afterGuess g1 n, ?_, ?_⟩
  · have hidx : index? maxMove g.iMove = some n := by rw [hn]; exact index?_val n
    simp only [submitGuess, hidx, Option.bind_eq_bind, Option.some_bind]
    show (DoCommand IDC_GUESS false [] g1).bind _ = _
    rw [hcmd]
    rfl
  · by_cases hall : ∀ i, guess i = code i
    · have hall1 : ∀ i, (g1.amove n).guess i = g1.guessCode i := by
        rw [hrow, hg1c]; exact hall
      rw [afterGuess_win g1 n hall1]
      refine ⟨hgc, ⟨n, hn, ?_⟩, ?_, ?_⟩
      · intro h; simp at h
      · simp [hall]
      · intro h; exact absurd (Or.inr hall) h
    · have hne1 : ¬ ∀ i, (g1.amove n).guess i = g1.guessCode i := by
        rw [hrow, hg1c]; exact hall
      obtain ⟨hgo, hlast⟩ := afterGuess_miss g1 n hn hne1
      have hcode1 := afterGuess_guessCode g1 n
      by_cases hn1 : n.val + 1 < maxMove
      · obtain ⟨a, b, c⟩ := hgo hn1
        refine ⟨hcode1.trans hgc, ⟨⟨n.val + 1, hn1⟩, ?_, ?_⟩, ?_, ?_⟩
        · rw [a]; show g.iMove + 1 = _; rw [hn]; push_cast; rfl
        · intro h
          have h2 : g.fGameOver = false := by rw [← h, b]
          show n.val + 1 = k + 1
          rw [hnk h2]
        · rw [b]
          show g.fGameOver = true ↔ _
          rw [hover]
          constructor
          · rintro (h | h)
            · exact Or.inl (Or.inl h)
            · exact Or.inr (by omega)
          · rintro ((h | h) | h)
            · exact Or.inl h
            · exact absurd h hall
            · by_cases ho : g.fGameOver = true
              · exact hover.1 ho
              · have hk := hnk (by simpa using ho)
                omega
        · intro h
          rw [c]
          exact hwon (fun hw => h (Or.inl hw))
      · have hn2 : n.val + 1 = maxMove := by omega
        obtain ⟨a, b, c⟩ := hlast hn2
        refine ⟨hcode1.trans hgc, ⟨n, ?_, ?_⟩, ?_, ?_⟩
        · rw [a]; have : (n.val : Int) + 1 = (maxMove : Int) := by exact_mod_cast hn2
          linarith
        · intro h; rw [b] at h; simp at h
        · rw [b]
          simp only [true_iff]
          by_cases ho : g.fGameOver = true
          · rcases hover.1 ho with h | h
            · exact Or.inl (Or.inl h)
            · exact Or.inr (by omega)
          · have hk := hnk (by simpa using ho)
            exact Or.inr (by omega)
        · intro _; exact c

theorem playGuesses_inv {code : GUESS} (hcode : Complete code) (gs : List GUESS) :
    ∀ (g : GLOBAL) (k : Nat) (w : Prop), (∀ guess ∈ gs, Complete guess) → RunInv code k w g →
      ∃ g', playGuesses g gs = some g' ∧
        RunInv code (k + gs.length) (w ∨ ∃ guess ∈ gs, ∀ i, guess i = code i) g' := by
  induction gs with
  | nil =>
    intro g k w _ hinv
    exact ⟨g, rfl, RunInv_congr (by simp) hinv⟩
  | cons guess gs ih =>
    intro g k w hgs hinv
    obtain ⟨g1, hs, hinv1⟩ :=
      submitGuess_step guess hcode (hgs guess (List.mem_cons_self _ _)) hinv
    obtain ⟨g2, hp, hinv2⟩ :=
      ih g1 (k + 1) _ (fun x hx => hgs x (List.mem_cons_of_mem _ hx)) hinv1
    refine ⟨g2, ?_, ?_⟩
    · simp only [playGuesses, List.foldlM_cons, hs, Option.bind_eq_bind, Option.some_bind]
      exact hp
    · have hlen : k + (guess :: gs).length = k + 1 + gs.length := by
        simp only [List.length_cons]; omega
      rw [hlen]
      refine RunInv_congr ?_ hinv2
      simp only [List.mem_cons, exists_eq_or_imp, or_assoc]

/-- C10: from every fresh game (the state right after `NewGame`) and for
every sequence `gs` of complete guesses submitted one after another, after
the first `k` guesses the game is over exactly when one of these `k` guesses
is the code or `k` has reached `maxMove`, and it is in progress otherwise; in
particular `maxMove` guesses that all miss leave the game in progress after
each of the first `maxMove - 1` and lost after the last. -/
theorem game_over_exactly (g0 : GLOBAL) (draws : List Nat) (r : GLOBAL × List Nat)
    (hnew : NewGame g0 draws = some r) (gs : List GUESS)
    (hgs : ∀ guess ∈ gs, Complete guess) :
    (∀ k, k ≤ gs.length → ∃ gk, playGuesses r.1 (gs.take k) = some gk ∧
      (gk.fGameOver = true ↔
        (∃ guess ∈ gs.take k, ∀ i, guess i = r.1.guessCode i) ∨ maxMove ≤ k)) ∧
    ((∀ guess ∈ gs, ∃ i, guess i ≠ r.1.guessCode i) → gs.length = maxMove →
      (∀ k, k < maxMove → ∃ gk, playGuesses r.1 (gs.take k) = some gk ∧
        gk.fGameOver = false) ∧
      (∃ g', playGuesses r.1 gs = some g' ∧ g'.fGameOver = true ∧ g'.fGameWon = false)) := by
  obtain ⟨h0, h1, h2, _, _, hcode, _⟩ := NewGame_fresh g0 draws r hnew
  have hinit : RunInv r.1.guessCode 0 False r.1 :=
    ⟨rfl, ⟨⟨0, by decide⟩, by rw [h0]; rfl, fun _ => rfl⟩, by simp [h1], fun _ => h2⟩
  have hrun : ∀ l : List GUESS, (∀ guess ∈ l, Complete guess) →
      ∃ g', playGuesses r.1 l = some g' ∧
        RunInv r.1.guessCode l.length (∃ guess ∈ l, ∀ i, guess i = r.1.guessCode i) g' := by
    intro l hl
    obtain ⟨g', hp, hinv⟩ := playGuesses_inv hcode l r.1 0 False hl hinit
    refine ⟨g', hp, ?_⟩
    rw [Nat.zero_add] at hinv
    exact RunInv_congr (by simp) hinv
  have htake : ∀ k, ∀ guess ∈ gs.take k, Complete guess :=
    fun k guess hx => hgs guess (List.mem_of_mem_take hx)
  constructor
  · intro k hk
    obtain ⟨gk, hp, _, _, hover, _⟩ := hrun (gs.take k) (htake k)
    rw [List.length_take, Nat.min_eq_left hk] at hover
    exact ⟨gk, hp, hover⟩
  · intro hmiss hlen
    have hnowin : ∀ l : List GUESS, (∀ guess ∈ l, guess ∈ gs) →
        ¬ ∃ guess ∈ l, ∀ i, guess i = r.1.guessCode i := by
      rintro l hl ⟨guess, hmem, hall⟩
      obtain ⟨i, hi⟩ := hmiss guess (hl guess hmem)
      exact hi (hall i)
    constructor
    · intro k hk
      obtain ⟨gk, hp, _, _, hover, _⟩ := hrun (gs.take k) (htake k)
      rw [List.length_take, Nat.min_eq_left (by omega)] at hover
      refine ⟨gk, hp, ?_⟩
      have hno : ¬ gk.fGameOver = true := by
        rw [hover]
        rintro (h | h)
        · exact hnowin _ (fun x hx => List.mem_of_mem_take hx) h
        · omega
      simpa using hno
    · obtain ⟨g', hp, _, _, hover, hwon⟩ := hrun gs hgs
      refine ⟨g', hp, hover.2 (Or.inr hlen.ge), hwon (hnowin gs (fun _ h => h))⟩

/-- Witness of C10: the game started by the draws `3, 9, 3, 0, 7, 6, 2, 5`
(code `[3,0,1,2]`) and ten guesses `[4,2,5,3]`, none of them the code: the
game is in progress after each of the first nine and lost after the tenth. -/
theorem game_over_exactly_witness :
    ∃ r, NewGame gMixed [3, 9, 3, 0, 7, 6, 2, 5] = some r ∧
      (∀ guess ∈ tenMisses, Complete guess) ∧
      (List.finRange nPeg).map r.1.guessCode = [3, 0, 1, 2] ∧
      (∀ guess ∈ tenMisses, ∃ i, guess i ≠ r.1.guessCode i) ∧
      tenMisses.length = maxMove ∧
      (∀ k, k ≤ tenMisses.length → ∃ gk, playGuesses r.1 (tenMisses.take k) = some gk ∧
        (gk.fGameOver = true ↔
          (∃ guess ∈ tenMisses.take k, ∀ i, guess i = r.1.guessCode i) ∨ maxMove ≤ k)) ∧
      (∀ k, k < maxMove → ∃ gk, playGuesses r.1 (tenMisses.take k) = some gk ∧
        gk.fGameOver = false) ∧
      (∃ g', playGuesses r.1 tenMisses = some g' ∧
        g'.fGameOver = true ∧ g'.fGameWon = false) :=
  ⟨(NewGame gMixed [3, 9, 3, 0, 7, 6, 2, 5]).get (by decide), (Option.some_get _).symm,
    by decide, by decide, by decide, by decide,
    (game_over_exactly gMixed [3, 9, 3, 0, 7, 6, 2, 5] _ (Option.some_get _).symm
      tenMisses (by decide)).1,
    ((game_over_exactly gMixed [3, 9, 3, 0, 7, 6, 2, 5] _ (Option.some_get _).symm
      tenMisses (by decide)).2 (by decide) (by decide)).1,
    ((game_over_exactly gMixed [3, 9, 3, 0, 7, 6, 2, 5] _ (Option.some_get _).symm
      tenMisses (by decide)).2 (by decide) (by decide)).2⟩

/-! ## Resigning and starting a new game (C12, C13, C15) -/

/-- C12: in every state with `fGameOver = FALSE` and `iMove > 0`, a confirmed
resignation (the New Game command answered yes) sets `fGameOver = TRUE` and
`fGameWon = FALSE` and leaves the code, `iMove`, every row (pegs and scores),
the guess-button flag and the draws unchanged; a declined resignation
changes nothing at all. -/
theorem DoCommand_resign (g : GLOBAL) (draws : List Nat) (hover : g.fGameOver = false)
    (hmove : g.iMove > 0) :
    (∃ g', DoCommand IDC_NEW_GAME true draws g = some (g', draws) ∧
      g'.fGameOver = true ∧ g'.fGameWon = false ∧ g'.guessCode = g.guessCode ∧
      g'.iMove = g.iMove ∧ g'.amove = g.amove ∧ g'.fGuessAllowed = g.fGuessAllowed) ∧
    DoCommand IDC_NEW_GAME false draws g = some (g, draws) := by
  constructor
  · refine ⟨{ g with fGameOver := true, fGameWon := false }, ?_, rfl, rfl, rfl, rfl, rfl, rfl⟩
    simp [DoCommand, IDC_NEW_GAME, IDM_ABOUT, IDC_GUESS, hover, hmove]
  · simp [DoCommand, IDC_NEW_GAME, IDM_ABOUT, IDC_GUESS, hover, hmove]

/-- Witness of C12 at a state in progress at row 3. -/
theorem DoCommand_resign_witness :
    gRepeat.fGameOver = false ∧ gRepeat.iMove > 0 ∧
    (∃ g', DoCommand IDC_NEW_GAME true [1, 2] gRepeat = some (g', [1, 2]) ∧
      g'.fGameOver = true ∧ g'.fGameWon = false ∧ g'.guessCode = gRepeat.guessCode ∧
      g'.iMove = gRepeat.iMove ∧ g'.amove = gRepeat.amove ∧
      g'.fGuessAllowed = gRepeat.fGuessAllowed) ∧
    DoCommand IDC_NEW_GAME false [1, 2] gRepeat = some (gRepeat, [1, 2]) :=
  ⟨by decide, by decide, DoCommand_resign gRepeat [1, 2] (by decide) (by decide)⟩

/-- C13 fails as stated: in a game that is over (`gLost`) and in a game with
no submitted guess (`gMixed`, `iMove = 0`) the New Game command does not
leave the state as it is: the game is in progress at row 0 afterwards, with
a new code `[3,0,1,2]` and row 0 blank. -/
theorem new_game_command_changes_state :
    (gLost.fGameOver = true ∧ gLost.iMove = 9 ∧
      (List.finRange nPeg).map gLost.guessCode = [4, 5, 2, 3] ∧
      (DoCommand IDC_NEW_GAME true [3, 9, 3, 0, 7, 6, 2, 5] gLost).map
          (fun r => (r.1.fGameOver, r.1.iMove, (List.finRange nPeg).map r.1.guessCode))
        = some (false, 0, [3, 0, 1, 2])) ∧
    (gMixed.fGameOver = false ∧ gMixed.iMove = 0 ∧
      (List.finRange nPeg).map (gMixed.amove 0).guess = [4, 2, 5, 3] ∧
      (List.finRange nPeg).map gMixed.guessCode = [4, 5, 2, 3] ∧
      (DoCommand IDC_NEW_GAME true [3, 9, 3, 0, 7, 6, 2, 5] gMixed).map
          (fun r => ((List.finRange nPeg).map (r.1.amove 0).guess,
                     (List.finRange nPeg).map r.1.guessCode))
        = some ([6, 6, 6, 6], [3, 0, 1, 2])) := by
  decide

/-- C13 as amended: in every state with `iMove = 0` or with the game already
over, the New Game command asks nothing and resigns nothing; whatever the
answer `fResign` would be it runs `NewGame`, and when that finishes the
session is a fresh one: `iMove = 0`, every row blank with score `(0,0)`,
`fGameOver = FALSE`, `fGameWon = FALSE`. -/
theorem DoCommand_new_game_idle (g : GLOBAL) (fResign : Bool) (draws : List Nat)
    (h : g.iMove = 0 ∨ g.fGameOver = true) :
    DoCommand IDC_NEW_GAME fResign draws g = NewGame g draws ∧
    ∀ r, DoCommand IDC_NEW_GAME fResign draws g = some r →
      r.1.iMove = 0 ∧ r.1.fGameOver = false ∧ r.1.fGameWon = false ∧
      r.1.amove = (fun _ => ⟨fun _ => PEG_BLANK, 0, 0⟩) := by
  have hcmd : DoCommand IDC_NEW_GAME fResign draws g = NewGame g draws := by
    rcases h with h | h <;> simp [DoCommand, IDC_NEW_GAME, IDM_ABOUT, IDC_GUESS, h]
  refine ⟨hcmd, ?_⟩
  intro r hr
  rw [hcmd] at hr
  obtain ⟨h0, h1, h2, _, h4, _, _⟩ := NewGame_fresh g draws r hr
  exact ⟨h0, h1, h2, h4⟩

/-- Witness of C13 as amended, at the lost game `gLost`. -/
theorem DoCommand_new_game_idle_witness :
    (gLost.iMove = 0 ∨ gLost.fGameOver = true) ∧
    (DoCommand IDC_NEW_GAME true [3, 9, 3, 0, 7, 6, 2, 5] gLost).isSome = true ∧
    DoCommand IDC_NEW_GAME true [3, 9, 3, 0, 7, 6, 2, 5] gLost
      = NewGame gLost [3, 9, 3, 0, 7, 6, 2, 5] ∧
    ∀ r, DoCommand IDC_NEW_GAME true [3, 9, 3, 0, 7, 6, 2, 5] gLost = some r →
      r.1.iMove = 0 ∧ r.1.fGameOver = false ∧ r.1.fGameWon = false ∧
      r.1.amove = (fun _ => ⟨fun _ => PEG_BLANK, 0, 0⟩) :=
  ⟨by decide, by decide,
    DoCommand_new_game_idle gLost true [3, 9, 3, 0, 7, 6, 2, 5] (by decide)⟩

/-- C15: from every prior state `g` and for every draw sequence on which
`PickCode` finishes, `NewGame` finishes with the same draws left over and
produces a fresh session in progress: `iMove = 0`, every one of the
`maxMove` rows has all `nPeg` slots `PEG_BLANK` and `cPosition = 0`,
`cColor = 0`, the flags `fGameOver`, `fGameWon`, `fGuessAllowed` are FALSE,
and the code is the one `PickCode` picks from these draws. -/
theorem NewGame_fresh_session (g : GLOBAL) (draws : List Nat) (r : GLOBAL × List Nat)
    (h : PickCode g draws = some r) :
    ∃ g', NewGame g draws = some (g', r.2) ∧
      g'.iMove = 0 ∧
      (∀ (iy : Fin maxMove) (ix : Fin nPeg), (g'.amove iy).guess ix = PEG_BLANK) ∧
      (∀ iy : Fin maxMove, (g'.amove iy).cPosition = 0 ∧ (g'.amove iy).cColor = 0) ∧
      g'.fGameOver = false ∧ g'.fGameWon = false ∧ g'.fGuessAllowed = false ∧
      g'.guessCode = r.1.guessCode := by
  simp only [PickCode, Option.map_eq_some'] at h
  obtain ⟨c, hc, hr⟩ := h
  subst hr
  refine ⟨{ guessCode := c.1, iMove := 0, amove := fun _ => ⟨fun _ => PEG_BLANK, 0, 0⟩,
            fGameOver := false, fGameWon := false, fGuessAllowed := false }, ?_, ?_⟩
  · simp only [NewGame, PickCode, hc, Option.map_some', Option.bind_eq_bind, Option.some_bind,
      Option.pure_def]
  · exact ⟨rfl, fun _ _ => rfl, fun _ => ⟨rfl, rfl⟩, rfl, rfl, rfl, rfl⟩

/-- Witness of C15: a new game started from the lost game `gLost` with the
draws `3, 9, 3, 0, 7, 6, 2, 5`. -/
theorem NewGame_fresh_session_witness :
    ∃ r, PickCode gLost [3, 9, 3, 0, 7, 6, 2, 5] = some r ∧
      (List.finRange nPeg).map r.1.guessCode = [3, 0, 1, 2] ∧
      ∃ g', NewGame gLost [3, 9, 3, 0, 7, 6, 2, 5] = some (g', r.2) ∧
        g'.iMove = 0 ∧
        (∀ (iy : Fin maxMove) (ix : Fin nPeg), (g'.amove iy).guess ix = PEG_BLANK) ∧
        (∀ iy : Fin maxMove, (g'.amove iy).cPosition = 0 ∧ (g'.amove iy).cColor = 0) ∧
        g'.fGameOver = false ∧ g'.fGameWon = false ∧ g'.fGuessAllowed = false ∧
        g'.guessCode = r.1.guessCode :=
  ⟨(PickCode gLost [3, 9, 3, 0, 7, 6, 2, 5]).get (by decide), (Option.some_get _).symm,
    by decide,
    NewGame_fresh_session gLost [3, 9, 3, 0, 7, 6, 2, 5] _ (Option.some_get _).symm⟩

/-! ## The worked scenario (C18) -/

/-- C18: with `nPeg = 4` and `nColor = 6`, scoring the guess `[4,2,5,3]`
against the code `[4,5,2,3]` gives `(cPosition, cColor) = (2,2)`, which is
what `TestGuess` stores in the active row, and the class id of the pair
`(2,2)` is 11 (image index `nColor + 1 + 11`). -/
theorem scenario_score_and_class :
    nPeg = 4 ∧ nColor = 6 ∧
    scoreGuess ![4, 2, 5, 3] ![4, 5, 2, 3] = some (2, 2) ∧
    (TestGuess gMixed).map (fun r => (r.1, (r.2.amove 0).cPosition, (r.2.amove 0).cColor))
      = some (false, 2, 2) ∧
    classify 2 2 = 11 ∧ mpResultToLibrary 2 2 = 18 := by
  decide

/-! ## PickCode and the draws (C16, C17) -/

theorem getElem_finRange_nPeg (j : Nat) (hj : j < (List.finRange nPeg).length) :
    (List.finRange nPeg)[j] = ⟨j, by simpa using hj⟩ := by
  apply Fin.ext
  simp

theorem codePrefix_update (code : GUESS) (i : Nat) (h : i < nPeg) (v : Int) :
    codePrefix (Function.update code ⟨i, h⟩ v) (i + 1) = codePrefix code i ++ [v] := by
  have h4 : i < 4 := h
  apply List.ext_getElem
  · simp only [codePrefix, List.length_take, List.length_map, List.length_finRange,
      List.length_append, List.length_singleton]
    omega
  · intro j h1 h2
    simp only [codePrefix, List.length_take, List.length_map, List.length_finRange] at h1
    have hj : j < i + 1 := by omega
    simp only [codePrefix, List.getElem_take, List.getElem_map, getElem_finRange_nPeg]
    by_cases hji : j < i
    · have hne : (⟨j, by omega⟩ : Fin nPeg) ≠ ⟨i, h⟩ := by
        intro he; have := congrArg Fin.val he; simp at this; omega
      rw [List.getElem_append_left (by
        simp only [List.length_take, List.length_map, List.length_finRange]; omega)]
      simp only [List.getElem_take, List.getElem_map, getElem_finRange_nPeg]
      rw [getElem_finRange_nPeg]
      exact Function.update_noteq hne _ _
    · have hje : j = i := by omega
      subst hje
      rw [List.getElem_append_right (by
        simp only [List.length_take, List.length_map, List.length_finRange]; omega)]
      rw [getElem_finRange_nPeg]
      simp

theorem codePrefix_full (code : GUESS) (i : Nat) (h : ¬ i < nPeg) :
    codePrefix code i = (List.finRange nPeg).map code := by
  apply List.take_of_length_le
  simp only [List.length_map, List.length_finRange]
  omega

theorem PickCodeLoop_firstDistinct (draws : List Nat) :
    ∀ (fColor : Fin nColor → Int) (code : GUESS) (i : Nat) (seen : List Nat),
      (∀ k : Fin nColor, fColor k ≠ 0 ↔ k.val ∈ seen) →
      (PickCodeLoop fColor code i draws).map (fun r => ((List.finRange nPeg).map r.1, r.2))
        = (firstDistinct (nPeg - i) seen draws).map
            (fun p => (codePrefix code i ++ p.1.map Int.ofNat, p.2)) := by
  induction draws with
  | nil =>
    intro fColor code i seen _
    by_cases h : i < nPeg
    · have hn : nPeg - i ≠ 0 := by omega
      simp [PickCodeLoop, firstDistinct, h, hn]
    · have hn : nPeg - i = 0 := by omega
      simp [PickCodeLoop, firstDistinct, h, hn, codePrefix_full code i h]
  | cons d draws ih =>
    intro fColor code i seen hseen
    by_cases h : i < nPeg
    · have hn : nPeg - i ≠ 0 := by omega
      have hd : d % nColor < nColor := Nat.mod_lt d (by decide)
      simp only [PickCodeLoop, h, dif_pos, firstDistinct, hn, if_false]
      by_cases hj : fColor ⟨d % nColor, hd⟩ = 0
      · have hmem : ¬ d % nColor ∈ seen := by
          intro hm
          exact (hseen ⟨d % nColor, hd⟩).2 hm hj
        have hseen' : ∀ k : Fin nColor,
            Function.update fColor ⟨d % nColor, hd⟩ 1 k ≠ 0 ↔ k.val ∈ d % nColor :: seen := by
          intro k
          by_cases hk : k = ⟨d % nColor, hd⟩
          · subst hk; simp
          · have hkv : ¬ k.val = d % nColor := fun he => hk (Fin.ext he)
            rw [Function.update_noteq hk, hseen k]
            simp [hkv]
        rw [if_pos hj, if_neg hmem, ih _ _ _ _ hseen', Option.map_map]
        have hsub : nPeg - (i + 1) = nPeg - i - 1 := by omega
        rw [hsub]
        congr 1
        funext p
        simp only [Function.comp, List.map_cons, codePrefix_update code i h]
        simp
      · have hmem : d % nColor ∈ seen := (hseen ⟨d % nColor, hd⟩).1 hj
        rw [if_neg hj, if_pos hmem]
        exact ih _ _ _ _ hseen
    · have hn : nPeg - i = 0 := by omega
      simp [PickCodeLoop, firstDistinct, h, hn, codePrefix_full code i h]

theorem PickCode_eq_firstDistinct (g : GLOBAL) (draws : List Nat) :
    (PickCode g draws).map (fun r => ((List.finRange nPeg).map r.1.guessCode, r.2))
      = (firstDistinct nPeg [] draws).map (fun p => (p.1.map Int.ofNat, p.2)) := by
  have h := PickCodeLoop_firstDistinct draws (fun _ => 0) g.guessCode 0 [] (by simp)
  simp only [PickCode, Option.map_map, Function.comp]
  simpa [codePrefix] using h

/-- C16: for every draw sequence on which `PickCode` finishes, the code is
the sequence of the first `nPeg` pairwise-distinct values of `r % nColor`
in order of first occurrence (`firstDistinct`: a draw whose color is already
in the code is skipped without filling a slot, a new color fills the next
slot), and the draws left over are those after the draw that filled the last
slot. -/
theorem PickCode_first_distinct (g : GLOBAL) (draws : List Nat) (r : GLOBAL × List Nat)
    (h : PickCode g draws = some r) :
    ∃ cs, firstDistinct nPeg [] draws = some (cs, r.2) ∧
      (List.finRange nPeg).map r.1.guessCode = cs.map Int.ofNat := by
  have heq := PickCode_eq_firstDistinct g draws
  rw [h, Option.map_some'] at heq
  obtain ⟨p, hp, hpr⟩ := Option.map_eq_some'.1 heq.symm
  simp only [Prod.mk.injEq] at hpr
  exact ⟨p.1, by rw [hp, ← hpr.2], hpr.1.symm⟩

/-- Witness of C16: the draws `3, 9, 3, 0, 7, 6, 2, 5` have the colors
`3, 3, 3, 0, 1, 0, 2, 5`; the code is `[3,0,1,2]` and the draw `5` is left. -/
theorem PickCode_first_distinct_witness :
    ∃ r, PickCode gZero [3, 9, 3, 0, 7, 6, 2, 5] = some r ∧
      firstDistinct nPeg [] [3, 9, 3, 0, 7, 6, 2, 5] = some ([3, 0, 1, 2], [5]) ∧
      ∃ cs, firstDistinct nPeg [] [3, 9, 3, 0, 7, 6, 2, 5] = some (cs, r.2) ∧
        (List.finRange nPeg).map r.1.guessCode = cs.map Int.ofNat :=
  ⟨(PickCode gZero [3, 9, 3, 0, 7, 6, 2, 5]).get (by decide), (Option.some_get _).symm,
    by decide,
    PickCode_first_distinct gZero [3, 9, 3, 0, 7, 6, 2, 5] _ (Option.some_get _).symm⟩

theorem firstDistinct_isSome (draws : List Nat) :
    ∀ (n : Nat) (seen : List Nat),
      (firstDistinct n seen draws).isSome = true
        ↔ n ≤ ((draws.map (fun r => r % nColor)).toFinset \ seen.toFinset).card := by
  induction draws with
  | nil =>
    intro n seen
    by_cases hn : n = 0 <;> simp [firstDistinct, hn]
  | cons d draws ih =>
    intro n seen
    by_cases hn : n = 0
    · simp [firstDistinct, hn]
    · simp only [firstDistinct, hn, if_false, List.map_cons, List.toFinset_cons]
      by_cases hmem : d % nColor ∈ seen
      · rw [if_pos hmem, ih]
        have hset : insert (d % nColor) (draws.map (fun r => r % nColor)).toFinset
            \ seen.toFinset = (draws.map (fun r => r % nColor)).toFinset \ seen.toFinset := by
          ext x
          simp only [Finset.mem_sdiff, Finset.mem_insert, List.mem_toFinset]
          constructor
          · rintro ⟨h1 | h1, h2⟩
            · exact absurd (h1 ▸ hmem) h2
            · exact ⟨h1, h2⟩
          · rintro ⟨h1, h2⟩
            exact ⟨Or.inr h1, h2⟩
        rw [hset]
      · rw [if_neg hmem, Option.isSome_map', ih]
        have hset : insert (d % nColor) (draws.map (fun r => r % nColor)).toFinset
            \ seen.toFinset
            = insert (d % nColor) ((draws.map (fun r => r % nColor)).toFinset
                \ (d % nColor :: seen).toFinset) := by
          ext x
          simp only [Finset.mem_sdiff, Finset.mem_insert, List.mem_toFinset, List.mem_cons]
          constructor
          · rintro ⟨h1 | h1, h2⟩
            · exact Or.inl h1
            · by_cases hx : x = d % nColor
              · exact Or.inl hx
              · exact Or.inr ⟨h1, fun h => h.elim hx h2⟩
          · rintro (h1 | ⟨h1, h2⟩)
            · exact ⟨Or.inl h1, h1 ▸ hmem⟩
            · exact ⟨Or.inr h1, fun h => h2 (Or.inr h)⟩
        have hnot : d % nColor ∉ (draws.map (fun r => r % nColor)).toFinset
            \ (d % nColor :: seen).toFinset := by
          simp
        rw [hset, Finset.card_insert_of_not_mem hnot]
        omega

theorem PickCode_isSome_iff (g : GLOBAL) (draws : List Nat) :
    (PickCode g draws).isSome = true
      ↔ nPeg ≤ (draws.map (fun r => r % nColor)).toFinset.card := by
  have h := congrArg Option.isSome (PickCode_eq_firstDistinct g draws)
  simp only [Option.isSome_map'] at h
  rw [h, firstDistinct_isSome]
  simp

/-- C17 fails as stated: on the randomness source that always draws 0 no
number of draws lets `PickCode` finish. -/
theorem PickCode_constant_source_never_finishes :
    ¬ ∃ n : Nat, (PickCode gZero (List.replicate n 0)).isSome = true := by
  rintro ⟨n, hn⟩
  rw [PickCode_isSome_iff] at hn
  have hsub : ((List.replicate n 0).map (fun r => r % nColor)).toFinset ⊆ {0} := by
    intro x hx
    simp only [List.mem_toFinset, List.mem_map, List.mem_replicate] at hx
    obtain ⟨a, ⟨_, ha⟩, hax⟩ := hx
    subst ha
    simpa using hax.symm
  have hcard := Finset.card_le_card hsub
  simp only [Finset.card_singleton] at hcard
  have : 4 ≤ 1 := le_trans hn hcard
  omega

/-- C17 as amended: with `nPeg ≤ nColor`, `PickCode` finishes and returns a
code on a sequence of draws exactly when the draws, taken `% nColor`, hold at
least `nPeg` distinct values; in particular it finishes on every sequence
that does, and never on a source of fewer than `nPeg` colors. -/
theorem PickCode_finishes_iff (g : GLOBAL) (draws : List Nat) :
    nPeg ≤ nColor ∧
    ((∃ r, PickCode g draws = some r)
      ↔ nPeg ≤ (draws.map (fun r => r % nColor)).toFinset.card) := by
  refine ⟨by decide, ?_⟩
  rw [← PickCode_isSome_iff g draws, Option.isSome_iff_exists]

/-! ## Guess requests that must be refused (C11, C14) -/

/-- C11, the code at the failing input: after the resignation of
`resignTrace` the game is over and not won, yet the guess button is still
enabled (`fGuessAllowed = TRUE`); the Return key then runs the guess
command, which stores `(4,0)` in row 1 and sets `fGameWon = TRUE`, and so do
the right mouse button and a press of the Guess button (`WM_COMMAND`,
`IDC_GUESS`). -/
theorem resigned_game_accepts_guess :
    (runEvents resignTrace appZero).map view
      = some ⟨true, false, true, 1, [3, 0, 1, 2], [3, 0, 1, 2], (0, 0)⟩ ∧
    (runEvents (resignTrace ++ [evReturn]) appZero).map view
      = some ⟨true, true, false, 1, [3, 0, 1, 2], [3, 0, 1, 2], (4, 0)⟩ ∧
    (runEvents (resignTrace ++ [evRightUp]) appZero).map view
      = some ⟨true, true, false, 1, [3, 0, 1, 2], [3, 0, 1, 2], (4, 0)⟩ ∧
    (runEvents (resignTrace ++ [evCommand IDC_GUESS false]) appZero).map view
      = some ⟨true, true, false, 1, [3, 0, 1, 2], [3, 0, 1, 2], (4, 0)⟩ := by
  refine ⟨?_, ?_, ?_, ?_⟩ <;> decide

theorem index?_eq_some {n : Nat} {j : Int} {k : Fin n} (h : index? n j = some k) :
    0 ≤ j ∧ j < (n : Int) ∧ (k.val : Int) = j := by
  unfold index? at h
  split_ifs at h with hj
  simp only [Option.some.injEq] at h
  subst h
  exact ⟨hj.1, hj.2, Int.toNat_of_nonneg hj.1⟩

theorem bump_eq_some {a b : ColorCounts} {j d : Int} (h : bump a j d = some b) : IsColor j := by
  simp only [bump, Option.map_eq_some'] at h
  obtain ⟨k, hk, _⟩ := h
  obtain ⟨h0, h1, _⟩ := index?_eq_some hk
  exact ⟨h0, h1⟩

theorem countLoop_some (guess code : GUESS) (l : List (Fin nPeg)) :
    ∀ st st', l.foldlM (countStep guess code) st = some st' →
      ∀ i ∈ l, IsColor (guess i) ∧ IsColor (code i) := by
  induction l with
  | nil => intro _ _ _ i hi; exact absurd hi (List.not_mem_nil i)
  | cons a l ih =>
    intro st st' h i hi
    simp only [List.foldlM_cons, Option.bind_eq_bind, Option.bind_eq_some] at h
    obtain ⟨st1, h1, h2⟩ := h
    rcases List.mem_cons.1 hi with hia | hil
    · subst hia
      simp only [countStep, Option.bind_eq_bind, Option.bind_eq_some, Option.pure_def,
        Option.some.injEq] at h1
      obtain ⟨gc, hgc, cc, hcc, _⟩ := h1
      exact ⟨bump_eq_some hgc, bump_eq_some hcc⟩
    · exact ih st1 st' h2 i hil

theorem scoreGuess_some {guess code : GUESS} {sc : Int × Int}
    (h : scoreGuess guess code = some sc) :
    Complete guess ∧ Complete code ∧ sc = specScore guess code := by
  have h' := h
  simp only [scoreGuess, Option.bind_eq_bind, Option.bind_eq_some] at h'
  obtain ⟨st, hst, _⟩ := h'
  have hall := countLoop_some guess code _ _ _ hst
  have hg : Complete guess := fun i => (hall i (List.mem_finRange i)).1
  have hc : Complete code := fun i => (hall i (List.mem_finRange i)).2
  rw [scoreGuess_eq guess code hg hc] at h
  exact ⟨hg, hc, (Option.some.inj h).symm⟩

theorem TestGuess_some {g : GLOBAL} {r : Bool × GLOBAL} (h : TestGuess g = some r) :
    ∃ n : Fin maxMove, g.iMove = (n.val : Int) ∧ Complete (g.amove n).guess ∧
      Complete g.guessCode ∧ r = (decide ((specScore (g.amove n).guess g.guessCode).1 = nPeg),
        { g with amove := (Function.update g.amove n
          ⟨(g.amove n).guess, (specScore (g.amove n).guess g.guessCode).1,
            (specScore (g.amove n).guess g.guessCode).2⟩) }) := by
  have h' := h
  simp only [TestGuess, Option.bind_eq_bind, Option.bind_eq_some] at h'
  obtain ⟨n, hn, sc, hsc, _⟩ := h'
  obtain ⟨_, _, hnv⟩ := index?_eq_some hn
  obtain ⟨hg, hc, _⟩ := scoreGuess_some hsc
  refine ⟨n, hnv.symm, hg, hc, ?_⟩
  rw [TestGuess_eq g n hnv.symm hg hc] at h
  exact (Option.some.inj h).symm

theorem TestGuess_none_of_blank (g : GLOBAL) (n : Fin maxMove) (hn : g.iMove = (n.val : Int))
    (hblank : ∃ ix, (g.amove n).guess ix = PEG_BLANK) : TestGuess g = none := by
  cases h : TestGuess g with
  | none => rfl
  | some r =>
    obtain ⟨m, hm, hg, _, _⟩ := TestGuess_some h
    have hmn : m = n := by
      apply Fin.ext
      have : (m.val : Int) = (n.val : Int) := by rw [← hm, hn]
      exact_mod_cast this
    subst hmn
    obtain ⟨ix, hix⟩ := hblank
    have hcol := hg ix
    rw [hix] at hcol
    exact absurd hcol.2 (by decide)

/-- C14 fails as stated: in the state `gHole`, in progress with an empty
slot in the active row, neither `TestGuess` nor the guess command refuses
the guess and returns the state as it is; there is no test for `PEG_BLANK`,
and the count loop indexes `guessColors[nColor]`, outside the array. -/
theorem guess_command_has_no_blank_check :
    gHole.fGameOver = false ∧ gHole.iMove = 0 ∧ (gHole.amove 0).guess 2 = PEG_BLANK ∧
    index? nColor ((gHole.amove 0).guess 2) = none ∧
    TestGuess gHole = none ∧
    DoCommand IDC_GUESS false [] gHole ≠ some (gHole, []) := by
  have h : TestGuess gHole = none :=
    TestGuess_none_of_blank gHole 0 (by decide) ⟨2, by decide⟩
  refine ⟨by decide, by decide, by decide, by decide, h, ?_⟩
  simp [DoCommand, IDC_GUESS, IDM_ABOUT, h]

/-- C14 as amended: in every state in progress whose active row has an empty
slot and whose guess button is disabled (`fGuessAllowed = FALSE`), a guess
request by the Return key, the right button or a right double click is
dropped by `WndProc` and changes nothing: no score is written, `iMove` does
not advance and the flags stay as they are.  The refusal is this test of
`fGuessAllowed`; the guess command itself has no test, and `TestGuess` run
on such a row indexes out of range. -/
theorem guess_request_dropped (e : EVENT) (a : APP) (n : Fin maxMove)
    (hn : a.g.iMove = (n.val : Int)) (_hover : a.g.fGameOver = false)
    (hblank : ∃ ix, (a.g.amove n).guess ix = PEG_BLANK)
    (hoff : a.g.fGuessAllowed = false)
    (he : (e.msg = WM_KEYDOWN ∧ e.wParam = VK_RETURN) ∨ e.msg = WM_RBUTTONUP
      ∨ e.msg = WM_RBUTTONDBLCLK) :
    WndProc e a = some a ∧ TestGuess a.g = none := by
  refine ⟨?_, TestGuess_none_of_blank a.g n hn hblank⟩
  rcases he with ⟨h1, _⟩ | h1 | h1 <;>
    simp [WndProc, h1, hoff, WM_CREATE, WM_KEYDOWN, WM_COMMAND, WM_RBUTTONUP, WM_RBUTTONDBLCLK]

/-- Witness of C14 as amended: the Return key in the state `gHole`. -/
theorem guess_request_dropped_witness :
    gHole.iMove = (((0 : Fin maxMove).val : Nat) : Int) ∧ gHole.fGameOver = false ∧
    (∃ ix, (gHole.amove 0).guess ix = PEG_BLANK) ∧ gHole.fGuessAllowed = false ∧
    ((evReturn.msg = WM_KEYDOWN ∧ evReturn.wParam = VK_RETURN) ∨ evReturn.msg = WM_RBUTTONUP
      ∨ evReturn.msg = WM_RBUTTONDBLCLK) ∧
    WndProc evReturn ⟨gHole, mouseInit, []⟩ = some ⟨gHole, mouseInit, []⟩ ∧
    TestGuess (APP.mk gHole mouseInit []).g = none :=
  ⟨by decide, by decide, by decide, by decide, by decide,
    guess_request_dropped evReturn ⟨gHole, mouseInit, []⟩ 0 (by decide) (by decide)
      (by decide) (by decide) (by decide)⟩

/-! ## What the mouse and the commands leave alone (C19) -/

theorem PegsOnly_refl (iy : Int) (g : GLOBAL) : PegsOnly iy g g :=
  ⟨rfl, rfl, rfl, rfl, fun _ => ⟨rfl, rfl⟩, fun _ _ => rfl⟩

theorem PegsOnly_trans {iy : Int} {g1 g2 g3 : GLOBAL} (h12 : PegsOnly iy g1 g2)
    (h23 : PegsOnly iy g2 g3) : PegsOnly iy g1 g3 := by
  obtain ⟨a1, a2, a3, a4, a5, a6⟩ := h12
  obtain ⟨b1, b2, b3, b4, b5, b6⟩ := h23
  exact ⟨b1.trans a1, b2.trans a2, b3.trans a3, b4.trans a4,
    fun i => ⟨(b5 i).1.trans (a5 i).1, (b5 i).2.trans (a5 i).2⟩,
    fun i hi => (b6 i hi).trans (a6 i hi)⟩

theorem PegsOnly_allow (iy : Int) (g : GLOBAL) :
    PegsOnly iy g { g with fGuessAllowed := true } :=
  ⟨rfl, rfl, rfl, rfl, fun _ => ⟨rfl, rfl⟩, fun _ _ => rfl⟩

theorem setPeg_pegsOnly {g g' : GLOBAL} {iy ix : Int} {peg : PEG}
    (h : setPeg g iy ix peg = some g') : PegsOnly iy g g' := by
  simp only [setPeg, Option.bind_eq_bind, Option.bind_eq_some, Option.pure_def,
    Option.some.injEq] at h
  obtain ⟨r, hr, c, _, hg⟩ := h
  obtain ⟨_, _, hrv⟩ := index?_eq_some hr
  subst hg
  refine ⟨rfl, rfl, rfl, rfl, ?_, ?_⟩
  · intro i
    by_cases hi : i = r
    · subst hi; simp
    · simp [Function.update_noteq hi]
  · intro i hi
    have hne : i ≠ r := by
      intro he
      apply hi
      rw [he, hrv]
    simp [Function.update_noteq hne]

theorem foldlM_pegsOnly {α : Type} (iy : Int) (f : GLOBAL → α → Option GLOBAL)
    (hf : ∀ g x g', f g x = some g' → PegsOnly iy g g') (l : List α) :
    ∀ g g', l.foldlM f g = some g' → PegsOnly iy g g' := by
  induction l with
  | nil =>
    intro g g' h
    simp only [List.foldlM_nil, Option.pure_def, Option.some.injEq] at h
    subst h
    exact PegsOnly_refl iy g
  | cons x l ih =>
    intro g g' h
    simp only [List.foldlM_cons, Option.bind_eq_bind, Option.bind_eq_some] at h
    obtain ⟨g1, h1, h2⟩ := h
    exact PegsOnly_trans (hf g x g1 h1) (ih g1 g' h2)

theorem copyRow_pegsOnly {g g' : GLOBAL} {iyDst iySrc : Int}
    (h : copyRow g iyDst iySrc = some g') : PegsOnly iyDst g g' := by
  refine foldlM_pegsOnly iyDst _ ?_ _ g g' h
  intro g1 i g2 h1
  simp only [Option.bind_eq_bind, Option.bind_eq_some] at h1
  obtain ⟨peg, _, hset⟩ := h1
  exact setPeg_pegsOnly hset

theorem dropPeg_pegsOnly {g g' : GLOBAL} {m : MOUSE} {ixMove iyMove : Int}
    (h : dropPeg g m ixMove iyMove = some g') : PegsOnly iyMove g g' := by
  simp only [dropPeg, Option.bind_eq_bind, Option.bind_eq_some, Option.pure_def,
    Option.some.injEq] at h
  obtain ⟨j, _, g1, h1, g2, h2, cnt, _, hg⟩ := h
  have h12 : PegsOnly iyMove g1 g2 := by
    unfold exchangePeg at h2
    split_ifs at h2 with hw hs
    · rw [hs] at h2; exact setPeg_pegsOnly h2
    · simp only [Option.some.injEq] at h2; subst h2; exact PegsOnly_refl _ _
    · simp only [Option.some.injEq] at h2; subst h2; exact PegsOnly_refl _ _
  have h02 := PegsOnly_trans (setPeg_pegsOnly h1) h12
  subst hg
  split_ifs
  · exact PegsOnly_trans h02 (PegsOnly_allow _ _)
  · exact h02

theorem DoMouse_pegsOnly {msg : Nat} {x y : Int} {g : GLOBAL} {m : MOUSE}
    {r : Bool × GLOBAL × MOUSE} (h : DoMouse msg x y g m = some r) :
    PegsOnly g.iMove g r.2.1 := by
  unfold DoMouse at h
  split_ifs at h with h1 h2 h3 h4 h5 h6 h7 h8 h9 h10 h11 h12
  all_goals first
    | (simp only [Option.some.injEq] at h; subst h; exact PegsOnly_refl _ _)
    | skip
  · dsimp only at h
    simp only [Option.bind_eq_bind, Option.bind_eq_some] at h
    obtain ⟨peg, _, h⟩ := h
    split_ifs at h <;>
      (simp only [Option.pure_def, Option.some.injEq] at h; subst h; exact PegsOnly_refl _ _)
  · dsimp only at h
    split_ifs at h <;>
      (simp only [Option.some.injEq] at h; subst h; exact PegsOnly_refl _ _)
  · dsimp only at h
    split_ifs at h with hiy
    · simp only [Option.bind_eq_bind, Option.bind_eq_some, Option.pure_def,
        Option.some.injEq] at h
      obtain ⟨g1, hcopy, hr⟩ := h
      subst hr
      have hp := copyRow_pegsOnly hcopy
      rw [hiy] at hp
      exact PegsOnly_trans hp (PegsOnly_allow _ _)
    · simp only [Option.some.injEq] at h; subst h; exact PegsOnly_refl _ _
  · dsimp only at h
    split_ifs at h with hiy
    · simp only [Option.some.injEq] at h; subst h; exact PegsOnly_refl _ _
    · simp only [Option.map_eq_some'] at h
      obtain ⟨g1, hdrop, hr⟩ := h
      subst hr
      have hp := dropPeg_pegsOnly hdrop
      have hiy' : (y - yMove) / cyPegBox = g.iMove := not_not.1 hiy
      rw [hiy'] at hp
      exact hp

theorem DoCommand_cases {wParam : Nat} {fResign : Bool} {draws : List Nat} {g : GLOBAL}
    {r : GLOBAL × List Nat} (h : DoCommand wParam fResign draws g = some r) :
    r = (g, draws) ∨
    (wParam = IDC_NEW_GAME ∧ ¬ (g.iMove > 0 ∧ g.fGameOver = false) ∧
      NewGame g draws = some r) ∨
    (wParam = IDC_GUESS ∧ ∃ n : Fin maxMove, g.iMove = (n.val : Int) ∧
      Complete (g.amove n).guess ∧ Complete g.guessCode ∧ r = (afterGuess g n, draws)) ∨
    (wParam = IDC_NEW_GAME ∧ g.iMove > 0 ∧ g.fGameOver = false ∧
      r = ({ g with fGameOver := true, fGameWon := false }, draws)) := by
  by_cases hg : wParam = IDC_GUESS
  · subst hg
    right; right; left
    refine ⟨rfl, ?_⟩
    cases ht : TestGuess g with
    | none => simp [DoCommand, IDC_GUESS, IDM_ABOUT, ht] at h
    | some fg =>
      obtain ⟨n, hn, hrow, hcode, _⟩ := TestGuess_some ht
      rw [DoCommand_guess_eq g fResign draws n hn hrow hcode] at h
      exact ⟨n, hn, hrow, hcode, (Option.some.inj h).symm⟩
  · by_cases hn : wParam = IDC_NEW_GAME
    · subst hn
      by_cases hplay : g.iMove > 0 ∧ g.fGameOver = false
      · by_cases hres : fResign = true
        · right; right; right
          simp [DoCommand, IDC_NEW_GAME, IDC_GUESS, IDM_ABOUT, hplay, hres] at h
          exact ⟨rfl, hplay.1, hplay.2, h.symm⟩
        · left
          simp [DoCommand, IDC_NEW_GAME, IDC_GUESS, IDM_ABOUT, hplay, hres] at h
          exact h.symm
      · right; left
        refine ⟨rfl, hplay, ?_⟩
        simpa [DoCommand, IDC_NEW_GAME, IDC_GUESS, IDM_ABOUT, hplay] using h
    · left
      by_cases ha : wParam = IDM_ABOUT
      · simp [DoCommand, ha] at h; exact h.symm
      · simp [DoCommand, ha, hg, hn] at h; exact h.symm

/-- The kinds of step `WndProc` can take. -/
theorem WndProc_cases {e : EVENT} {a a' : APP} (h : WndProc e a = some a') :
    a' = a ∨
    (StartsNewGame e a ∧ ∃ r, NewGame a.g a.draws = some r ∧
      a' = { a with g := r.1, draws := r.2 }) ∨
    (∃ n : Fin maxMove, a.g.iMove = (n.val : Int) ∧ Complete (a.g.amove n).guess ∧
        Complete a.g.guessCode ∧ a' = { a with g := afterGuess a.g n }) ∨
    (a.g.iMove > 0 ∧ a.g.fGameOver = false ∧
      a' = { a with g := { a.g with fGameOver := true, fGameWon := false } }) ∨
    (a.g.fGameOver = false ∧ ∃ r, DoMouse e.msg (e.x : Int) (e.y : Int) a.g a.mouse = some r ∧
      a' = { a with g := r.2.1, mouse := r.2.2 }) := by
  have hcmd : ∀ w, (w = IDC_GUESS ∨ (e.msg = WM_COMMAND ∧ e.wParam = w)) →
      ∀ r, DoCommand w e.fResign a.draws a.g = some r →
      ({ a with g := r.1, draws := r.2 } : APP) = a ∨
      (StartsNewGame e a ∧ ∃ r', NewGame a.g a.draws = some r' ∧
        ({ a with g := r.1, draws := r.2 } : APP) = { a with g := r'.1, draws := r'.2 }) ∨
      (∃ n : Fin maxMove, a.g.iMove = (n.val : Int) ∧ Complete (a.g.amove n).guess ∧
          Complete a.g.guessCode ∧
          ({ a with g := r.1, draws := r.2 } : APP) = { a with g := afterGuess a.g n }) ∨
      (a.g.iMove > 0 ∧ a.g.fGameOver = false ∧
        ({ a with g := r.1, draws := r.2 } : APP)
          = { a with g := { a.g with fGameOver := true, fGameWon := false } }) ∨
      (a.g.fGameOver = false ∧
        ∃ r', DoMouse e.msg (e.x : Int) (e.y : Int) a.g a.mouse = some r' ∧
          ({ a with g := r.1, draws := r.2 } : APP) = { a with g := r'.2.1, mouse := r'.2.2 }) := by
    intro w hw r hr
    rcases DoCommand_cases hr with h1 | ⟨h1, h2, h3⟩ | ⟨_, n, h2, h3, h4, h5⟩ | ⟨_, h2, h3, h4⟩
    · left; subst h1; rfl
    · right; left
      rcases hw with hw | ⟨hw1, hw2⟩
      · rw [h1] at hw; exact absurd hw (by decide)
      · exact ⟨Or.inr ⟨hw1, hw2.trans h1, h2⟩, r, h3, rfl⟩
    · right; right; left
      exact ⟨n, h2, h3, h4, by subst h5; rfl⟩
    · right; right; right; left
      exact ⟨h2, h3, by subst h4; rfl⟩
  unfold WndProc at h
  split_ifs at h with h1 h2 h3 h4 h5 h6 h7 h8
  · simp only [Option.map_eq_some'] at h
    obtain ⟨r, hr, ha⟩ := h
    exact Or.inr (Or.inl ⟨Or.inl h1, r, hr, ha.symm⟩)
  · simp only [Option.map_eq_some'] at h
    obtain ⟨r, hr, ha⟩ := h
    rw [← ha]
    exact hcmd _ (Or.inl rfl) r hr
  · left; exact (Option.some.inj h).symm
  · simp only [Option.map_eq_some'] at h
    obtain ⟨r, hr, ha⟩ := h
    rw [← ha]
    exact hcmd _ (Or.inr ⟨h4, rfl⟩) r hr
  · simp only [Option.map_eq_some'] at h
    obtain ⟨r, hr, ha⟩ := h
    rw [← ha]
    exact hcmd _ (Or.inl rfl) r hr
  · left; exact (Option.some.inj h).symm
  · left; exact (Option.some.inj h).symm
  · simp only [Option.map_eq_some'] at h
    obtain ⟨r, hr, ha⟩ := h
    right; right; right; right
    exact ⟨by simpa using h8, r, hr, ha.symm⟩
  · left; exact (Option.some.inj h).symm

theorem afterGuess_amove (g : GLOBAL) (n : Fin maxMove) :
    (afterGuess g n).amove = Function.update g.amove n
      ⟨(g.amove n).guess, (specScore (g.amove n).guess g.guessCode).1,
        (specScore (g.amove n).guess g.guessCode).2⟩ := by
  simp only [afterGuess]
  split_ifs <;> rfl

theorem afterGuess_iMove (g : GLOBAL) (n : Fin maxMove) (hn : g.iMove = (n.val : Int)) :
    ((afterGuess g n).iMove = g.iMove ∧ (afterGuess g n).fGameOver = true) ∨
    ((afterGuess g n).iMove = g.iMove + 1 ∧ (afterGuess g n).fGameOver = g.fGameOver) := by
  have hlt : n.val < 10 := n.isLt
  simp only [afterGuess]
  split_ifs with h1 h2
  · left; exact ⟨rfl, rfl⟩
  · left
    refine ⟨?_, rfl⟩
    show ((maxMove : Nat) : Int) - 1 = g.iMove
    rw [hn] at h2 ⊢
    have h3 : (10 : Int) ≤ (n.val : Int) + 1 := h2
    have h4 : ((maxMove : Nat) : Int) = 10 := rfl
    omega
  · right; exact ⟨rfl, rfl⟩

theorem step_keeps_scored {e : EVENT} {a a' : APP} (hnew : ¬ StartsNewGame e a)
    (h : WndProc e a = some a') :
    a'.g.guessCode = a.g.guessCode ∧
    ∀ i, AlreadyScored a.g i → a'.g.amove i = a.g.amove i ∧ AlreadyScored a'.g i := by
  rcases WndProc_cases h with h1 | ⟨h1, _⟩ | ⟨n, hn, _, _, h1⟩ | ⟨_, hover, h1⟩
      | ⟨hover, r, hr, h1⟩
  · subst h1; exact ⟨rfl, fun i hi => ⟨rfl, hi⟩⟩
  · exact absurd h1 hnew
  · subst h1
    refine ⟨afterGuess_guessCode a.g n, ?_⟩
    intro i hi
    have hrow : (afterGuess a.g n).amove i = a.g.amove i := by
      rw [afterGuess_amove]
      rcases hi with hlt | ⟨heq, _, hsc⟩
      · have hne : i ≠ n := by
          intro he; rw [he, hn] at hlt; exact lt_irrefl _ hlt
        exact Function.update_noteq hne _ _
      · have hin : i = n := by
          apply Fin.ext
          have : (i.val : Int) = (n.val : Int) := by rw [heq, hn]
          exact_mod_cast this
        subst hin
        rw [Function.update_same]
        have h1 := congrArg Prod.fst hsc
        have h2 := congrArg Prod.snd hsc
        simp only at h1 h2
        rw [← h1, ← h2]
    refine ⟨hrow, ?_⟩
    have hsc' : Scored a.g i → Scored (afterGuess a.g n) i := by
      intro hs
      unfold Scored at hs ⊢
      rw [hrow, afterGuess_guessCode]
      exact hs
    show AlreadyScored (afterGuess a.g n) i
    rcases afterGuess_iMove a.g n hn with ⟨hm, ho⟩ | ⟨hm, _⟩
    · rcases hi with hlt | ⟨heq, _, hs⟩
      · exact Or.inl (by rw [hm]; exact hlt)
      · exact Or.inr ⟨by rw [hm]; exact heq, ho, hsc' hs⟩
    · rcases hi with hlt | ⟨heq, _, _⟩
      · exact Or.inl (by rw [hm]; omega)
      · exact Or.inl (by rw [hm]; omega)
  · subst h1
    refine ⟨rfl, fun i hi => ⟨rfl, ?_⟩⟩
    rcases hi with hlt | ⟨_, ho, _⟩
    · exact Or.inl hlt
    · rw [hover] at ho; exact absurd ho (by decide)
  · subst h1
    obtain ⟨p1, p2, p3, _, _, p6⟩ := DoMouse_pegsOnly hr
    refine ⟨p1, ?_⟩
    intro i hi
    rcases hi with hlt | ⟨_, ho, _⟩
    · exact ⟨p6 i (ne_of_lt hlt), Or.inl (by show _ < r.2.1.iMove; rw [p2]; exact hlt)⟩
    · rw [hover] at ho; exact absurd ho (by decide)

theorem Play_keeps_scored {a a' : APP} (h : Play a a') :
    a'.g.guessCode = a.g.guessCode ∧
    ∀ i, AlreadyScored a.g i → a'.g.amove i = a.g.amove i ∧ AlreadyScored a'.g i := by
  induction h with
  | refl => exact ⟨rfl, fun i hi => ⟨rfl, hi⟩⟩
  | step e _ hnew hstep ih =>
    obtain ⟨h1, h2⟩ := step_keeps_scored hnew hstep
    refine ⟨h1.trans ih.1, ?_⟩
    intro i hi
    obtain ⟨h3, h4⟩ := ih.2 i hi
    obtain ⟨h5, h6⟩ := h2 i h4
    exact ⟨h5.trans h3, h6⟩

/-- C19: between two `NewGame` calls the code and the scored moves do not
change.  Over any sequence of messages none of which starts a new game
(guess commands, the resign command, mouse messages, through `WndProc`),
`guessCode` stays the same and so do the pegs and the score of every row
that has already been scored (a row below the move index, or the scored row
of the move index once the game is over).  A mouse message (`DoMouse`)
changes at most pegs of the active row `amove[iMove]`, and `TestGuess`
changes at most `cPosition` and `cColor` of row `iMove`. -/
theorem scored_rows_immutable :
    (∀ a a', Play a a' →
      a'.g.guessCode = a.g.guessCode ∧
      ∀ i, AlreadyScored a.g i → a'.g.amove i = a.g.amove i) ∧
    (∀ (msg : Nat) (x y : Int) (g : GLOBAL) (m : MOUSE) (r : Bool × GLOBAL × MOUSE),
      DoMouse msg x y g m = some r →
        r.2.1.guessCode = g.guessCode ∧ r.2.1.iMove = g.iMove ∧
        (∀ i, (r.2.1.amove i).cPosition = (g.amove i).cPosition ∧
              (r.2.1.amove i).cColor = (g.amove i).cColor) ∧
        (∀ i : Fin maxMove, (i.val : Int) ≠ g.iMove → r.2.1.amove i = g.amove i)) ∧
    (∀ (g g' : GLOBAL) (f : Bool), TestGuess g = some (f, g') →
      g'.guessCode = g.guessCode ∧ g'.iMove = g.iMove ∧ g'.fGameOver = g.fGameOver ∧
      g'.fGameWon = g.fGameWon ∧ g'.fGuessAllowed = g.fGuessAllowed ∧
      (∀ i, (g'.amove i).guess = (g.amove i).guess) ∧
      (∀ i : Fin maxMove, (i.val : Int) ≠ g.iMove → g'.amove i = g.amove i)) := by
  refine ⟨?_, ?_, ?_⟩
  · intro a a' h
    obtain ⟨h1, h2⟩ := Play_keeps_scored h
    exact ⟨h1, fun i hi => (h2 i hi).1⟩
  · intro msg x y g m r h
    obtain ⟨p1, p2, _, _, p5, p6⟩ := DoMouse_pegsOnly h
    exact ⟨p1, p2, p5, p6⟩
  · intro g g' f h
    obtain ⟨n, hn, _, _, heq⟩ := TestGuess_some h
    simp only [Prod.mk.injEq] at heq
    obtain ⟨_, hg⟩ := heq
    subst hg
    refine ⟨rfl, rfl, rfl, rfl, rfl, ?_, ?_⟩
    · intro i
      by_cases hi : i = n
      · subst hi; simp
      · simp [Function.update_noteq hi]
    · intro i hi
      have hne : i ≠ n := by
        intro he; apply hi; rw [he, hn]
      simp [Function.update_noteq hne]

/-! ## Reachable states hold feasible results (C20) -/

theorem FeasibleRow_of_scores {mv mv' : MOVE} (h1 : mv'.cPosition = mv.cPosition)
    (h2 : mv'.cColor = mv.cColor) (h : FeasibleRow mv) : FeasibleRow mv' := by
  unfold FeasibleRow at h ⊢
  rw [h1, h2]
  exact h

theorem FeasibleRow_specScore (guess code : GUESS) (hg : Complete guess) :
    FeasibleRow ⟨guess, (specScore guess code).1, (specScore guess code).2⟩ := by
  have h1 : (0 : Int) ≤ (specScore guess code).1 := by simp [specScore]
  have h2 := specScore_snd_nonneg guess code
  have h3 := specScore_sum_le guess code hg
  refine ⟨h1, h2, h3, ?_⟩
  intro h4
  simp only at h4 h3 h2 ⊢
  omega

theorem FeasibleRow_blank : FeasibleRow ⟨fun _ => PEG_BLANK, 0, 0⟩ :=
  ⟨le_refl _, le_refl _, by decide, fun _ => rfl⟩

theorem step_keeps_feasible {e : EVENT} {a a' : APP} (h : WndProc e a = some a')
    (hf : ∀ i, FeasibleRow (a.g.amove i)) : ∀ i, FeasibleRow (a'.g.amove i) := by
  rcases WndProc_cases h with h1 | ⟨_, r, hr, h1⟩ | ⟨n, _, hrow, _, h1⟩ | ⟨_, _, h1⟩
      | ⟨_, r, hr, h1⟩
  · subst h1; exact hf
  · subst h1
    obtain ⟨_, _, _, _, hrows, _, _⟩ := NewGame_fresh _ _ r hr
    intro i
    show FeasibleRow (r.1.amove i)
    rw [hrows]
    exact FeasibleRow_blank
  · subst h1
    intro i
    show FeasibleRow ((afterGuess a.g n).amove i)
    rw [afterGuess_amove]
    by_cases hi : i = n
    · subst hi
      rw [Function.update_same]
      exact FeasibleRow_specScore _ _ hrow
    · rw [Function.update_noteq hi]
      exact hf i
  · subst h1; exact hf
  · subst h1
    obtain ⟨_, _, _, _, p5, _⟩ := DoMouse_pegsOnly hr
    intro i
    exact FeasibleRow_of_scores (p5 i).1 (p5 i).2 (hf i)

theorem Reachable_feasible {a : APP} (h : Reachable a) : ∀ i, FeasibleRow (a.g.amove i) := by
  induction h with
  | newGame g m draws r hr =>
    obtain ⟨_, _, _, _, hrows, _, _⟩ := NewGame_fresh g draws r hr
    intro i
    show FeasibleRow (r.1.amove i)
    rw [hrows]
    exact FeasibleRow_blank
  | step e _ _ hstep ih => exact step_keeps_feasible hstep ih

theorem PaintResultSub_feasible (g : GLOBAL) (i : Fin maxMove)
    (h : FeasibleRow (g.amove i)) :
    ∃ k, PaintResultSub g (i.val : Int) = some k ∧ k ≠ -1 ∧
      (nColor : Int) + 1 ≤ k ∧ k ≤ (nColor : Int) + 15 := by
  obtain ⟨h1, h2, h3, _⟩ := h
  have h3' : (g.amove i).cPosition + (g.amove i).cColor ≤ 4 := h3
  have hp : (g.amove i).cPosition < 5 := by omega
  have hc : (g.amove i).cColor < 5 := by omega
  have hip : index? (nPeg + 1) (g.amove i).cPosition
      = some ⟨(g.amove i).cPosition.toNat, by show _ < 5; omega⟩ := by
    simp [index?, h1, hp]
  have hic : index? (nPeg + 1) (g.amove i).cColor
      = some ⟨(g.amove i).cColor.toNat, by show _ < 5; omega⟩ := by
    simp [index?, h2, hc]
  have htab : ∀ p c : Fin (nPeg + 1), p.val + c.val ≤ nPeg →
      mpResultToLibrary p c ≠ -1 ∧ (nColor : Int) + 1 ≤ mpResultToLibrary p c ∧
      mpResultToLibrary p c ≤ (nColor : Int) + 15 := by decide
  refine ⟨_, ?_, htab ⟨(g.amove i).cPosition.toNat, by show _ < 5; omega⟩
    ⟨(g.amove i).cColor.toNat, by show _ < 5; omega⟩ (by show _ ≤ 4; simp only; omega)⟩
  simp only [PaintResultSub, index?_val, hip, hic, Option.bind_eq_bind, Option.some_bind,
    Option.pure_def]

/-- C20: in every state reachable from `NewGame` by mouse messages, keys,
resign/new-game commands and guess commands issued only while the guess is
allowed, every row `i` holds a feasible result: `0 ≤ cPosition`,
`0 ≤ cColor`, `cPosition + cColor ≤ nPeg`, and `cPosition = nPeg` implies
`cColor = 0`; hence the image index `mpResultToLibrary[cPosition][cColor]`
that `PaintResultSub` hands to `PaintLibrary` is read in range, is never `-1`
and lies in `[nColor+1, nColor+15]`. -/
theorem reachable_rows_feasible (a : APP) (h : Reachable a) (i : Fin maxMove) :
    (0 ≤ (a.g.amove i).cPosition ∧ 0 ≤ (a.g.amove i).cColor ∧
      (a.g.amove i).cPosition + (a.g.amove i).cColor ≤ nPeg ∧
      ((a.g.amove i).cPosition = nPeg → (a.g.amove i).cColor = 0)) ∧
    ∃ k, PaintResultSub a.g (i.val : Int) = some k ∧ k ≠ -1 ∧
      (nColor : Int) + 1 ≤ k ∧ k ≤ (nColor : Int) + 15 :=
  ⟨Reachable_feasible h i, PaintResultSub_feasible a.g i (Reachable_feasible h i)⟩

theorem Reachable_run (es : List EVENT)
    (hes : ∀ e ∈ es, e.msg = WM_COMMAND → e.wParam ≠ IDC_GUESS) :
    ∀ a a', Reachable a → runEvents es a = some a' → Reachable a' := by
  induction es with
  | nil =>
    intro a a' ha h
    simp only [runEvents, List.foldlM_nil, Option.pure_def, Option.some.injEq] at h
    subst h; exact ha
  | cons e es ih =>
    intro a a' ha h
    simp only [runEvents, List.foldlM_cons, Option.bind_eq_bind, Option.bind_eq_some] at h
    obtain ⟨a1, h1, h2⟩ := h
    have hadm : Admissible e a := fun hm hw =>
      absurd hw (hes e (List.mem_cons_self _ _) hm)
    exact ih (fun x hx => hes x (List.mem_cons_of_mem _ hx)) a1 a'
      (Reachable.step e ha hadm h1) h2

theorem Reachable_created {a a' : APP} (h : WndProc evCreate a = some a') : Reachable a' := by
  simp only [WndProc, evCreate, if_true, Option.map_eq_some'] at h
  obtain ⟨r, hr, ha⟩ := h
  subst ha
  exact Reachable.newGame a.g a.mouse a.draws r hr

theorem Reachable_trace (es : List EVENT)
    (hes : ∀ e ∈ es, e.msg = WM_COMMAND → e.wParam ≠ IDC_GUESS) (a0 a : APP)
    (h : runEvents (evCreate :: es) a0 = some a) : Reachable a := by
  simp only [runEvents, List.foldlM_cons, Option.bind_eq_bind, Option.bind_eq_some] at h
  obtain ⟨a1, h1, h2⟩ := h
  exact Reachable_run es hes a1 a (Reachable_created h1) h2

/-- Witness of C20: the state after `resignTrace` and the Return key (the
game resigned and then won in row 1) is reachable; its row 1 holds `(4,0)`
and `PaintResultSub` paints image 21 for it. -/
theorem reachable_rows_feasible_witness :
    ∃ a, runEvents (resignTrace ++ [evReturn]) appZero = some a ∧ Reachable a ∧
      view a = ⟨true, true, false, 1, [3, 0, 1, 2], [3, 0, 1, 2], (4, 0)⟩ ∧
      PaintResultSub a.g 1 = some 21 ∧
      (0 ≤ (a.g.amove 1).cPosition ∧ 0 ≤ (a.g.amove 1).cColor ∧
        (a.g.amove 1).cPosition + (a.g.amove 1).cColor ≤ nPeg ∧
        ((a.g.amove 1).cPosition = nPeg → (a.g.amove 1).cColor = 0)) ∧
      ∃ k, PaintResultSub a.g (((1 : Fin maxMove).val : Nat) : Int) = some k ∧ k ≠ -1 ∧
        (nColor : Int) + 1 ≤ k ∧ k ≤ (nColor : Int) + 15 := by
  have hrun : runEvents (resignTrace ++ [evReturn]) appZero
      = some ((runEvents (resignTrace ++ [evReturn]) appZero).get (by decide)) :=
    (Option.some_get _).symm
  have hreach : Reachable ((runEvents (resignTrace ++ [evReturn]) appZero).get (by decide)) :=
    Reachable_trace (resignTrace.tail ++ [evReturn]) (by decide) appZero _ hrun
  exact ⟨_, hrun, hreach, by decide, by decide, reachable_rows_feasible _ hreach 1⟩

/-! ## Scoring: the slots that do not match -/

theorem occ_split_guess (guess code : GUESS) (k : Int) :
    occ guess k = exactAt guess code k
      + (Finset.univ.filter (fun i => guess i = k ∧ ¬ guess i = code i)).card := by
  have h := Finset.filter_card_add_filter_neg_card_eq_card
    (s := Finset.univ.filter (fun i => guess i = k)) (fun i => guess i = code i)
  simp only [Finset.filter_filter] at h
  rw [occ, exactAt, ← h]
  congr 2
  ext i
  simp only [Finset.mem_filter, Finset.mem_univ, true_and]
  tauto

theorem occ_split_code (guess code : GUESS) (k : Int) :
    occ code k = exactAt guess code k
      + (Finset.univ.filter (fun i => code i = k ∧ ¬ guess i = code i)).card := by
  have h := Finset.filter_card_add_filter_neg_card_eq_card
    (s := Finset.univ.filter (fun i => code i = k)) (fun i => guess i = code i)
  simp only [Finset.filter_filter] at h
  rw [occ, exactAt, ← h]
  congr 2
  ext i
  simp only [Finset.mem_filter, Finset.mem_univ, true_and]
  constructor <;> rintro ⟨h1, h2⟩ <;> simp_all

theorem specScore_snd_of_one_miss (guess code : GUESS)
    (h : (specScore guess code).1 = (nPeg : Int) - 1) : (specScore guess code).2 = 0 := by
  have hcount : exactCount guess code = 3 := by
    simp only [specScore] at h
    have : (exactCount guess code : Int) = 3 := by simpa using h
    exact_mod_cast this
  have hN : (Finset.univ.filter (fun i : Fin nPeg => ¬ guess i = code i)).card = 1 := by
    have h4 := Finset.filter_card_add_filter_neg_card_eq_card
      (s := (Finset.univ : Finset (Fin nPeg))) (fun i => guess i = code i)
    rw [Finset.card_univ, Fintype.card_fin] at h4
    simp only [exactCount] at hcount
    have h5 : 3 + (Finset.univ.filter (fun i : Fin nPeg => ¬ guess i = code i)).card = 4 := by
      rw [← hcount]; exact h4
    omega
  obtain ⟨i0, hi0⟩ := Finset.card_eq_one.1 hN
  simp only [specScore]
  apply Finset.sum_eq_zero
  intro k _
  rw [occ_split_guess guess code, occ_split_code guess code]
  have key : (Finset.univ.filter (fun i => guess i = (k.val : Int) ∧ ¬ guess i = code i)).card = 0
      ∨ (Finset.univ.filter (fun i => code i = (k.val : Int) ∧ ¬ guess i = code i)).card = 0 := by
    by_contra hcon
    push_neg at hcon
    obtain ⟨i, hi⟩ := Finset.card_pos.1 (Nat.pos_of_ne_zero hcon.1)
    obtain ⟨i', hi'⟩ := Finset.card_pos.1 (Nat.pos_of_ne_zero hcon.2)
    simp only [Finset.mem_filter, Finset.mem_univ, true_and] at hi hi'
    have e1 : i = i0 := by
      have : i ∈ Finset.univ.filter (fun i : Fin nPeg => ¬ guess i = code i) := by
        simp [hi.2]
      rw [hi0] at this
      exact Finset.mem_singleton.1 this
    have e2 : i' = i0 := by
      have : i' ∈ Finset.univ.filter (fun i : Fin nPeg => ¬ guess i = code i) := by
        simp [hi'.2]
      rw [hi0] at this
      exact Finset.mem_singleton.1 this
    subst e1
    subst e2
    exact hi.2 (hi.1.trans hi'.1.symm)
  push_cast
  rcases key with h0 | h0 <;> simp [h0]

theorem specScore_total (guess code : GUESS) (hg : Complete guess) :
    (specScore guess code).1 + (specScore guess code).2
      = ∑ k : Fin nColor, min (occ guess (k.val : Int) : Int) (occ code (k.val : Int)) := by
  have h2 : (∑ k : Fin nColor, (exactAt guess code (k.val : Int) : Int))
      = exactCount guess code := by
    exact_mod_cast sum_exactAt guess code hg
  simp only [specScore]
  rw [← h2, ← Finset.sum_add_distrib]
  apply Finset.sum_congr rfl
  intro k _
  rw [← min_add_add_left]
  congr 1 <;> ring

theorem specScore_comm (a b : GUESS) : specScore a b = specScore b a := by
  have hE : ∀ k : Int, exactAt a b k = exactAt b a k := by
    intro k
    simp only [exactAt]
    congr 1
    ext i
    simp only [Finset.mem_filter, Finset.mem_univ, true_and]
    constructor
    · rintro ⟨h1, h2⟩; exact ⟨h1.symm, h1 ▸ h2⟩
    · rintro ⟨h1, h2⟩; exact ⟨h1.symm, h1 ▸ h2⟩
  have hC : exactCount a b = exactCount b a := by
    simp only [exactCount]
    congr 1
    ext i
    simp only [Finset.mem_filter, Finset.mem_univ, true_and]
    exact eq_comm
  simp only [specScore, hC]
  congr 1
  apply Finset.sum_congr rfl
  intro k _
  rw [hE, min_comm]


/-! ## TestGuess: consequences of the counting form (C23, C24, C25) -/

/-- C23: for every code and every complete guess (repeated colors allowed
in both), if `TestGuess` stores `cPosition = nPeg - 1` then it stores
`cColor = 0`; so the pair `(nPeg - 1, 1)`, that is `(3,1)` with class id 13,
is never stored, and the image of that class is never the one
`PaintResultSub` looks up for the scored row. -/
theorem TestGuess_one_miss (g : GLOBAL) (n : Fin maxMove) (hn : g.iMove = (n.val : Int))
    (hg : Complete (g.amove n).guess) (hc : Complete g.guessCode) :
    ∃ f g', TestGuess g = some (f, g') ∧
      ((g'.amove n).cPosition = (nPeg : Int) - 1 → (g'.amove n).cColor = 0) ∧
      ((g'.amove n).cPosition, (g'.amove n).cColor) ≠ ((nPeg : Int) - 1, 1) ∧
      classify 3 1 = 13 ∧
      PaintResultSub g' (n.val : Int) ≠ some ((nColor : Int) + 1 + 13) := by
  have hone := specScore_snd_of_one_miss (g.amove n).guess g.guessCode
  have htab : ∀ p c : Fin (nPeg + 1), mpResultToLibrary p c = 20 → p.val = 3 ∧ c.val = 1 := by
    decide
  refine ⟨_, _, TestGuess_eq g n hn hg hc, ?_, ?_, by decide, ?_⟩
  · simpa using hone
  · intro h
    simp only [Function.update_same, Prod.mk.injEq] at h
    have := hone h.1
    omega
  · intro h
    simp only [PaintResultSub, index?_val, Option.bind_eq_bind, Option.some_bind,
      Option.pure_def, Function.update_same, Option.bind_eq_some] at h
    obtain ⟨p, hp, c, hc', htc⟩ := h
    have h20 : mpResultToLibrary p c = 20 := by
      simp only [Option.some.injEq] at htc
      rw [htc]; norm_num
    obtain ⟨hp3, hc1⟩ := htab p c h20
    obtain ⟨_, _, hpv⟩ := index?_eq_some hp
    obtain ⟨_, _, hcv⟩ := index?_eq_some hc'
    have h3 : (specScore (g.amove n).guess g.guessCode).1 = (nPeg : Int) - 1 := by
      rw [← hpv, hp3]; norm_num
    have := hone h3
    omega

/-- Witness of C23 at code `[0,1,2,3]`, guess `[0,1,2,2]` (three exact
matches), row 5. -/
theorem TestGuess_one_miss_witness :
    gOneMiss.iMove = ((5 : Fin maxMove).val : Int) ∧
    Complete (gOneMiss.amove 5).guess ∧ Complete gOneMiss.guessCode ∧
    ∃ f g', TestGuess gOneMiss = some (f, g') ∧
      ((g'.amove 5).cPosition = (nPeg : Int) - 1 → (g'.amove 5).cColor = 0) ∧
      ((g'.amove 5).cPosition, (g'.amove 5).cColor) ≠ ((nPeg : Int) - 1, 1) ∧
      classify 3 1 = 13 ∧
      PaintResultSub g' ((5 : Fin maxMove).val : Int) ≠ some ((nColor : Int) + 1 + 13) :=
  ⟨by decide, by decide, by decide,
    TestGuess_one_miss gOneMiss 5 (by decide) (by decide) (by decide)⟩

/-- C24: for every code and every complete guess, the total
`cPosition + cColor` that `TestGuess` stores is the sum over the colors `k`
of `min G_k C_k`, with `G_k = occ guess k` and `C_k = occ code k` the
occurrence counts in the whole guess and the whole code; so every complete
guess and code with the same occurrence counts get the same total, wherever
the pegs stand. -/
theorem TestGuess_total (g : GLOBAL) (n : Fin maxMove) (hn : g.iMove = (n.val : Int))
    (hg : Complete (g.amove n).guess) (hc : Complete g.guessCode) :
    ∃ f g', TestGuess g = some (f, g') ∧
      (g'.amove n).cPosition + (g'.amove n).cColor
        = ∑ k : Fin nColor, min (occ (g.amove n).guess (k.val : Int) : Int)
                                (occ g.guessCode (k.val : Int)) ∧
      ∀ guess code : GUESS, Complete guess → Complete code →
        (∀ k : Fin nColor, occ guess (k.val : Int) = occ (g.amove n).guess (k.val : Int)) →
        (∀ k : Fin nColor, occ code (k.val : Int) = occ g.guessCode (k.val : Int)) →
        ∃ sc, scoreGuess guess code = some sc ∧
          sc.1 + sc.2 = (g'.amove n).cPosition + (g'.amove n).cColor := by
  refine ⟨_, _, TestGuess_eq g n hn hg hc, ?_, ?_⟩
  · simpa using specScore_total (g.amove n).guess g.guessCode hg
  · intro guess code hg' hc' h1 h2
    refine ⟨_, scoreGuess_eq guess code hg' hc', ?_⟩
    simp only [Function.update_same]
    rw [specScore_total guess code hg', specScore_total _ _ hg]
    apply Finset.sum_congr rfl
    intro k _
    rw [h1, h2]

/-- Witness of C24 at code `[1,2,1,1]`, guess `[1,1,2,2]`, row 3. -/
theorem TestGuess_total_witness :
    gRepeat.iMove = ((3 : Fin maxMove).val : Int) ∧
    Complete (gRepeat.amove 3).guess ∧ Complete gRepeat.guessCode ∧
    ∃ f g', TestGuess gRepeat = some (f, g') ∧
      (g'.amove 3).cPosition + (g'.amove 3).cColor
        = ∑ k : Fin nColor, min (occ (gRepeat.amove 3).guess (k.val : Int) : Int)
                                (occ gRepeat.guessCode (k.val : Int)) ∧
      ∀ guess code : GUESS, Complete guess → Complete code →
        (∀ k : Fin nColor, occ guess (k.val : Int) = occ (gRepeat.amove 3).guess (k.val : Int)) →
        (∀ k : Fin nColor, occ code (k.val : Int) = occ gRepeat.guessCode (k.val : Int)) →
        ∃ sc, scoreGuess guess code = some sc ∧
          sc.1 + sc.2 = (g'.amove 3).cPosition + (g'.amove 3).cColor :=
  ⟨by decide, by decide, by decide,
    TestGuess_total gRepeat 3 (by decide) (by decide) (by decide)⟩

/-- C25: scoring is symmetric in its two arguments: for every two complete
peg sequences `a` and `b`, `TestGuess` on a state whose active row is `a`
and whose code is `b` stores the same `(cPosition, cColor)` as on a state
whose active row is `b` and whose code is `a`. -/
theorem TestGuess_symmetric (g1 g2 : GLOBAL) (n1 n2 : Fin maxMove)
    (hn1 : g1.iMove = (n1.val : Int)) (hn2 : g2.iMove = (n2.val : Int))
    (ha : Complete (g1.amove n1).guess) (hb : Complete g1.guessCode)
    (hrow : (g2.amove n2).guess = g1.guessCode) (hcode : g2.guessCode = (g1.amove n1).guess) :
    ∃ f1 g1' f2 g2', TestGuess g1 = some (f1, g1') ∧ TestGuess g2 = some (f2, g2') ∧
      (g1'.amove n1).cPosition = (g2'.amove n2).cPosition ∧
      (g1'.amove n1).cColor = (g2'.amove n2).cColor := by
  refine ⟨_, _, _, _, TestGuess_eq g1 n1 hn1 ha hb,
    TestGuess_eq g2 n2 hn2 (hrow ▸ hb) (hcode ▸ ha), ?_, ?_⟩
  · simp only [Function.update_same, hrow, hcode]
    rw [specScore_comm]
  · simp only [Function.update_same, hrow, hcode]
    rw [specScore_comm]

/-- Witness of C25 at `a = [4,2,5,3]` and `b = [4,5,2,3]`: the state `gMixed`
(row 0) and the state `gMixedSwapped` (row 7). -/
theorem TestGuess_symmetric_witness :
    gMixed.iMove = ((0 : Fin maxMove).val : Int) ∧
    gMixedSwapped.iMove = ((7 : Fin maxMove).val : Int) ∧
    Complete (gMixed.amove 0).guess ∧ Complete gMixed.guessCode ∧
    (gMixedSwapped.amove 7).guess = gMixed.guessCode ∧
    gMixedSwapped.guessCode = (gMixed.amove 0).guess ∧
    ∃ f1 g1' f2 g2', TestGuess gMixed = some (f1, g1') ∧
      TestGuess gMixedSwapped = some (f2, g2') ∧
      (g1'.amove 0).cPosition = (g2'.amove 7).cPosition ∧
      (g1'.amove 0).cColor = (g2'.amove 7).cColor :=
  ⟨by decide, by decide, by decide, by decide, by decide, by decide,
    TestGuess_symmetric gMixed gMixedSwapped 0 7 (by decide) (by decide) (by decide)
      (by decide) (by decide) (by decide)⟩

/-! ## The result table in closed form (C27) -/

/-- C27: for every feasible pair `(p, c)`, `p + c ≤ nPeg`, the entry the
sequential counter `iPinBox` of `CreateImageLibrary` writes is
`mpResultToLibrary[p][c] = (nColor + 1) + p*(nPeg+1) - p*(p-1)/2 + c`, so the
class id is `p*(nPeg+1) - p*(p-1)/2 + c`; the number of feasible pairs is
`(nPeg+1)*(nPeg+2)/2 = 15`, which is the number of patterns drawn, and the
counter ends at `nLibraryImage`. -/
theorem mpResultToLibrary_closed_form :
    (∀ p c : Fin (nPeg + 1), p.val + c.val ≤ nPeg →
      mpResultToLibrary p c
        = ((nColor : Int) + 1) + (p.val : Int) * ((nPeg : Int) + 1)
            - (p.val : Int) * ((p.val : Int) - 1) / 2 + (c.val : Int) ∧
      classify p c
        = (p.val : Int) * ((nPeg : Int) + 1) - (p.val : Int) * ((p.val : Int) - 1) / 2
            + (c.val : Int)) ∧
    (allPairs.filter (fun pc => pc.1.val + pc.2.val ≤ nPeg)).length
      = (nPeg + 1) * (nPeg + 2) / 2 ∧
    (nPeg + 1) * (nPeg + 2) / 2 = 15 ∧
    totalClasses = 15 ∧
    (CreateImageLibrary (fun _ _ => 0)).2 = nLibraryImage := by
  refine ⟨?_, ?_, ?_, ?_, ?_⟩ <;> decide

/-! ## TestGuess: range of the color counts and the assertions (C21) -/

theorem exactAssertLoop_eq (guess code : GUESS) (hg : Complete guess)
    (l : List (Fin nPeg)) (gc cc : ColorCounts) (cPosition : Int) (cAssert : Nat)
    (hgc : ∀ k : Fin nColor,
      (l.countP (fun i => guess i = code i ∧ guess i = (k.val : Int)) : Int) ≤ gc k)
    (hcc : ∀ k : Fin nColor,
      (l.countP (fun i => guess i = code i ∧ guess i = (k.val : Int)) : Int) ≤ cc k) :
    l.foldlM (exactStepAssert guess code) (gc, cc, cPosition, cAssert) =
      some (fun k => gc k - l.countP (fun i => guess i = code i ∧ guess i = (k.val : Int)),
            fun k => cc k - l.countP (fun i => guess i = code i ∧ guess i = (k.val : Int)),
            cPosition + l.countP (fun i => guess i = code i), cAssert) := by
  induction l generalizing gc cc cPosition cAssert with
  | nil => simp
  | cons i l ih =>
    simp only [List.foldlM_cons, exactStepAssert]
    by_cases h : guess i = code i
    · have hci : IsColor (code i) := h ▸ hg i
      obtain ⟨k, hk, hkj⟩ := index?_isColor hci
      have h1 := hgc k
      have h2 := hcc k
      simp only [List.countP_cons, h, hkj, and_self, decide_True, if_true] at h1 h2
      have h1' : ¬ gc k ≤ 0 := by push_cast at h1; omega
      have h2' : ¬ cc k ≤ 0 := by push_cast at h2; omega
      simp only [h, if_true, hk, bump_isColor _ _ hci, h1', h2', if_false,
        Option.bind_eq_bind, Option.some_bind, Option.pure_def, add_zero]
      rw [ih]
      · clear ih hgc hcc h1 h2 h1' h2' hk
        congr 2
        · funext k'
          simp only [List.countP_cons]
          split_ifs <;> simp_all
          omega
        · congr 1
          · funext k'
            simp only [List.countP_cons]
            split_ifs <;> simp_all
            omega
          · congr 1
            simp only [List.countP_cons]; simp [h]; omega
      · intro k'
        have h3 := hgc k'
        clear ih hgc hcc h1 h2 h1' h2' hk
        simp only [List.countP_cons] at h3
        by_cases hk' : code i = (k'.val : Int)
        · simp only [h, hk', and_self, decide_True, if_true] at h3 ⊢
          push_cast at h3
          omega
        · simp only [h, hk', and_false, decide_False, if_false, Bool.false_eq_true,
            add_zero] at h3 ⊢
          exact h3
      · intro k'
        have h3 := hcc k'
        clear ih hgc hcc h1 h2 h1' h2' hk
        simp only [List.countP_cons] at h3
        by_cases hk' : code i = (k'.val : Int)
        · simp only [h, hk', and_self, decide_True, if_true] at h3 ⊢
          push_cast at h3
          omega
        · simp only [h, hk', and_false, decide_False, if_false, Bool.false_eq_true,
            add_zero] at h3 ⊢
          exact h3
    · simp only [h, if_false, Option.pure_def, Option.bind_eq_bind, Option.some_bind]
      rw [ih]
      · congr 2
        · funext k; simp [List.countP_cons, h]
        · congr 1
          · funext k; simp [List.countP_cons, h]
          · congr 1; simp [List.countP_cons, h]
      · intro k'
        have := hgc k'
        simpa [List.countP_cons, h] using this
      · intro k'
        have := hcc k'
        simpa [List.countP_cons, h] using this


theorem countP_take_le {n : Nat} (p : Fin n → Bool) (m : Nat) :
    ((List.finRange n).take m).countP p ≤ (List.finRange n).countP p :=
  List.Sublist.countP_le p (List.take_sublist m _)

theorem countP_take_lt {n : Nat} (p : Fin n → Bool) (i : Fin n) (hp : p i = true) :
    ((List.finRange n).take i.val).countP p + 1 ≤ (List.finRange n).countP p := by
  have hlen : i.val < (List.finRange n).length := by simp
  have hsplit : List.finRange n
      = (List.finRange n).take i.val ++ i :: (List.finRange n).drop (i.val + 1) := by
    conv_lhs => rw [← List.take_append_drop i.val (List.finRange n)]
    rw [List.drop_eq_getElem_cons hlen]
    simp
  conv_rhs => rw [hsplit]
  rw [List.countP_append, List.countP_cons, hp]
  simp

/-- C21: for every code and every guess whose pegs are all in `[0, nColor)`
(row `n = iMove` of a state `g`), `TestGuess` returns, so no access to
`guessColors` or `codeColors` is out of range; the counts after every pass of
the loop "Count colors in guess and code" are not negative; whenever slot
`i` is an exact match of color `j`, both `guessColors[j] > 0` and
`codeColors[j] > 0` hold in the state the loop "Count exact matches" has
reached just before slot `i`; and the loop with its `AssertMsg` calls kept
reaches the same states as the loop without them, makes no call of
`AssertMsg`, and leaves no count negative after any of its passes. -/
theorem TestGuess_counts_in_range (g : GLOBAL) (n : Fin maxMove)
    (hn : g.iMove = (n.val : Int))
    (hg : Complete (g.amove n).guess) (hc : Complete g.guessCode) :
    (∃ r, TestGuess g = some r) ∧
    (∀ m : Nat, ∃ st,
      ((List.finRange nPeg).take m).foldlM (countStep (g.amove n).guess g.guessCode)
          (fun _ => 0, fun _ => 0) = some st ∧
        ∀ k, 0 ≤ st.1 k ∧ 0 ≤ st.2 k) ∧
    ∃ gc cc,
      (List.finRange nPeg).foldlM (countStep (g.amove n).guess g.guessCode)
          (fun _ => 0, fun _ => 0) = some (gc, cc) ∧
      (∀ i : Fin nPeg, (g.amove n).guess i = g.guessCode i →
        ∃ st k,
          ((List.finRange nPeg).take i.val).foldlM (exactStep (g.amove n).guess g.guessCode)
              (gc, cc, 0) = some st ∧
          index? nColor ((g.amove n).guess i) = some k ∧ 0 < st.1 k ∧ 0 < st.2.1 k) ∧
      (∀ m : Nat, ∃ st,
        ((List.finRange nPeg).take m).foldlM (exactStepAssert (g.amove n).guess g.guessCode)
            (gc, cc, 0, 0) = some st ∧
          ((List.finRange nPeg).take m).foldlM (exactStep (g.amove n).guess g.guessCode)
            (gc, cc, 0) = some (st.1, st.2.1, st.2.2.1) ∧
          st.2.2.2 = 0 ∧ ∀ k, 0 ≤ st.1 k ∧ 0 ≤ st.2.1 k) := by
  have hle1 : ∀ (m : Nat) (k : Fin nColor),
      (((List.finRange nPeg).take m).countP
          (fun i => (g.amove n).guess i = g.guessCode i ∧ (g.amove n).guess i = (k.val : Int)) : Int)
        ≤ (0 : Int) + (List.finRange nPeg).countP (fun i => (g.amove n).guess i = (k.val : Int)) := by
    intro m k
    rw [zero_add]
    have h1 := countP_take_le
      (fun i => decide ((g.amove n).guess i = g.guessCode i ∧ (g.amove n).guess i = (k.val : Int))) m
    have h2 : (List.finRange nPeg).countP
        (fun i => decide ((g.amove n).guess i = g.guessCode i ∧ (g.amove n).guess i = (k.val : Int)))
        ≤ (List.finRange nPeg).countP (fun i => decide ((g.amove n).guess i = (k.val : Int))) := by
      apply List.countP_mono_left
      intro i _ hi
      simp only [decide_eq_true_eq] at hi ⊢
      exact hi.2
    exact_mod_cast h1.trans h2
  have hle2 : ∀ (m : Nat) (k : Fin nColor),
      (((List.finRange nPeg).take m).countP
          (fun i => (g.amove n).guess i = g.guessCode i ∧ (g.amove n).guess i = (k.val : Int)) : Int)
        ≤ (0 : Int) + (List.finRange nPeg).countP (fun i => g.guessCode i = (k.val : Int)) := by
    intro m k
    rw [zero_add]
    have h1 := countP_take_le
      (fun i => decide ((g.amove n).guess i = g.guessCode i ∧ (g.amove n).guess i = (k.val : Int))) m
    have h2 : (List.finRange nPeg).countP
        (fun i => decide ((g.amove n).guess i = g.guessCode i ∧ (g.amove n).guess i = (k.val : Int)))
        ≤ (List.finRange nPeg).countP (fun i => decide (g.guessCode i = (k.val : Int))) := by
      apply List.countP_mono_left
      intro i _ hi
      simp only [decide_eq_true_eq] at hi ⊢
      exact hi.1 ▸ hi.2
    exact_mod_cast h1.trans h2
  refine ⟨⟨_, TestGuess_eq g n hn hg hc⟩, ?_, _, _, countLoop_eq _ _ hg hc _ _ _, ?_, ?_⟩
  · intro m
    refine ⟨_, countLoop_eq _ _ hg hc _ _ _, ?_⟩
    intro k
    constructor <;> simp
  · intro i hi
    have hci : IsColor ((g.amove n).guess i) := hg i
    obtain ⟨k, hk, hkj⟩ := index?_isColor hci
    refine ⟨_, k, exactLoop_eq _ _ hg _ _ _ _, hk, ?_, ?_⟩
    · have h1 := countP_take_lt
        (fun i => decide ((g.amove n).guess i = g.guessCode i
          ∧ (g.amove n).guess i = (k.val : Int))) i (by simp [hi, hkj])
      have h2 := hle1 nPeg k
      simp only [List.take_of_length_le (show (List.finRange nPeg).length ≤ nPeg by simp)] at h2
      simp only
      omega
    · have h1 := countP_take_lt
        (fun i => decide ((g.amove n).guess i = g.guessCode i
          ∧ (g.amove n).guess i = (k.val : Int))) i (by simp [hi, hkj])
      have h2 := hle2 nPeg k
      simp only [List.take_of_length_le (show (List.finRange nPeg).length ≤ nPeg by simp)] at h2
      simp only
      omega
  · intro m
    refine ⟨_, exactAssertLoop_eq _ _ hg _ _ _ _ _ (hle1 m) (hle2 m), exactLoop_eq _ _ hg _ _ _ _,
      rfl, ?_⟩
    intro k
    have h1 := hle1 m k
    have h2 := hle2 m k
    constructor
    · simp only; omega
    · simp only; omega

/-- Witness of C21 at code `[1,2,1,1]`, guess `[1,1,2,2]` (both with repeated
colors), row 3. -/
theorem TestGuess_counts_in_range_witness :
    gRepeat.iMove = ((3 : Fin maxMove).val : Int) ∧
    Complete (gRepeat.amove 3).guess ∧ Complete gRepeat.guessCode ∧
    (∃ r, TestGuess gRepeat = some r) ∧
    (∀ m : Nat, ∃ st,
      ((List.finRange nPeg).take m).foldlM (countStep (gRepeat.amove 3).guess gRepeat.guessCode)
          (fun _ => 0, fun _ => 0) = some st ∧
        ∀ k, 0 ≤ st.1 k ∧ 0 ≤ st.2 k) ∧
    ∃ gc cc,
      (List.finRange nPeg).foldlM (countStep (gRepeat.amove 3).guess gRepeat.guessCode)
          (fun _ => 0, fun _ => 0) = some (gc, cc) ∧
      (∀ i : Fin nPeg, (gRepeat.amove 3).guess i = gRepeat.guessCode i →
        ∃ st k,
          ((List.finRange nPeg).take i.val).foldlM
              (exactStep (gRepeat.amove 3).guess gRepeat.guessCode) (gc, cc, 0) = some st ∧
          index? nColor ((gRepeat.amove 3).guess i) = some k ∧ 0 < st.1 k ∧ 0 < st.2.1 k) ∧
      (∀ m : Nat, ∃ st,
        ((List.finRange nPeg).take m).foldlM
            (exactStepAssert (gRepeat.amove 3).guess gRepeat.guessCode) (gc, cc, 0, 0) = some st ∧
          ((List.finRange nPeg).take m).foldlM
            (exactStep (gRepeat.amove 3).guess gRepeat.guessCode) (gc, cc, 0)
              = some (st.1, st.2.1, st.2.2.1) ∧
          st.2.2.2 = 0 ∧ ∀ k, 0 ≤ st.1 k ∧ 0 ≤ st.2.1 k) :=
  ⟨by decide, by decide, by decide,
    TestGuess_counts_in_range gRepeat 3 (by decide) (by decide) (by decide)⟩

/-! ## The move index stays a row (C22) -/

theorem foldlM_some {α β : Type} (f : β → α → Option β) (l : List α)
    (hf : ∀ b, ∀ x ∈ l, ∃ b', f b x = some b') : ∀ b, ∃ b', l.foldlM f b = some b' := by
  induction l with
  | nil => intro b; exact ⟨b, rfl⟩
  | cons x l ih =>
    intro b
    obtain ⟨b1, h1⟩ := hf b x (List.mem_cons_self _ _)
    obtain ⟨b2, h2⟩ := ih (fun b y hy => hf b y (List.mem_cons_of_mem _ hy)) b1
    exact ⟨b2, by simp [List.foldlM_cons, h1, h2]⟩

theorem mem_loopTo {n iy : Int} (h : iy ∈ loopTo n) : 0 ≤ iy ∧ iy ≤ n := by
  simp only [loopTo, List.mem_map, List.mem_range] at h
  obtain ⟨i, hi, rfl⟩ := h
  have := Int.lt_toNat.1 hi
  omega

theorem index?_some_of_range {n : Nat} {j : Int} (h0 : 0 ≤ j) (h1 : j < n) :
    ∃ k : Fin n, index? n j = some k ∧ (k.val : Int) = j := by
  refine ⟨⟨j.toNat, by omega⟩, ?_, ?_⟩
  · simp [index?, h0, h1]
  · simp [Int.toNat_of_nonneg h0]

theorem step_keeps_iMove {e : EVENT} {a a' : APP} (h : WndProc e a = some a')
    (hi : 0 ≤ a.g.iMove ∧ a.g.iMove < 10) : 0 ≤ a'.g.iMove ∧ a'.g.iMove < 10 := by
  rcases WndProc_cases h with h1 | ⟨_, r, hr, h1⟩ | ⟨n, hn, _, _, h1⟩ | ⟨_, _, h1⟩
      | ⟨_, r, hr, h1⟩
  · subst h1; exact hi
  · subst h1
    obtain ⟨h0, _⟩ := NewGame_fresh _ _ r hr
    show 0 ≤ r.1.iMove ∧ r.1.iMove < 10
    rw [h0]; omega
  · subst h1
    show 0 ≤ (afterGuess a.g n).iMove ∧ (afterGuess a.g n).iMove < 10
    simp only [afterGuess]
    split_ifs with h1 h2
    · exact hi
    · show (0 : Int) ≤ (maxMove : Int) - 1 ∧ (maxMove : Int) - 1 < 10
      decide
    · have h3 : ¬ (a.g.iMove + 1 ≥ 10) := h2
      show 0 ≤ a.g.iMove + 1 ∧ a.g.iMove + 1 < 10
      omega
  · subst h1; exact hi
  · subst h1
    obtain ⟨_, p2, _⟩ := DoMouse_pegsOnly hr
    show 0 ≤ r.2.1.iMove ∧ r.2.1.iMove < 10
    rw [p2]; exact hi

theorem Reached_iMove {a : APP} (h : Reached a) : 0 ≤ a.g.iMove ∧ a.g.iMove < 10 := by
  induction h with
  | newGame g m draws r hr =>
    obtain ⟨h0, _⟩ := NewGame_fresh g draws r hr
    show 0 ≤ r.1.iMove ∧ r.1.iMove < 10
    rw [h0]; omega
  | step e _ hstep ih => exact step_keeps_iMove hstep ih

theorem Reached_feasible {a : APP} (h : Reached a) : ∀ i, FeasibleRow (a.g.amove i) := by
  induction h with
  | newGame g m draws r hr =>
    obtain ⟨_, _, _, _, hrows, _, _⟩ := NewGame_fresh g draws r hr
    intro i
    show FeasibleRow (r.1.amove i)
    rw [hrows]
    exact FeasibleRow_blank
  | step e _ hstep ih => exact step_keeps_feasible hstep ih

theorem PaintBoard_some (g : GLOBAL) (hi : 0 ≤ g.iMove ∧ g.iMove < 10)
    (hf : ∀ i, FeasibleRow (g.amove i)) : ∃ imgs, PaintBoard g = some imgs := by
  have hrow : ∀ imgs, ∀ iy ∈ loopTo g.iMove, ∃ imgs', paintRow g imgs iy = some imgs' := by
    intro imgs iy hiy
    obtain ⟨h0, h1⟩ := mem_loopTo hiy
    obtain ⟨r, hr, _⟩ := index?_some_of_range (n := maxMove) h0 (by show iy < 10; omega)
    refine foldlM_some _ _ ?_ imgs
    intro b ix hix
    have hix4 : ix < 4 := List.mem_range.1 hix
    obtain ⟨c, hc, _⟩ := index?_some_of_range (n := nPeg) (j := (ix : Int))
      (by omega) (by show (ix : Int) < 4; omega)
    exact ⟨b ++ [(g.amove r).guess c], by simp [PaintPegSub, getPeg, hr, hc]⟩
  have hres : ∀ imgs, ∀ i ∈ loopTo g.iMove,
      ∃ imgs', (PaintResultSub g i).map (fun k => imgs ++ [k]) = some imgs' := by
    intro imgs i hi'
    obtain ⟨h0, h1⟩ := mem_loopTo hi'
    obtain ⟨r, hr, hrv⟩ := index?_some_of_range (n := maxMove) h0 (by show i < 10; omega)
    obtain ⟨k, hk, _⟩ := PaintResultSub_feasible g r (hf r)
    rw [hrv] at hk
    exact ⟨imgs ++ [k], by simp [hk]⟩
  obtain ⟨imgs1, h1⟩ := foldlM_some _ _ hrow ((List.range nColor).map (fun (i : Nat) => (i : Int)))
  obtain ⟨imgs2, h2⟩ := foldlM_some _ _ hres
    (if g.fGameOver then imgs1 ++ PaintAnswerSub g else imgs1)
  exact ⟨imgs2, by simp only [PaintBoard, h1, Option.bind_eq_bind, Option.some_bind, h2]⟩


theorem Reached_of_reachable {a : APP} (h : Reachable a) : Reached a := by
  induction h with
  | newGame g m draws r hr => exact Reached.newGame g m draws r hr
  | step e _ _ hstep ih => exact Reached.step e ih hstep

theorem Reached_run (es : List EVENT) :
    ∀ a a', Reached a → runEvents es a = some a' → Reached a' := by
  induction es with
  | nil =>
    intro a a' ha h
    simp only [runEvents, List.foldlM_nil, Option.pure_def, Option.some.injEq] at h
    subst h; exact ha
  | cons e es ih =>
    intro a a' ha h
    simp only [runEvents, List.foldlM_cons, Option.bind_eq_bind, Option.bind_eq_some] at h
    obtain ⟨a1, h1, h2⟩ := h
    exact ih a1 a' (Reached.step e ha h1) h2

theorem Reached_trace (es : List EVENT) (a0 a : APP)
    (h : runEvents (evCreate :: es) a0 = some a) : Reached a := by
  simp only [runEvents, List.foldlM_cons, Option.bind_eq_bind, Option.bind_eq_some] at h
  obtain ⟨a1, h1, h2⟩ := h
  exact Reached_run es a1 a (Reached_of_reachable (Reachable_created h1)) h2

/-- C22: in every state reachable from `NewGame` through any sequence of
guess commands, new-game/resign commands, keys and mouse messages,
`0 ≤ iMove < maxMove` holds (also after a loss, where `iMove` is reset to
`maxMove - 1`), so `amove[iMove]` is a row, every row index `0..iMove` of the
loops of `PaintBoard` is a row, and `PaintBoard` makes all its reads in
range. -/
theorem reached_iMove_in_range (a : APP) (h : Reached a) :
    0 ≤ a.g.iMove ∧ a.g.iMove < maxMove ∧
    (∃ n : Fin maxMove, index? maxMove a.g.iMove = some n) ∧
    (∀ iy ∈ loopTo a.g.iMove, ∃ n : Fin maxMove, index? maxMove iy = some n) ∧
    ∃ imgs, PaintBoard a.g = some imgs := by
  obtain ⟨h0, h1⟩ := Reached_iMove h
  refine ⟨h0, h1, ?_, ?_, PaintBoard_some a.g ⟨h0, h1⟩ (Reached_feasible h)⟩
  · obtain ⟨n, hn, _⟩ := index?_some_of_range (n := maxMove) h0 h1
    exact ⟨n, hn⟩
  · intro iy hiy
    obtain ⟨h2, h3⟩ := mem_loopTo hiy
    obtain ⟨n, hn, _⟩ := index?_some_of_range (n := maxMove) h2 (by show iy < 10; omega)
    exact ⟨n, hn⟩

/-- Witness of C22: the state after `lostTrace` and one more guess command
(a game lost at the last row, and the last row scored once more) is
reachable; its move index is `maxMove - 1`. -/
theorem reached_iMove_in_range_witness :
    ∃ a, runEvents (lostTrace ++ [evCommand IDC_GUESS false]) appZero = some a ∧ Reached a ∧
      a.g.fGameOver = true ∧ a.g.fGameWon = false ∧ a.g.iMove = (maxMove : Int) - 1 ∧
      0 ≤ a.g.iMove ∧ a.g.iMove < maxMove ∧
      (∃ n : Fin maxMove, index? maxMove a.g.iMove = some n) ∧
      (∀ iy ∈ loopTo a.g.iMove, ∃ n : Fin maxMove, index? maxMove iy = some n) ∧
      ∃ imgs, PaintBoard a.g = some imgs := by
  have hrun : runEvents (lostTrace ++ [evCommand IDC_GUESS false]) appZero
      = some ((runEvents (lostTrace ++ [evCommand IDC_GUESS false]) appZero).get (by decide)) :=
    (Option.some_get _).symm
  have hreach :
      Reached ((runEvents (lostTrace ++ [evCommand IDC_GUESS false]) appZero).get (by decide)) :=
    Reached_trace (lostTrace.tail ++ [evCommand IDC_GUESS false]) appZero _ hrun
  exact ⟨_, hrun, hreach, by decide, by decide, by decide, reached_iMove_in_range _ hreach⟩

/-! ## The guess allowed on a row with an empty slot (C26) -/

theorem setPeg_eq {g g' : GLOBAL} {iy ix : Int} {peg : PEG} (h : setPeg g iy ix peg = some g') :
    ∃ r c, index? maxMove iy = some r ∧ index? nPeg ix = some c ∧
      g' = { g with amove := (Function.update g.amove r
        ⟨Function.update (g.amove r).guess c peg, (g.amove r).cPosition, (g.amove r).cColor⟩) } := by
  simp only [setPeg, Option.bind_eq_bind, Option.bind_eq_some, Option.pure_def,
    Option.some.injEq] at h
  obtain ⟨r, hr, c, hc, hg⟩ := h
  exact ⟨r, c, hr, hc, hg.symm⟩

theorem getPeg_eq {g : GLOBAL} {iy ix : Int} {peg : PEG} (h : getPeg g iy ix = some peg) :
    ∃ r c, index? maxMove iy = some r ∧ index? nPeg ix = some c ∧ peg = (g.amove r).guess c := by
  simp only [getPeg, Option.bind_eq_bind, Option.bind_eq_some, Option.pure_def,
    Option.some.injEq] at h
  obtain ⟨r, hr, c, hc, hg⟩ := h
  exact ⟨r, c, hr, hc, hg.symm⟩

theorem countPegs_loop (g : GLOBAL) (iy : Int) (r : Fin maxMove) (hr : index? maxMove iy = some r)
    (l : List (Fin nPeg)) (j : Int) :
    l.foldlM
      (fun j i => do
        let peg ← getPeg g iy (i.val : Int)
        pure (if peg ≠ PEG_BLANK then j + 1 else j))
      j = some (j + l.countP (fun i => (g.amove r).guess i ≠ PEG_BLANK)) := by
  have hfun : (fun (j : Int) (i : Fin nPeg) => do
        let peg ← getPeg g iy (i.val : Int)
        pure (if peg ≠ PEG_BLANK then j + 1 else j))
      = fun j i => some (if (g.amove r).guess i ≠ PEG_BLANK then j + 1 else j) := by
    funext j i
    simp [getPeg, hr, index?_val]
  rw [hfun]
  induction l generalizing j with
  | nil => simp
  | cons i l ih =>
    rw [List.foldlM_cons, Option.bind_eq_bind, Option.some_bind, ih, List.countP_cons]
    by_cases hb : (g.amove r).guess i = PEG_BLANK
    · simp [hb]
    · simp [hb]; omega

theorem countPegs_full {g : GLOBAL} {iy : Int} {r : Fin maxMove}
    (hr : index? maxMove iy = some r) (h : countPegs g iy = some (nPeg : Int)) :
    ∀ s, (g.amove r).guess s ≠ PEG_BLANK := by
  rw [countPegs, countPegs_loop g iy r hr] at h
  simp only [Option.some.injEq, zero_add] at h
  have h4 : (List.finRange nPeg).countP (fun i => decide ((g.amove r).guess i ≠ PEG_BLANK))
      = (List.finRange nPeg).length := by
    rw [List.length_finRange]
    exact_mod_cast h
  intro s
  have := (List.countP_eq_length.1 h4) s (List.mem_finRange s)
  simpa using this


theorem dropPeg_row {g g' : GLOBAL} {m : MOUSE} {ixMove iyMove : Int}
    (h : dropPeg g m ixMove iyMove = some g') :
    ∃ r : Fin maxMove, index? maxMove iyMove = some r ∧
      (∀ s, (g'.amove r).guess s = m.pegColor ∨
        ∃ s', (g'.amove r).guess s = (g.amove r).guess s') ∧
      (g'.fGuessAllowed = true →
        g.fGuessAllowed = true ∨ ∀ s, (g'.amove r).guess s ≠ PEG_BLANK) := by
  simp only [dropPeg, Option.bind_eq_bind, Option.bind_eq_some, Option.pure_def,
    Option.some.injEq] at h
  obtain ⟨j, hj, g1, h1, g2, h2, cnt, hcnt, hg⟩ := h
  obtain ⟨r, c, hr, hc, hjv⟩ := getPeg_eq hj
  obtain ⟨r1, c1, hr1, hc1, hg1⟩ := setPeg_eq h1
  have er1 : r1 = r := Option.some.inj (hr1.symm.trans hr)
  subst er1
  have hrow2 : (∀ s, (g2.amove r1).guess s = m.pegColor ∨
      ∃ s', (g2.amove r1).guess s = (g.amove r1).guess s') ∧ g2.fGuessAllowed = g.fGuessAllowed := by
    unfold exchangePeg at h2
    split_ifs at h2 with hw hs
    · rw [hs] at h2
      obtain ⟨r2, c2, hr2, hc2, hg2⟩ := setPeg_eq h2
      have er2 : r2 = r1 := Option.some.inj (hr2.symm.trans hr)
      subst er2
      subst hg2
      subst hg1
      refine ⟨?_, rfl⟩
      intro s
      simp only [Function.update_same]
      by_cases hs2 : s = c2
      · subst hs2
        right
        exact ⟨c, by simp [hjv]⟩
      · rw [Function.update_noteq hs2]
        by_cases hs1 : s = c1
        · subst hs1; left; simp
        · right; exact ⟨s, by rw [Function.update_noteq hs1]⟩
    · simp only [Option.some.injEq] at h2
      subst h2
      subst hg1
      refine ⟨?_, rfl⟩
      intro s
      simp only [Function.update_same]
      by_cases hs1 : s = c1
      · subst hs1; left; simp
      · right; exact ⟨s, by rw [Function.update_noteq hs1]⟩
    · simp only [Option.some.injEq] at h2
      subst h2
      subst hg1
      refine ⟨?_, rfl⟩
      intro s
      simp only [Function.update_same]
      by_cases hs1 : s = c1
      · subst hs1; left; simp
      · right; exact ⟨s, by rw [Function.update_noteq hs1]⟩
  refine ⟨r1, hr, ?_, ?_⟩
  · subst hg
    split_ifs
    · exact hrow2.1
    · exact hrow2.1
  · subst hg
    split_ifs with hfull
    · intro _
      right
      rw [hfull] at hcnt
      exact countPegs_full hr hcnt
    · intro h3
      left
      rw [← hrow2.2]
      exact h3

theorem copyRow_loop (P : PEG → Prop) (iyDst iySrc : Int) (d s : Fin maxMove)
    (hd : index? maxMove iyDst = some d) (hs : index? maxMove iySrc = some s) (hds : d ≠ s)
    (l : List (Fin nPeg)) :
    ∀ g g' : GLOBAL,
      l.foldlM
        (fun g i => do
          let peg ← getPeg g iySrc (i.val : Int)
          setPeg g iyDst (i.val : Int) peg)
        g = some g' →
      (∀ c, P ((g.amove s).guess c)) →
      (∀ c, c ∈ l ∨ P ((g.amove d).guess c)) →
      ∀ c, P ((g'.amove d).guess c) := by
  induction l with
  | nil =>
    intro g g' h _ hdst c
    simp only [List.foldlM_nil, Option.pure_def, Option.some.injEq] at h
    subst h
    rcases hdst c with hc | hc
    · exact absurd hc (List.not_mem_nil c)
    · exact hc
  | cons i l ih =>
    intro g g' h hsrc hdst
    simp only [List.foldlM_cons, Option.bind_eq_bind, Option.bind_eq_some] at h
    obtain ⟨g1, ⟨peg, hpeg, hset⟩, h2⟩ := h
    obtain ⟨r, c0, hr, hc0, hpv⟩ := getPeg_eq hpeg
    have er : r = s := Option.some.inj (hr.symm.trans hs)
    subst er
    have ec0 : c0 = i := Option.some.inj (hc0.symm.trans (index?_val i))
    subst ec0
    obtain ⟨r1, c1, hr1, hc1, hg1⟩ := setPeg_eq hset
    have er1 : r1 = d := Option.some.inj (hr1.symm.trans hd)
    subst er1
    have ec1 : c1 = c0 := Option.some.inj (hc1.symm.trans (index?_val c0))
    subst ec1
    apply ih g1 g' h2
    · intro c
      subst hg1
      simp only [Function.update_noteq (Ne.symm hds)]
      exact hsrc c
    · intro c
      subst hg1
      simp only [Function.update_same]
      by_cases hc : c = c1
      · subst hc
        right
        rw [Function.update_same, hpv]
        exact hsrc c
      · rw [Function.update_noteq hc]
        rcases hdst c with hmem | hP
        · left
          rcases List.mem_cons.1 hmem with h3 | h3
          · exact absurd h3 hc
          · exact h3
        · right; exact hP

theorem copyRow_row (P : PEG → Prop) {g g' : GLOBAL} {iyDst iySrc : Int} {d s : Fin maxMove}
    (hd : index? maxMove iyDst = some d) (hs : index? maxMove iySrc = some s) (hds : d ≠ s)
    (h : copyRow g iyDst iySrc = some g') (hsrc : ∀ c, P ((g.amove s).guess c)) :
    ∀ c, P ((g'.amove d).guess c) :=
  copyRow_loop P iyDst iySrc d s hd hs hds _ g g' h hsrc (fun c => Or.inl (List.mem_finRange c))

theorem mouse_in_well {x y : Int} (h : MouseInArea x y xWell yWell cxWell cyWell = true) :
    IsColor ((x - xWell) / cxPegBox) := by
  simp only [MouseInArea, xWell, yWell, cxWell, cyWell, cxBorder, cyBorder, cxPegBox, cyPegBox,
    decide_eq_true_eq] at h
  simp only [IsColor, xWell, cxBorder, cxPegBox]
  obtain ⟨h1, h2, _, _⟩ := h
  have h3 : x < 8 + 6 * 24 := h2
  constructor
  · omega
  · show _ < (6 : Int)
    omega

theorem DoMouse_kinds {msg : Nat} {x y : Int} {g : GLOBAL} {m : MOUSE}
    {r : Bool × GLOBAL × MOUSE} (h : DoMouse msg x y g m = some r) :
    (r.2.1 = g ∧ r.2.2 = m ∧ (msg = WM_LBUTTONUP → m.fDragging = false)) ∨
    (msg = WM_LBUTTONUP ∧ r.2.1 = g ∧ r.2.2 = { m with fDragging := false }) ∨
    (msg = WM_LBUTTONDOWN ∧ r.2.1 = g ∧ r.2.2.fDragging = true ∧ IsColor r.2.2.pegColor) ∨
    (msg = WM_LBUTTONDOWN ∧ r.2.1 = g ∧ ∃ i s, r.2.2.pegColor = (g.amove i).guess s ∧
      ((r.2.2.pegColor = PEG_BLANK ∧ r.2.2.fDragging = m.fDragging) ∨
       (r.2.2.pegColor ≠ PEG_BLANK ∧ r.2.2.fDragging = true))) ∨
    (msg = WM_LBUTTONDBLCLK ∧ g.iMove ≠ 0 ∧ r.2.2 = m ∧
      ∃ g1, copyRow g g.iMove (g.iMove - 1) = some g1 ∧
        r.2.1 = { g1 with fGuessAllowed := true }) ∨
    (msg = WM_LBUTTONUP ∧ m.fDragging = true ∧ r.2.2 = { m with fDragging := false } ∧
      ∃ ix, dropPeg g { m with fDragging := false } ix g.iMove = some r.2.1) := by
  unfold DoMouse at h
  split_ifs at h with h1 h2 h3 h4 h5 h6 h7 h8 h9 h10 h11 h12
  all_goals first
    | (simp only [Option.some.injEq] at h; subst h
       exact Or.inl ⟨rfl, rfl, fun hup => by simp_all [WM_LBUTTONUP, WM_MOUSEMOVE, WM_LBUTTONDOWN, WM_LBUTTONDBLCLK]⟩)
    | (simp only [Option.some.injEq] at h; subst h
       exact Or.inr (Or.inl ⟨by assumption, rfl, rfl⟩))
    | skip
  · dsimp only at h
    simp only [Option.some.injEq] at h
    subst h
    exact Or.inr (Or.inr (Or.inl ⟨h3, rfl, rfl, mouse_in_well h1⟩))
  · dsimp only at h
    simp only [Option.bind_eq_bind, Option.bind_eq_some] at h
    obtain ⟨peg, hpeg, h⟩ := h
    obtain ⟨i, s, _, _, hpv⟩ := getPeg_eq hpeg
    refine Or.inr (Or.inr (Or.inr (Or.inl ⟨h8, ?_⟩)))
    split_ifs at h with hb
    · simp only [Option.pure_def, Option.some.injEq] at h
      subst h
      exact ⟨rfl, i, s, hpv, Or.inl ⟨hb, rfl⟩⟩
    · simp only [Option.pure_def, Option.some.injEq] at h
      subst h
      exact ⟨rfl, i, s, hpv, Or.inr ⟨hb, rfl⟩⟩
  · dsimp only at h
    split_ifs at h <;>
      (simp only [Option.some.injEq] at h; subst h
       exact Or.inl ⟨rfl, rfl, fun hup => absurd (h9.symm.trans hup) (by decide)⟩)
  · dsimp only at h
    split_ifs at h with hiy
    · simp only [Option.bind_eq_bind, Option.bind_eq_some, Option.pure_def,
        Option.some.injEq] at h
      obtain ⟨g1, hcopy, hr⟩ := h
      subst hr
      rw [hiy] at hcopy
      exact Or.inr (Or.inr (Or.inr (Or.inr (Or.inl ⟨h9, h10, rfl, g1, hcopy, rfl⟩))))
    · simp only [Option.some.injEq] at h; subst h
      exact Or.inl ⟨rfl, rfl, fun hup => absurd (h9.symm.trans hup) (by decide)⟩
  · dsimp only at h
    split_ifs at h with hiy
    · simp only [Option.some.injEq] at h; subst h
      exact Or.inr (Or.inl ⟨h11, rfl, rfl⟩)
    · simp only [Option.map_eq_some'] at h
      obtain ⟨g1, hdrop, hr⟩ := h
      subst hr
      have hiy' : (y - yMove) / cyPegBox = g.iMove := not_not.1 hiy
      rw [hiy'] at hdrop
      exact Or.inr (Or.inr (Or.inr (Or.inr (Or.inr ⟨h11, h12, rfl, _, hdrop⟩))))

theorem PlayInv_button {a : APP} {d d' : Bool} (h : PlayInv a d)
    (hd : d' = true ∨ d' = d ∨ a.mouse.fDragging = false ∨ a.g.fGameOver = true) :
    PlayInv a d' := by
  refine ⟨h.row, h.code, h.pegs, h.below, h.allowed, h.drag, h.blank, ?_⟩
  intro h1 h2 h3
  rcases hd with hd | hd | hd | hd
  · rw [hd] at h2; exact absurd h2 (by decide)
  · exact h.stale h1 (hd ▸ h2) h3
  · rw [hd] at h1; exact absurd h1 (by decide)
  · rw [hd] at h3; exact absurd h3 (by decide)

theorem PlayInv_fresh {g : GLOBAL} {draws : List Nat} {r : GLOBAL × List Nat}
    (hr : NewGame g draws = some r) (m : MOUSE) (hm : m.fDragging = true → IsPeg m.pegColor)
    (ds : List Nat) (d : Bool) : PlayInv ⟨r.1, m, ds⟩ d := by
  obtain ⟨h0, hover, _, hallow, hrows, hcode, _⟩ := NewGame_fresh g draws r hr
  refine ⟨?_, hcode, ?_, ?_, ?_, hm, ?_, ?_⟩
  · show 0 ≤ r.1.iMove ∧ r.1.iMove < 10
    rw [h0]; omega
  · intro i s
    show IsPeg ((r.1.amove i).guess s)
    rw [hrows]
    exact Or.inr rfl
  · intro i hi
    have h1 : (i.val : Int) < r.1.iMove := hi
    rw [h0] at h1
    omega
  · intro h
    have h1 : r.1.fGuessAllowed = true := h
    rw [hallow] at h1
    exact absurd h1 (by decide)
  · intro _ _; exact ⟨hallow, h0, hover⟩
  · intro _ _ _; exact ⟨hallow, h0⟩

theorem afterGuess_allowed (g : GLOBAL) (n : Fin maxMove) :
    (afterGuess g n).fGuessAllowed = false := by
  simp only [afterGuess]
  split_ifs <;> rfl

theorem afterGuess_row (g : GLOBAL) (n : Fin maxMove) (hi : 0 ≤ g.iMove ∧ g.iMove < 10) :
    0 ≤ (afterGuess g n).iMove ∧ (afterGuess g n).iMove < 10 := by
  simp only [afterGuess]
  split_ifs with h1 h2
  · exact hi
  · show (0 : Int) ≤ (maxMove : Int) - 1 ∧ (maxMove : Int) - 1 < 10
    decide
  · have h3 : ¬ (g.iMove + 1 ≥ 10) := h2
    show 0 ≤ g.iMove + 1 ∧ g.iMove + 1 < 10
    omega

theorem fin_eq_of_cast {n : Nat} {i j : Fin n} (h : (i.val : Int) = (j.val : Int)) : i = j :=
  Fin.ext (by exact_mod_cast h)

theorem PlayInv_guess {a : APP} {d : Bool} (h : PlayInv a d)
    (hallow : a.g.fGuessAllowed = true) (n : Fin maxMove) (hn : a.g.iMove = (n.val : Int)) :
    PlayInv { a with g := afterGuess a.g n } d := by
  have hguess : ∀ i, ((afterGuess a.g n).amove i).guess = (a.g.amove i).guess := by
    intro i
    rw [afterGuess_amove]
    by_cases hi : i = n
    · subst hi; rw [Function.update_same]
    · rw [Function.update_noteq hi]
  refine ⟨afterGuess_row a.g n h.row, ?_, ?_, ?_, ?_, h.drag, ?_, ?_⟩
  · show Complete (afterGuess a.g n).guessCode
    rw [afterGuess_guessCode]
    exact h.code
  · intro i s
    show IsPeg (((afterGuess a.g n).amove i).guess s)
    rw [hguess]
    exact h.pegs i s
  · intro i hi
    show Complete ((afterGuess a.g n).amove i).guess
    rw [hguess]
    have hi' : (i.val : Int) < (afterGuess a.g n).iMove := hi
    by_cases hlt : (i.val : Int) < a.g.iMove
    · exact h.below i hlt
    · have hle : (afterGuess a.g n).iMove ≤ a.g.iMove + 1 := by
        rcases afterGuess_iMove a.g n hn with ⟨h1, _⟩ | ⟨h1, _⟩ <;> omega
      exact h.allowed hallow i (by omega)
  · intro h1
    have h2 : (afterGuess a.g n).fGuessAllowed = true := h1
    rw [afterGuess_allowed] at h2
    exact absurd h2 (by decide)
  · intro h1 h2
    have h3 := (h.blank h1 h2).1
    rw [hallow] at h3
    exact absurd h3 (by decide)
  · intro h1 h2 h3
    have h3' : (afterGuess a.g n).fGameOver = false := h3
    have hov : a.g.fGameOver = false := by
      rcases afterGuess_iMove a.g n hn with ⟨_, h4⟩ | ⟨_, h4⟩
      · rw [h4] at h3'; exact absurd h3' (by decide)
      · rw [← h4]; exact h3'
    have h5 := (h.stale h1 h2 hov).1
    rw [hallow] at h5
    exact absurd h5 (by decide)

theorem PlayInv_resign {a : APP} {d : Bool} (h : PlayInv a d) (hpos : a.g.iMove > 0) :
    PlayInv { a with g := { a.g with fGameOver := true, fGameWon := false } } d := by
  refine ⟨h.row, h.code, h.pegs, h.below, h.allowed, h.drag, ?_, ?_⟩
  · intro h1 h2
    have h3 : a.g.iMove = 0 := (h.blank h1 h2).2.1
    omega
  · intro _ _ h3
    exact absurd h3 (show ¬ (true = false) by decide)

theorem PlayInv_command {a : APP} {d : Bool} {w : Nat} {f : Bool} {r : GLOBAL × List Nat}
    (h : PlayInv a d) (hallow : w = IDC_GUESS → a.g.fGuessAllowed = true)
    (hr : DoCommand w f a.draws a.g = some r) :
    PlayInv { a with g := r.1, draws := r.2 } d := by
  rcases DoCommand_cases hr with h1 | ⟨_, _, h3⟩ | ⟨h1, n, h2, _, _, h5⟩ | ⟨_, h2, _, h4⟩
  · subst h1; exact h
  · exact PlayInv_fresh h3 a.mouse h.drag r.2 d
  · subst h5
    exact PlayInv_guess h (hallow h1) n h2
  · subst h4
    exact PlayInv_resign h h2

theorem PlayInv_mouse {msg : Nat} {x y : Int} {a : APP} {d : Bool}
    {r : Bool × GLOBAL × MOUSE} (h : PlayInv a d) (hover : a.g.fGameOver = false)
    (hdown : msg = WM_LBUTTONDOWN → d = false)
    (hr : DoMouse msg x y a.g a.mouse = some r) :
    PlayInv { a with g := r.2.1, mouse := r.2.2 } (buttonAfter msg d) := by
  obtain ⟨b, g', m'⟩ := r
  rcases DoMouse_kinds hr with ⟨h1, h2, h3⟩ | ⟨h1, h2, h3⟩ | ⟨h1, h2, h3, h4⟩
      | ⟨h1, h2, i, s, h3, h4⟩ | ⟨h1, h2, h3, g1, h4, h5⟩ | ⟨h1, h2, h3, ix, h4⟩
  · -- nothing changes
    simp only at h1 h2
    subst h1; subst h2
    apply PlayInv_button h
    by_cases hm1 : msg = WM_LBUTTONDOWN ∨ msg = WM_LBUTTONDBLCLK
    · left; simp [buttonAfter, hm1]
    · by_cases hm2 : msg = WM_LBUTTONUP
      · right; right; left; exact h3 hm2
      · right; left; simp [buttonAfter, hm1, hm2]
  · -- a drag ends off the active row
    simp only at h2 h3
    subst h2; subst h3
    refine ⟨h.row, h.code, h.pegs, h.below, h.allowed, ?_, ?_, ?_⟩
    · intro h5; exact absurd h5 (show ¬ (false = true) by decide)
    · intro h5; exact absurd h5 (show ¬ (false = true) by decide)
    · intro h5; exact absurd h5 (show ¬ (false = true) by decide)
  · -- a drag starts in the well
    simp only at h2 h3 h4
    subst h2
    have hb : buttonAfter msg d = true := by simp [buttonAfter, h1]
    rw [hb]
    refine ⟨h.row, h.code, h.pegs, h.below, h.allowed, fun _ => Or.inl h4,
      fun _ h6 => absurd h4 h6, fun _ h6 => absurd h6 (by decide)⟩
  · -- button down in the move area
    simp only at h2 h3 h4
    subst h2
    have hb : buttonAfter msg d = true := by simp [buttonAfter, h1]
    rw [hb]
    have hpeg : IsPeg m'.pegColor := h3 ▸ h.pegs i s
    refine ⟨h.row, h.code, h.pegs, h.below, h.allowed, fun _ => hpeg, ?_,
      fun _ h6 => absurd h6 (by decide)⟩
    intro h5 h6
    rcases h4 with ⟨_, h8⟩ | ⟨h7, _⟩
    · have h9 : a.mouse.fDragging = true := h8 ▸ h5
      obtain ⟨h10, h11⟩ := h.stale h9 (hdown h1) hover
      exact ⟨h10, h11, hover⟩
    · rcases hpeg with hc | hc
      · exact absurd hc h6
      · exact absurd hc h7
  · -- double click: the row above is copied
    simp only at h3 h5
    subst h3; subst h5
    have hb : buttonAfter msg d = true := by simp [buttonAfter, h1]
    rw [hb]
    obtain ⟨p1, p2, p3, _, _, p6⟩ := copyRow_pegsOnly h4
    obtain ⟨hlo, hhi⟩ := h.row
    obtain ⟨n, hn, hnv⟩ := index?_some_of_range (n := maxMove) hlo hhi
    obtain ⟨n1, hn1, hn1v⟩ := index?_some_of_range (n := maxMove) (j := a.g.iMove - 1)
      (by omega) (by show a.g.iMove - 1 < 10; omega)
    have hne : n ≠ n1 := by
      intro he
      rw [he] at hnv
      omega
    have hcopy := fun P => copyRow_row P hn hn1 hne h4
    refine ⟨?_, ?_, ?_, ?_, ?_, h.drag, ?_, fun _ h6 => absurd h6 (by decide)⟩
    · show 0 ≤ g1.iMove ∧ g1.iMove < 10
      rw [p2]; exact ⟨hlo, hhi⟩
    · show Complete g1.guessCode
      rw [p1]; exact h.code
    · intro i s
      show IsPeg ((g1.amove i).guess s)
      by_cases hi : (i.val : Int) = a.g.iMove
      · have ei : i = n := fin_eq_of_cast (hi.trans hnv.symm)
        subst ei
        exact hcopy IsPeg (h.pegs n1) s
      · rw [p6 i hi]; exact h.pegs i s
    · intro i hi
      show Complete (g1.amove i).guess
      have hi' : (i.val : Int) < g1.iMove := hi
      rw [p2] at hi'
      rw [p6 i (by omega)]
      exact h.below i hi'
    · intro _ i hi
      show Complete (g1.amove i).guess
      have hi' : (i.val : Int) = g1.iMove := hi
      rw [p2] at hi'
      have ei : i = n := fin_eq_of_cast (hi'.trans hnv.symm)
      subst ei
      exact hcopy IsColor (h.below n1 (by omega))
    · intro h6 h7
      have h8 : a.g.iMove = 0 := (h.blank h6 h7).2.1
      exact absurd h8 h2
  · -- a peg is dropped on the active row
    simp only at h3 h4
    subst h3
    obtain ⟨p1, p2, p3, _, _, p6⟩ := dropPeg_pegsOnly h4
    obtain ⟨n, hn, hslot, hallow'⟩ := dropPeg_row h4
    obtain ⟨_, _, hnv⟩ := index?_eq_some hn
    have hpeg : IsPeg a.mouse.pegColor := h.drag h2
    have hpegs : ∀ i s, IsPeg ((g'.amove i).guess s) := by
      intro i s
      by_cases hi : (i.val : Int) = a.g.iMove
      · have ei : i = n := fin_eq_of_cast (hi.trans hnv.symm)
        subst ei
        rcases hslot s with h5 | ⟨s', h5⟩
        · rw [h5]; exact hpeg
        · rw [h5]; exact h.pegs i s'
      · rw [p6 i hi]; exact h.pegs i s
    refine ⟨?_, ?_, hpegs, ?_, ?_, ?_, ?_, ?_⟩
    · show 0 ≤ g'.iMove ∧ g'.iMove < 10
      rw [p2]; exact h.row
    · show Complete g'.guessCode
      rw [p1]; exact h.code
    · intro i hi
      show Complete (g'.amove i).guess
      have hi' : (i.val : Int) < g'.iMove := hi
      rw [p2] at hi'
      rw [p6 i (by omega)]
      exact h.below i hi'
    · intro h5 i hi
      show Complete (g'.amove i).guess
      have hi' : (i.val : Int) = g'.iMove := hi
      rw [p2] at hi'
      have ei : i = n := fin_eq_of_cast (hi'.trans hnv.symm)
      subst ei
      intro s
      rcases hallow' h5 with h6 | h6
      · have hcol : IsColor a.mouse.pegColor := by
          by_contra hnot
          have h7 := (h.blank h2 hnot).1
          rw [h6] at h7
          exact absurd h7 (by decide)
        rcases hslot s with h7 | ⟨s', h7⟩
        · rw [h7]; exact hcol
        · rw [h7]; exact h.allowed h6 i hi' s'
      · rcases hpegs i s with h7 | h7
        · exact h7
        · exact absurd h7 (h6 s)
    · intro h5; exact absurd h5 (show ¬ (false = true) by decide)
    · intro h5; exact absurd h5 (show ¬ (false = true) by decide)
    · intro h5; exact absurd h5 (show ¬ (false = true) by decide)


theorem PlayInv_step {e : EVENT} {a a' : APP} {d : Bool} (h : PlayInv a d)
    (hs : Sendable e a d) (hw : WndProc e a = some a') : PlayInv a' (buttonAfter e.msg d) := by
  unfold WndProc at hw
  split_ifs at hw with h1 h2 h3 h4 h5 h6 h7 h8
  · have hb : buttonAfter e.msg d = d := by rw [h1]; rfl
    rw [hb]
    simp only [Option.map_eq_some'] at hw
    obtain ⟨r, hr, ha⟩ := hw
    subst ha
    exact PlayInv_fresh hr a.mouse h.drag r.2 d
  · have hb : buttonAfter e.msg d = d := by rw [h2]; rfl
    rw [hb]
    simp only [Option.map_eq_some'] at hw
    obtain ⟨r, hr, ha⟩ := hw
    subst ha
    exact PlayInv_command h (fun _ => h3.2) hr
  · have hb : buttonAfter e.msg d = d := by rw [h2]; rfl
    rw [hb]
    simp only [Option.some.injEq] at hw
    subst hw
    exact h
  · have hb : buttonAfter e.msg d = d := by rw [h4]; rfl
    rw [hb]
    simp only [Option.map_eq_some'] at hw
    obtain ⟨r, hr, ha⟩ := hw
    subst ha
    exact PlayInv_command h (hs.2 h4) hr
  · have hb : buttonAfter e.msg d = d := by
      rcases h5 with h5 | h5 <;> (rw [h5]; rfl)
    rw [hb]
    simp only [Option.map_eq_some'] at hw
    obtain ⟨r, hr, ha⟩ := hw
    subst ha
    exact PlayInv_command h (fun _ => h6) hr
  · have hb : buttonAfter e.msg d = d := by
      rcases h5 with h5 | h5 <;> (rw [h5]; rfl)
    rw [hb]
    simp only [Option.some.injEq] at hw
    subst hw
    exact h
  · simp only [Option.some.injEq] at hw
    subst hw
    exact PlayInv_button h (Or.inr (Or.inr (Or.inr h8)))
  · simp only [Option.map_eq_some'] at hw
    obtain ⟨r, hr, ha⟩ := hw
    subst ha
    exact PlayInv_mouse h (by simpa using h8) hs.1 hr
  · have hb : buttonAfter e.msg d = d := by
      have h9 : ¬ (e.msg = WM_LBUTTONDOWN ∨ e.msg = WM_LBUTTONDBLCLK) := fun h10 =>
        h7 (h10.elim (fun x => Or.inr (Or.inl x)) (fun x => Or.inl x))
      have h10 : ¬ e.msg = WM_LBUTTONUP := fun h11 => h7 (Or.inr (Or.inr (Or.inl h11)))
      simp [buttonAfter, h9, h10]
    rw [hb]
    simp only [Option.some.injEq] at hw
    subst hw
    exact h

theorem Played_inv {a : APP} {d : Bool} (h : Played a d) : PlayInv a d := by
  induction h with
  | newGame g m draws r hm hr =>
    exact PlayInv_fresh hr m (fun h1 => absurd (hm ▸ h1) (show ¬ (false = true) by decide)) r.2
      false
  | step e _ hs hw ih => exact PlayInv_step ih hs hw

theorem Reachable_of_played {a : APP} {d : Bool} (h : Played a d) : Reachable a := by
  induction h with
  | newGame g m draws r _ hr => exact Reachable.newGame g m draws r hr
  | step e _ hs hw ih => exact Reachable.step e ih hs.2 hw

theorem Played_run (es : List EVENT) :
    ∀ s s' : APP × Bool, Played s.1 s.2 → playEvents es s = some s' → Played s'.1 s'.2 := by
  induction es with
  | nil =>
    intro s s' hs h
    simp only [playEvents, List.foldlM_nil, Option.pure_def, Option.some.injEq] at h
    subst h; exact hs
  | cons e es ih =>
    intro s s' hs h
    simp only [playEvents, List.foldlM_cons, Option.bind_eq_bind, Option.bind_eq_some] at h
    obtain ⟨s1, h1, h2⟩ := h
    split_ifs at h1 with hsend
    simp only [Option.map_eq_some'] at h1
    obtain ⟨a1, ha1, hs1⟩ := h1
    subst hs1
    exact ih _ s' (Played.step e hs hsend ha1) h2

theorem Played_created {a a' : APP} (hm : a.mouse.fDragging = false)
    (h : WndProc evCreate a = some a') : Played a' false := by
  simp only [WndProc, evCreate, if_true, Option.map_eq_some'] at h
  obtain ⟨r, hr, ha⟩ := h
  subst ha
  exact Played.newGame a.g a.mouse a.draws r hm hr

theorem Played_trace (es : List EVENT) (a0 a1 : APP) (s : APP × Bool)
    (hm : a0.mouse.fDragging = false) (h1 : WndProc evCreate a0 = some a1)
    (h : playEvents es (a1, false) = some s) : Played s.1 s.2 :=
  Played_run es (a1, false) s (Played_created hm h1) h

theorem guess_request_handled {e : EVENT} {a : APP}
    (hrow : a.g.fGuessAllowed = true → ∃ n : Fin maxMove, a.g.iMove = (n.val : Int) ∧
      Complete (a.g.amove n).guess ∧ Complete a.g.guessCode)
    (hadm : Admissible e a)
    (he : (e.msg = WM_COMMAND ∧ e.wParam = IDC_GUESS) ∨ e.msg = WM_KEYDOWN ∨
      e.msg = WM_RBUTTONUP ∨ e.msg = WM_RBUTTONDBLCLK) :
    ∃ a', WndProc e a = some a' := by
  have hcmd : a.g.fGuessAllowed = true →
      ∃ r, DoCommand IDC_GUESS e.fResign a.draws a.g = some r := by
    intro hallow
    obtain ⟨n, hn, hr, hc⟩ := hrow hallow
    exact ⟨_, DoCommand_guess_eq a.g e.fResign a.draws n hn hr hc⟩
  unfold WndProc
  rcases he with ⟨h1, h2⟩ | h1 | h1 | h1
  · obtain ⟨r, hr⟩ := hcmd (hadm h1 h2)
    rw [h2] at *
    simp [h1, WM_COMMAND, WM_CREATE, WM_KEYDOWN, hr]
  · by_cases h3 : e.wParam = VK_RETURN ∧ a.g.fGuessAllowed = true
    · obtain ⟨r, hr⟩ := hcmd h3.2
      simp [h1, WM_CREATE, WM_KEYDOWN, h3, hr]
    · simp [h1, WM_CREATE, WM_KEYDOWN, h3]
  · by_cases h3 : a.g.fGuessAllowed = true
    · obtain ⟨r, hr⟩ := hcmd h3
      simp [h1, WM_CREATE, WM_KEYDOWN, WM_COMMAND, WM_RBUTTONUP, h3, hr]
    · simp [h1, WM_CREATE, WM_KEYDOWN, WM_COMMAND, WM_RBUTTONUP, h3]
  · by_cases h3 : a.g.fGuessAllowed = true
    · obtain ⟨r, hr⟩ := hcmd h3
      simp [h1, WM_CREATE, WM_KEYDOWN, WM_COMMAND, WM_RBUTTONDBLCLK, h3, hr]
    · simp [h1, WM_CREATE, WM_KEYDOWN, WM_COMMAND, WM_RBUTTONDBLCLK, h3]

/-- The invariant under a condition on the messages: in every state of
play, that is every state reachable from `NewGame` by messages in which no
`WM_LBUTTONDOWN` comes while the left button is down (drops from the well,
copies from an earlier row, exchanges within the active row, double-click
copies of the previous row, and any other such messages), keys,
resign/new-game commands and guess commands issued only while
`fGuessAllowed` is TRUE: `fGuessAllowed = TRUE` implies that the active row
`amove[iMove].guess` has no `PEG_BLANK` slot and holds colors only, so
`TestGuess` returns on it; and every guess request (the Guess button, the
Return key, the right mouse button) is handled, with `TestGuess` run only on
a complete row.  `WndProc` itself takes `WM_LBUTTONDOWN` at any time. -/
theorem played_row_complete (a : APP) (d : Bool) (h : Played a d) :
    (a.g.fGuessAllowed = true →
      ∃ n : Fin maxMove, a.g.iMove = (n.val : Int) ∧
        (∀ s, (a.g.amove n).guess s ≠ PEG_BLANK) ∧ Complete (a.g.amove n).guess ∧
        ∃ r, TestGuess a.g = some r) ∧
    (∀ e, Sendable e a d →
      ((e.msg = WM_COMMAND ∧ e.wParam = IDC_GUESS) ∨ e.msg = WM_KEYDOWN ∨
        e.msg = WM_RBUTTONUP ∨ e.msg = WM_RBUTTONDBLCLK) →
      ∃ a', WndProc e a = some a' ∧ Played a' d) := by
  have hinv := Played_inv h
  have hrow : a.g.fGuessAllowed = true → ∃ n : Fin maxMove, a.g.iMove = (n.val : Int) ∧
      Complete (a.g.amove n).guess ∧ Complete a.g.guessCode := by
    intro hallow
    obtain ⟨n, _, hnv⟩ := index?_some_of_range (n := maxMove) hinv.row.1 hinv.row.2
    exact ⟨n, hnv.symm, hinv.allowed hallow n hnv, hinv.code⟩
  constructor
  · intro hallow
    obtain ⟨n, hn, hc, hcode⟩ := hrow hallow
    refine ⟨n, hn, ?_, hc, _, TestGuess_eq a.g n hn hc hcode⟩
    intro s hs
    have h1 : (a.g.amove n).guess s < 6 := (hc s).2
    rw [hs] at h1
    exact absurd h1 (by decide)
  · intro e hs he
    obtain ⟨a', ha'⟩ := guess_request_handled hrow hs.2 he
    refine ⟨a', ha', ?_⟩
    have hb : buttonAfter e.msg d = d := by
      rcases he with ⟨h1, _⟩ | h1 | h1 | h1 <;> (rw [h1]; rfl)
    have hp := Played.step e h hs ha'
    rw [hb] at hp
    exact hp

/-- The state after `copyTrace` is a state of play with the left button up;
its guess is allowed and its active row 1 is `[2,4,5,3]`. -/
theorem played_row_complete_copyTrace :
    ∃ a d, Played a d ∧ view a = ⟨false, false, true, 1, [3, 0, 1, 2], [2, 4, 5, 3], (0, 0)⟩ ∧
      d = false ∧
      (a.g.fGuessAllowed = true →
        ∃ n : Fin maxMove, a.g.iMove = (n.val : Int) ∧
          (∀ s, (a.g.amove n).guess s ≠ PEG_BLANK) ∧ Complete (a.g.amove n).guess ∧
          ∃ r, TestGuess a.g = some r) ∧
      (∀ e, Sendable e a d →
        ((e.msg = WM_COMMAND ∧ e.wParam = IDC_GUESS) ∨ e.msg = WM_KEYDOWN ∨
          e.msg = WM_RBUTTONUP ∨ e.msg = WM_RBUTTONDBLCLK) →
        ∃ a', WndProc e a = some a' ∧ Played a' d) := by
  have hplay : Played
      ((playEvents copyTrace.tail ((WndProc evCreate appZero).get (by decide), false)).get
        (by decide)).1
      ((playEvents copyTrace.tail ((WndProc evCreate appZero).get (by decide), false)).get
        (by decide)).2 :=
    Played_trace copyTrace.tail appZero _ _ (by decide) (Option.some_get _).symm
      (Option.some_get _).symm
  exact ⟨_, _, hplay, by decide, by decide, played_row_complete _ _ hplay⟩

/-- C26, the code at the failing input: after `copyTrace` the active row 1
is `[2,4,5,3]` and `fGuessAllowed = TRUE`.  After `downTwiceTrace` the state
is reachable from `NewGame` by mouse messages and guess requests made while
the guess is allowed, the game is in progress, `fGuessAllowed` is still
TRUE, and slot 0 of the active row 1 holds `PEG_BLANK`: the second
`WM_LBUTTONDOWN` has put `PEG_BLANK` in `pegColor` with `fDragging` left
TRUE, and the `WM_LBUTTONUP` has dropped it on the row.  `TestGuess` then
indexes its color counts out of range, and so does the Return key.  The same
holds after `declinedTrace`. -/
theorem button_down_twice_drops_blank :
    (runEvents copyTrace appZero).map view
      = some ⟨false, false, true, 1, [3, 0, 1, 2], [2, 4, 5, 3], (0, 0)⟩ ∧
    (∃ a, runEvents downTwiceTrace appZero = some a ∧ Reachable a ∧
      view a = ⟨false, false, true, 1, [3, 0, 1, 2], [6, 4, 5, 3], (0, 0)⟩ ∧
      a.g.fGuessAllowed = true ∧ a.g.iMove = 1 ∧ (a.g.amove 1).guess 0 = PEG_BLANK ∧
      TestGuess a.g = none ∧ (WndProc evReturn a).isSome = false) ∧
    (∃ a, runEvents declinedTrace appZero = some a ∧ Reachable a ∧
      view a = ⟨false, false, true, 1, [3, 0, 1, 2], [6, 4, 5, 3], (0, 0)⟩ ∧
      a.g.fGuessAllowed = true ∧ a.g.iMove = 1 ∧ (a.g.amove 1).guess 0 = PEG_BLANK ∧
      TestGuess a.g = none ∧ (WndProc evReturn a).isSome = false) := by
  have hrun1 : runEvents downTwiceTrace appZero
      = some ((runEvents downTwiceTrace appZero).get (by decide)) :=
    (Option.some_get _).symm
  have hreach1 : Reachable ((runEvents downTwiceTrace appZero).get (by decide)) :=
    Reachable_trace downTwiceTrace.tail (by decide) appZero _ hrun1
  have hrun2 : runEvents declinedTrace appZero
      = some ((runEvents declinedTrace appZero).get (by decide)) :=
    (Option.some_get _).symm
  have hreach2 : Reachable ((runEvents declinedTrace appZero).get (by decide)) :=
    Reachable_trace declinedTrace.tail (by decide) appZero _ hrun2
  exact ⟨by decide,
    ⟨_, hrun1, hreach1, by decide, by decide, by decide, by decide, by decide, by decide⟩,
    ⟨_, hrun2, hreach2, by decide, by decide, by decide, by decide, by decide, by decide⟩⟩

/-- Neither trace is a play: `playEvents` refuses the second
`WM_LBUTTONDOWN` of `downTwiceTrace` and of `declinedTrace`. -/
theorem button_down_twice_not_played :
    (playEvents downTwiceTrace.tail ((WndProc evCreate appZero).get (by decide), false)).isSome
      = false ∧
    (playEvents declinedTrace.tail ((WndProc evCreate appZero).get (by decide), false)).isSome
      = false := by
  constructor <;> decide

end MasterMind
